import Mathlib

/-!
Verification of the scored Aho-Corasick automaton in `ac_automation.py`
(`exotic-structures`).  The Python object graph (trie nodes linked by
`d_children` and `fail` references) is embedded as an arena: a list of
`Node` records addressed by index, with node `0` the root.  All mutation
is explicit state passing; the unbounded `while` walks of the source are
given fuel `a.size`, which (as proved below for built automatons) is
always sufficient because failure chains strictly decrease trie depth.
-/

namespace ACAutomation

/-- A trie vertex, mirroring `Automaton.Node`: `label` the incoming edge
character, `d_children` the insertion-ordered child map (character to
node index), `output` the insertion-ordered map from pattern string to
its list of `(ordinal, score)` entries, `fail` the failure link
(`none` before failure construction, as Python initialises it to
`None`). -/
structure Node where
  label : Char
  d_children : List (Char × Nat) := []
  output : List (String × List (Nat × Int)) := []
  fail : Option Nat := none
deriving Repr, DecidableEq, Inhabited

/-- Python `dict.get` on an insertion-ordered association list. -/
def assocGet {α β : Type} [DecidableEq α] : List (α × β) → α → Option β
  | [], _ => none
  | (k', v) :: rest, k => if k' = k then some v else assocGet rest k

/-- `d[k].extend(es)` on a `defaultdict(list)`: append `es` to the list
stored at `k`, creating the key at the end (dict insertion order) when
absent. -/
def assocExtend {α β : Type} [DecidableEq α] : List (α × List β) → α → List β → List (α × List β)
  | [], k, es => [(k, es)]
  | (k', l) :: rest, k, es =>
    if k' = k then (k', l ++ es) :: rest else (k', l) :: assocExtend rest k es

/-- `Node.get_child`: `self.d_children.get(char)`. -/
def Node.get_child (nd : Node) (c : Char) : Option Nat :=
  assocGet nd.d_children c

/-- Update the element at index `i` of a list in place. -/
def listUpd {α : Type} : List α → Nat → (α → α) → List α
  | [], _, _ => []
  | x :: xs, 0, f => f x :: xs
  | x :: xs, i+1, f => x :: listUpd xs i f

/-- The automaton: an arena of nodes, node `0` being the root. -/
structure Automaton where
  nodes : List Node
deriving Repr, DecidableEq, Inhabited

/-- `Automaton.__init__`: a lone root node (Python labels it `'1'`). -/
def Automaton.init : Automaton := ⟨[{ label := '1' }]⟩

/-- Number of allocated nodes. -/
def Automaton.size (a : Automaton) : Nat := a.nodes.length

/-- The node stored at index `i` (arena dereference). -/
def Automaton.nth (a : Automaton) (i : Nat) : Node := a.nodes.getD i default

/-- Replace node `i` by `f` of itself (in-place object mutation). -/
def Automaton.upd (a : Automaton) (i : Nat) (f : Node → Node) : Automaton :=
  ⟨listUpd a.nodes i f⟩

/-- `Node.add_child_if_absent`: `self.d_children.setdefault(char, Node(char))`.
Returns the updated arena and the child's index; a fresh child is pushed
at the end of the arena, so children always have a strictly larger index
than their parent. -/
def add_child_if_absent (a : Automaton) (n : Nat) (c : Char) : Automaton × Nat :=
  match (a.nth n).get_child c with
  | some m => (a, m)
  | none =>
    let m := a.size
    let a1 : Automaton := ⟨a.nodes ++ [{ label := c }]⟩
    (a1.upd n (fun nd => { nd with d_children := nd.d_children ++ [(c, m)] }), m)

/-- The walk of `Automaton._add_word`: descend from `n` along the
characters, creating children on demand; returns the terminal node. -/
def add_word_walk : Automaton → Nat → List Char → Automaton × Nat
  | a, n, [] => (a, n)
  | a, n, c :: cs =>
    let p := add_child_if_absent a n c
    add_word_walk p.1 p.2 cs

/-- `Automaton._add_word(word, idx, h)`: walk/create the path of `word`
from the root and append `(idx, h)` to the terminal node's output list
under key `word` (`self.output[word].append((idx, h))`). -/
def add_word (a : Automaton) (w : String) (idx : Nat) (h : Int) : Automaton :=
  let p := add_word_walk a 0 w.data
  p.1.upd p.2 (fun nd => { nd with output := assocExtend nd.output w [(idx, h)] })

/-- `node.fail` dereferenced; the `getD 0` default is never exercised on a
built automaton (the construction only reads `fail` after assigning it). -/
def fail_of (a : Automaton) (i : Nat) : Nat := (a.nth i).fail.getD 0

/-- The `while not n_fail_ch` loop of `_build_fail`: step the candidate to
its own failure link, look for a child labelled `k`, and break (returning
`none`) upon reaching the root with no such child.  `fuel` bounds the
iterations; `a.size` is enough on every state the construction reaches. -/
def fail_walk (a : Automaton) (k : Char) : Nat → Nat → Option Nat
  | 0, _ => none
  | fuel+1, nf =>
    let nf' := fail_of a nf
    match (a.nth nf').get_child k with
    | some ch => some ch
    | none => if nf' = 0 then none else fail_walk a k fuel nf'

/-- The failure-candidate computation for a child reached from `n` via
`k`: start at `n.fail`; if it has a child for `k` take it, otherwise run
the walk. -/
def fail_candidate (a : Automaton) (n : Nat) (k : Char) : Option Nat :=
  let nf := fail_of a n
  match (a.nth nf).get_child k with
  | some ch => some ch
  | none => fail_walk a k a.size nf

/-- `for key in src.keys(): dst[key].extend(src[key])`. -/
def outExtend (dst src : List (String × List (Nat × Int))) : List (String × List (Nat × Int)) :=
  src.foldl (fun dst kl => assocExtend dst kl.1 kl.2) dst

/-- Body of the inner `for k,v in n.children()` loop of `_build_fail`:
set `v.fail` from the candidate (the root when the walk found nothing),
then extend `v.output` with every entry of `v.fail.output`.  (`v.fail`
and `v` are distinct nodes on every state the construction reaches, so
reading the former after updating the latter matches the Python object
mutation.) -/
def process_child (a : Automaton) (n : Nat) (kv : Char × Nat) : Automaton :=
  let vf := (fail_candidate a n kv.1).getD 0
  let a1 := a.upd kv.2 (fun nd => { nd with fail := some vf })
  let failOut := (a1.nth vf).output
  a1.upd kv.2 (fun nd => { nd with output := outExtend nd.output failOut })

/-- Process all children of a queued node `n`, appending them to the
accumulator `nxt` (Python's `nxt.append(v)`). -/
def process_level_node (a : Automaton) (nxt : List Nat) (n : Nat) : Automaton × List Nat :=
  (a.nth n).d_children.foldl
    (fun st kv => (process_child st.1 n kv, st.2 ++ [kv.2]))
    (a, nxt)

/-- The `while q:` breadth-first loop of `_build_fail`; each round
processes one trie level and queues the next.  `fuel` bounds the rounds;
`a.size` is enough since levels have strictly increasing depth. -/
def bfs : Automaton → List Nat → Nat → Automaton
  | a, _, 0 => a
  | a, [], _+1 => a
  | a, q@(_ :: _), fuel+1 =>
    let st := q.foldl (fun st n => process_level_node st.1 st.2 n) (a, ([] : List Nat))
    bfs st.1 st.2 fuel

/-- `Automaton._build_fail`: root fails to itself, the root's children
fail to the root and seed the queue, then the breadth-first rounds run. -/
def build_fail (a : Automaton) : Automaton :=
  let a1 := a.upd 0 (fun nd => { nd with fail := some 0 })
  let q := (a1.nth 0).d_children.map (·.2)
  let a2 := q.foldl (fun a v => a.upd v (fun nd => { nd with fail := some 0 })) a1
  bfs a2 q a2.size

/-- The insertion loop of `Automaton.build`:
`for i,(w,h) in enumerate(zip(words, h_score)): self._add_word(w, i, h)`.
`zip` silently truncates to the shorter sequence, exactly as in Python. -/
def trie_phase (words : List String) (h_score : List Int) : Automaton :=
  (words.zip h_score).enum.foldl (fun a p => add_word a p.2.1 p.1 p.2.2) Automaton.init

/-- `Automaton.build(words, h_score)`: the insertion loop followed by
`self._build_fail()`. -/
def build (words : List String) (h_score : List Int) : Automaton :=
  build_fail (trie_phase words h_score)

/-- `res[word] += h` on a `Counter`: bump the value at an existing key,
or create the key at the end with value `0 + h`. -/
def counterAdd : List (String × Int) → String → Int → List (String × Int)
  | [], k, h => [(k, h)]
  | (k', v) :: rest, k, h =>
    if k' = k then (k', v + h) :: rest else (k', v) :: counterAdd rest k h

/-- The `while not n_ch` loop of `traverse`: follow failure links looking
for a child labelled `c`, breaking at the root; returns the final
position of the cursor together with the child found, if any. -/
def trav_walk (a : Automaton) (c : Char) : Nat → Nat → Nat × Option Nat
  | 0, n => (n, none)
  | fuel+1, n =>
    let n' := fail_of a n
    match (a.nth n').get_child c with
    | some ch => (n', some ch)
    | none => if n' = 0 then (n', none) else trav_walk a c fuel n'

/-- One character step of `traverse`: try the cursor's own child first,
else run the failure walk. -/
def trav_step (a : Automaton) (n : Nat) (c : Char) : Nat × Option Nat :=
  match (a.nth n).get_child c with
  | some ch => (n, some ch)
  | none => trav_walk a c a.size n

/-- Emission at a matched node: for every key of its output map, for
every `(idx, h)` entry, add `h` to the accumulator at that key whenever
`first <= idx <= last` (Python chained comparison on integers). -/
def emit (a : Automaton) (i : Nat) (first last : Int) (res : List (String × Int)) : List (String × Int) :=
  (a.nth i).output.foldl (fun res kl =>
    kl.2.foldl (fun res e =>
      if first ≤ (e.1 : Int) ∧ (e.1 : Int) ≤ last then counterAdd res kl.1 e.2 else res) res) res

/-- The character loop of `traverse` from cursor `n` with accumulator
`res`. -/
def trav_from (a : Automaton) (first last : Int) : List Char → List (String × Int) → Nat → List (String × Int)
  | [], res, _ => res
  | c :: cs, res, n =>
    match trav_step a n c with
    | (_, some ch) => trav_from a first last cs (emit a ch first last res) ch
    | (n', none) => trav_from a first last cs res n'

/-- `Automaton.traverse(word, first, last)`: scan `word` from the root
with an empty `Counter`. -/
def traverse (a : Automaton) (word : String) (first last : Int) : List (String × Int) :=
  trav_from a first last word.data [] 0

/-- `Counter` lookup: `some v` when the key is present. -/
def counterFind (res : List (String × Int)) (k : String) : Option Int :=
  assocGet res k

/-- `Counter` value with the 0 default of a missing key. -/
def counterVal (res : List (String × Int)) (k : String) : Int :=
  (counterFind res k).getD 0

/-- Extensional equality of two counters with pairwise-distinct keys:
same keys, same values (key order is a dict-insertion artefact). -/
def counterEquiv (m1 m2 : List (String × Int)) : Bool :=
  m1.all (fun p => counterFind m2 p.1 == some p.2) &&
  m2.all (fun p => counterFind m1 p.1 == some p.2)

theorem zip_take_min {α β : Type} (l : List α) (l' : List β) :
    l.zip l' = (l.take (min l.length l'.length)).zip (l'.take (min l.length l'.length)) := by
  induction l generalizing l' with
  | nil => simp
  | cons x xs ih =>
    cases l' with
    | nil => simp
    | cons y ys =>
      simp only [List.length_cons, Nat.succ_min_succ, List.take_succ_cons, List.zip_cons_cons]
      exact congrArg _ (ih ys)

theorem build_take_min (words : List String) (h_score : List Int) :
    build words h_score
      = build (words.take (min words.length h_score.length))
              (h_score.take (min words.length h_score.length)) := by
  have h := zip_take_min words h_score
  simp only [build, trie_phase, ← h]

/-- All conditional `counterAdd`s are skipped when the filter is
unsatisfiable, so an inner emission fold leaves the accumulator alone. -/
theorem emit_inner_skip (w : String) (first last : Int) (hfl : last < first) :
    ∀ (l : List (Nat × Int)) (res : List (String × Int)),
      l.foldl (fun res e =>
        if first ≤ (e.1 : Int) ∧ (e.1 : Int) ≤ last then counterAdd res w e.2 else res) res = res := by
  intro l
  induction l with
  | nil => intro res; rfl
  | cons e l ih =>
    intro res
    have : ¬ (first ≤ (e.1 : Int) ∧ (e.1 : Int) ≤ last) := by
      rintro ⟨h1, h2⟩; exact absurd (le_trans h1 h2) (not_le.mpr hfl)
    simp only [List.foldl_cons, if_neg this, ih]

theorem emit_skip (a : Automaton) (i : Nat) (first last : Int) (hfl : last < first)
    (res : List (String × Int)) : emit a i first last res = res := by
  unfold emit
  generalize (a.nth i).output = out
  induction out generalizing res with
  | nil => rfl
  | cons kl out ih => simp only [List.foldl_cons, emit_inner_skip kl.1 first last hfl, ih]

theorem trav_from_skip (a : Automaton) (first last : Int) (hfl : last < first) :
    ∀ (cs : List Char) (res : List (String × Int)) (n : Nat),
      trav_from a first last cs res n = res := by
  intro cs
  induction cs with
  | nil => intro res n; rfl
  | cons c cs ih =>
    intro res n
    unfold trav_from
    cases h : trav_step a n c with
    | mk n' o =>
      cases o with
      | some ch => simp only [emit_skip a ch first last hfl, ih]
      | none => exact ih res n'

/-- C2: the four concrete scenarios of the test suite reproduce exactly:
the hers/she/her/he/his scores on "shershehishers" over the full range,
the empty result on "xyz", the ordinal-filtered result on range `[1,2]`,
and the caaab scenario with a duplicated pattern over range `[1,5]`. -/
theorem C2_concrete_scenarios :
    counterEquiv (traverse (build ["he","she","his","her","hers"] [1,3,2,4,5]) "shershehishers" 0 4)
      [("hers",10),("she",9),("her",8),("he",3),("his",2)] = true ∧
    traverse (build ["he","she","his","her","hers"] [1,3,2,4,5]) "xyz" 0 2 = [] ∧
    counterEquiv (traverse (build ["he","she","his","her","hers"] [1,3,2,4,5]) "shershehishers" 1 2)
      [("she",9),("his",2)] = true ∧
    counterEquiv (traverse (build ["a","b","c","aa","d","b"] [1,2,3,4,5,6]) "caaab" 1 5)
      [("c",3),("b",8),("aa",8)] = true := by
  decide

/-- C3 counterexample: `build` called with one pattern but two scores does
not fail — it silently constructs the automaton of the zipped (truncated)
pairs, and the resulting automaton reference is fully usable: a traversal
returns the normal score mapping.  (The source has no length check and no
`InvalidInputError`: `build` just iterates `zip(words, h_score)`.) -/
theorem C3_counterexample :
    build ["a"] [1, 2] = build ["a"] [1] ∧
    traverse (build ["a"] [1, 2]) "a" 0 0 = [("a", 1)] := by
  exact ⟨by decide, by decide⟩

/-- C3 amended: when the two sequences differ in length, `build` does not
fail; it behaves exactly as if called on the two sequences truncated to
the shorter length, and returns that (fully usable) automaton. -/
theorem C3_mismatch_truncates (words : List String) (h_score : List Int)
    (_hne : words.length ≠ h_score.length) :
    build words h_score
      = build (words.take (min words.length h_score.length))
              (h_score.take (min words.length h_score.length)) :=
  build_take_min words h_score

theorem C3_mismatch_truncates_witness :
    (["a"] : List String).length ≠ ([1, 2] : List Int).length ∧
    build ["a"] [1, 2]
      = build ((["a"] : List String).take (min (["a"] : List String).length ([1, 2] : List Int).length))
              (([1, 2] : List Int).take (min (["a"] : List String).length ([1, 2] : List Int).length)) :=
  ⟨by decide, C3_mismatch_truncates ["a"] [1, 2] (by decide)⟩

/-- C10: `build` constructs the automaton from the first
`min(len(patterns), len(scores))` pairs and silently ignores the excess
of the longer sequence; every subsequent `traverse` behaves as if only
the truncated prefix had been supplied. -/
theorem C10_truncated_prefix (words : List String) (h_score : List Int) :
    build words h_score
      = build (words.take (min words.length h_score.length))
              (h_score.take (min words.length h_score.length)) ∧
    ∀ (w : String) (first last : Int),
      traverse (build words h_score) w first last
        = traverse (build (words.take (min words.length h_score.length))
                          (h_score.take (min words.length h_score.length))) w first last := by
  refine ⟨build_take_min words h_score, fun w first last => ?_⟩
  rw [build_take_min words h_score]

/-- C4 counterexample: `traverse` with an inverted range (`first > last`)
and with indices far outside `[0, n-1]` does not fail — the source
performs no range validation at all; an inverted range returns the empty
mapping and out-of-bounds indices merely widen the ordinal filter. -/
theorem C4_counterexample :
    traverse (build ["a"] [1]) "a" 2 0 = [] ∧
    traverse (build ["a"] [1]) "a" (-5) 10 = [("a", 1)] := by
  exact ⟨by decide, by decide⟩

/-- C4 amended: `traverse` never signals a range error; the pair
`(first, last)` only feeds the `first <= idx <= last` filter, so whenever
`first > last` the result is the empty mapping, for every automaton and
every text. -/
theorem C4_no_range_validation (a : Automaton) (w : String) (first last : Int)
    (hfl : last < first) : traverse a w first last = [] :=
  trav_from_skip a first last hfl w.data [] 0

theorem C4_no_range_validation_witness :
    (0 : Int) < 2 ∧ traverse (build ["a"] [1]) "a" 2 0 = [] :=
  ⟨by decide, C4_no_range_validation (build ["a"] [1]) "a" 2 0 (by decide)⟩

/-! ### The emission stream

`traverse` visits a sequence of matched nodes that depends only on the
automaton and the text, never on the ordinal range; the range only
filters which `(ordinal, score)` entries reach the accumulator.  The
definitions below expose that stream so the range-filter claims become
list lemmas. -/

/-- All `(pattern, (ordinal, score))` triples a matched node contributes,
in emission order. -/
def emit_all (a : Automaton) (i : Nat) : List (String × Nat × Int) :=
  (a.nth i).output.flatMap (fun kl => kl.2.map (fun e => (kl.1, e)))

/-- The full emission stream of a traversal of `cs` from cursor `n`. -/
def emissions (a : Automaton) : List Char → Nat → List (String × Nat × Int)
  | [], _ => []
  | c :: cs, n =>
    match trav_step a n c with
    | (_, some ch) => emit_all a ch ++ emissions a cs ch
    | (n', none) => emissions a cs n'

/-- Replay a stream into a counter, keeping entries inside the range. -/
def applyEms : List (String × Nat × Int) → Int → Int → List (String × Int) → List (String × Int)
  | [], _, _, res => res
  | e :: es, first, last, res =>
    applyEms es first last
      (if first ≤ (e.2.1 : Int) ∧ (e.2.1 : Int) ≤ last then counterAdd res e.1 e.2.2 else res)

/-- Range-filtered sum of the scores of the stream entries keyed `k`. -/
def sumEms : List (String × Nat × Int) → Int → Int → String → Int
  | [], _, _, _ => 0
  | e :: es, first, last, k =>
    (if e.1 = k ∧ first ≤ (e.2.1 : Int) ∧ (e.2.1 : Int) ≤ last then e.2.2 else 0)
      + sumEms es first last k

/-- Does the stream contain an entry keyed `k` inside the range? -/
def hasEms : List (String × Nat × Int) → Int → Int → String → Bool
  | [], _, _, _ => false
  | e :: es, first, last, k =>
    decide (e.1 = k ∧ first ≤ (e.2.1 : Int) ∧ (e.2.1 : Int) ≤ last) || hasEms es first last k

theorem applyEms_append (l1 l2 : List (String × Nat × Int)) (first last : Int)
    (res : List (String × Int)) :
    applyEms (l1 ++ l2) first last res = applyEms l2 first last (applyEms l1 first last res) := by
  induction l1 generalizing res with
  | nil => rfl
  | cons e l1 ih =>
    simp only [List.cons_append, applyEms]
    exact ih _

theorem emit_eq_applyEms (a : Automaton) (i : Nat) (first last : Int)
    (res : List (String × Int)) :
    emit a i first last res = applyEms (emit_all a i) first last res := by
  unfold emit emit_all
  generalize (a.nth i).output = out
  induction out generalizing res with
  | nil => rfl
  | cons kl out ih =>
    simp only [List.foldl_cons, List.flatMap_cons, applyEms_append, ih]
    congr 1
    generalize kl.2 = l
    induction l generalizing res with
    | nil => rfl
    | cons e l ih2 => simp only [List.foldl_cons, List.map_cons, applyEms, ih2]

theorem trav_from_eq_applyEms (a : Automaton) (first last : Int) :
    ∀ (cs : List Char) (res : List (String × Int)) (n : Nat),
      trav_from a first last cs res n = applyEms (emissions a cs n) first last res := by
  intro cs
  induction cs with
  | nil => intro res n; rfl
  | cons c cs ih =>
    intro res n
    unfold trav_from emissions
    cases h : trav_step a n c with
    | mk n' o =>
      cases o with
      | some ch => simp only [applyEms_append, emit_eq_applyEms, ih]
      | none => exact ih res n'

theorem traverse_eq_applyEms (a : Automaton) (w : String) (first last : Int) :
    traverse a w first last = applyEms (emissions a w.data 0) first last [] :=
  trav_from_eq_applyEms a first last w.data [] 0

theorem counterVal_counterAdd (res : List (String × Int)) (k : String) (h : Int) (k' : String) :
    counterVal (counterAdd res k h) k' = counterVal res k' + (if k = k' then h else 0) := by
  induction res with
  | nil =>
    by_cases hk : k = k' <;>
      simp [counterAdd, counterVal, counterFind, assocGet, hk]
  | cons p res ih =>
    obtain ⟨p1, p2⟩ := p
    by_cases hp : p1 = k
    · by_cases hq : p1 = k'
      · have hk : k = k' := hp ▸ hq
        simp [counterAdd, counterVal, counterFind, assocGet, hp, hq, hk]
      · have hk : ¬ k = k' := fun hh => hq (hh ▸ hp)
        simp [counterAdd, counterVal, counterFind, assocGet, hp, hq, hk]
    · by_cases hq : p1 = k'
      · have hk : ¬ k = k' := fun hh => hp (hh ▸ hq)
        have hk' : ¬ k' = k := fun hh => hk hh.symm
        simp [counterAdd, counterVal, counterFind, assocGet, hp, hq, hk, hk']
      · simpa [counterAdd, counterVal, counterFind, assocGet, hp, hq] using ih

theorem counterFind_counterAdd_none (res : List (String × Int)) (k : String) (h : Int) (k' : String) :
    counterFind (counterAdd res k h) k' = none ↔ counterFind res k' = none ∧ k ≠ k' := by
  induction res with
  | nil =>
    by_cases hk : k = k' <;> simp [counterAdd, counterFind, assocGet, hk]
  | cons p res ih =>
    obtain ⟨p1, p2⟩ := p
    by_cases hp : p1 = k
    · by_cases hq : p1 = k'
      · have hk : k = k' := hp ▸ hq
        simp [counterAdd, counterFind, assocGet, hp, hq, hk]
      · have hk : ¬ k = k' := fun hh => hq (hh ▸ hp)
        simp [counterAdd, counterFind, assocGet, hp, hq, hk]
    · by_cases hq : p1 = k'
      · have hk' : ¬ k' = k := fun hh => hp (hq.trans hh)
        simp [counterAdd, counterFind, assocGet, hp, hq, hk']
      · simpa [counterAdd, counterFind, assocGet, hp, hq] using ih

theorem counterVal_applyEms (es : List (String × Nat × Int)) (first last : Int)
    (res : List (String × Int)) (k : String) :
    counterVal (applyEms es first last res) k = counterVal res k + sumEms es first last k := by
  induction es generalizing res with
  | nil => simp [applyEms, sumEms]
  | cons e es ih =>
    simp only [applyEms, sumEms, ih]
    by_cases hc : first ≤ (e.2.1 : Int) ∧ (e.2.1 : Int) ≤ last
    · by_cases hk : e.1 = k
      · simp [hc, hk, counterVal_counterAdd]
        omega
      · simp [hc, hk, counterVal_counterAdd]
    · have : ¬ (e.1 = k ∧ first ≤ (e.2.1 : Int) ∧ (e.2.1 : Int) ≤ last) := fun h => hc h.2
      simp [hc, this]

theorem counterFind_applyEms_none (es : List (String × Nat × Int)) (first last : Int)
    (res : List (String × Int)) (k : String) :
    counterFind (applyEms es first last res) k = none
      ↔ counterFind res k = none ∧ hasEms es first last k = false := by
  induction es generalizing res with
  | nil => simp [applyEms, hasEms]
  | cons e es ih =>
    simp only [applyEms, hasEms, ih]
    by_cases hc : first ≤ (e.2.1 : Int) ∧ (e.2.1 : Int) ≤ last
    · by_cases hk : e.1 = k
      · simp [hc, hk, counterFind_counterAdd_none]
      · simp [hc, hk, counterFind_counterAdd_none, fun h : e.1 = k => hk h]
    · have : ¬ (e.1 = k ∧ first ≤ (e.2.1 : Int) ∧ (e.2.1 : Int) ≤ last) := fun h => hc h.2
      simp [hc, this]

/-! ### Entry-wise invariants of the arena -/

/-- Every `(ordinal, score)` entry stored anywhere in the arena satisfies
`Q` of its pattern key. -/
def OutP (Q : String → Nat × Int → Prop) (a : Automaton) : Prop :=
  ∀ nd ∈ a.nodes, ∀ kl ∈ nd.output, ∀ e ∈ kl.2, Q kl.1 e

theorem mem_listUpd {α : Type} (l : List α) (i : Nat) (f : α → α) :
    ∀ x ∈ listUpd l i f, x ∈ l ∨ ∃ y ∈ l, x = f y := by
  induction l generalizing i with
  | nil => intro x hx; cases hx
  | cons z l ih =>
    cases i with
    | zero =>
      intro x hx
      rcases List.mem_cons.mp hx with hx | hx
      · exact Or.inr ⟨z, List.mem_cons_self z l, hx⟩
      · exact Or.inl (List.mem_cons_of_mem z hx)
    | succ i =>
      intro x hx
      rcases List.mem_cons.mp hx with hx | hx
      · exact Or.inl (hx ▸ List.mem_cons_self z l)
      · rcases ih i x hx with h | ⟨y, hy, hxy⟩
        · exact Or.inl (List.mem_cons_of_mem z h)
        · exact Or.inr ⟨y, List.mem_cons_of_mem z hy, hxy⟩

theorem assocExtend_entry {α β : Type} [DecidableEq α] :
    ∀ (o : List (α × List β)) (k : α) (es : List β),
      ∀ kl ∈ assocExtend o k es, ∀ e ∈ kl.2,
        (∃ kl' ∈ o, kl'.1 = kl.1 ∧ e ∈ kl'.2) ∨ (kl.1 = k ∧ e ∈ es) := by
  intro o
  induction o with
  | nil =>
    intro k es kl hkl e he
    rcases List.mem_singleton.mp hkl with rfl
    exact Or.inr ⟨rfl, he⟩
  | cons p o ih =>
    intro k es kl hkl e he
    obtain ⟨p1, pl⟩ := p
    by_cases hp : p1 = k
    · simp only [assocExtend, if_pos hp] at hkl
      rcases List.mem_cons.mp hkl with rfl | hkl
      · rcases List.mem_append.mp he with h1 | h2
        · exact Or.inl ⟨(p1, pl), List.mem_cons_self _ _, rfl, h1⟩
        · exact Or.inr ⟨hp, h2⟩
      · exact Or.inl ⟨kl, List.mem_cons_of_mem _ hkl, rfl, he⟩
    · simp only [assocExtend, if_neg hp] at hkl
      rcases List.mem_cons.mp hkl with rfl | hkl
      · exact Or.inl ⟨(p1, pl), List.mem_cons_self _ _, rfl, he⟩
      · rcases ih k es kl hkl e he with ⟨kl', h1, h2, h3⟩ | h
        · exact Or.inl ⟨kl', List.mem_cons_of_mem _ h1, h2, h3⟩
        · exact Or.inr h

theorem OutP_upd (Q : String → Nat × Int → Prop) (a : Automaton) (i : Nat) (f : Node → Node)
    (hf : ∀ nd, (∀ kl ∈ nd.output, ∀ e ∈ kl.2, Q kl.1 e) →
      ∀ kl ∈ (f nd).output, ∀ e ∈ kl.2, Q kl.1 e)
    (ha : OutP Q a) : OutP Q (a.upd i f) := by
  intro nd hnd kl hkl e he
  rcases mem_listUpd a.nodes i f nd hnd with h | ⟨y, hy, rfl⟩
  · exact ha nd h kl hkl e he
  · exact hf y (ha y hy) kl hkl e he

theorem OutP_push (Q : String → Nat × Int → Prop) (a : Automaton) (nd0 : Node)
    (h0 : nd0.output = []) (ha : OutP Q a) : OutP Q ⟨a.nodes ++ [nd0]⟩ := by
  intro nd hnd kl hkl e he
  rcases List.mem_append.mp hnd with h | h
  · exact ha nd h kl hkl e he
  · rcases List.mem_singleton.mp h with rfl
    rw [h0] at hkl
    cases hkl

theorem OutP_nth (Q : String → Nat × Int → Prop) (a : Automaton) (ha : OutP Q a) (i : Nat) :
    ∀ kl ∈ (a.nth i).output, ∀ e ∈ kl.2, Q kl.1 e := by
  by_cases h : i < a.nodes.length
  · have hm : a.nth i ∈ a.nodes := by
      unfold Automaton.nth
      rw [List.getD_eq_getElem a.nodes default h]
      exact List.getElem_mem h
    exact ha _ hm
  · unfold Automaton.nth
    rw [List.getD_eq_default a.nodes default (Nat.le_of_not_lt h)]
    intro kl hkl
    cases hkl

theorem OutP_add_child (Q : String → Nat × Int → Prop) (a : Automaton) (n : Nat) (c : Char)
    (ha : OutP Q a) : OutP Q (add_child_if_absent a n c).1 := by
  unfold add_child_if_absent
  cases (a.nth n).get_child c with
  | some m => exact ha
  | none => exact OutP_upd Q _ n _ (fun nd h => h) (OutP_push Q a _ rfl ha)

theorem OutP_add_word_walk (Q : String → Nat × Int → Prop) :
    ∀ (cs : List Char) (a : Automaton) (n : Nat), OutP Q a → OutP Q (add_word_walk a n cs).1 := by
  intro cs
  induction cs with
  | nil => intro a n ha; exact ha
  | cons c cs ih =>
    intro a n ha
    unfold add_word_walk
    exact ih _ _ (OutP_add_child Q a n c ha)

theorem OutP_add_word (Q : String → Nat × Int → Prop) (a : Automaton) (w : String)
    (idx : Nat) (h : Int) (hQ : Q w (idx, h)) (ha : OutP Q a) :
    OutP Q (add_word a w idx h) := by
  unfold add_word
  apply OutP_upd
  · intro nd hnd kl hkl e he
    rcases assocExtend_entry nd.output w [(idx, h)] kl hkl e he with ⟨kl', h1, h2, h3⟩ | ⟨h1, h2⟩
    · exact h2 ▸ hnd kl' h1 e h3
    · rcases List.mem_singleton.mp h2 with rfl
      exact h1.symm ▸ hQ
  · exact OutP_add_word_walk Q w.data a 0 ha

theorem OutP_init (Q : String → Nat × Int → Prop) : OutP Q Automaton.init := by
  intro nd hnd kl hkl e he
  rcases List.mem_singleton.mp hnd with rfl
  cases hkl

theorem OutP_trie_phase (Q : String → Nat × Int → Prop) (words : List String) (h_score : List Int)
    (hQ : ∀ p ∈ (words.zip h_score).enum, Q p.2.1 (p.1, p.2.2)) :
    OutP Q (trie_phase words h_score) := by
  unfold trie_phase
  have main : ∀ (l : List (Nat × String × Int)) (a : Automaton), OutP Q a →
      (∀ p ∈ l, Q p.2.1 (p.1, p.2.2)) →
      OutP Q (l.foldl (fun a p => add_word a p.2.1 p.1 p.2.2) a) := by
    intro l
    induction l with
    | nil => intro a ha _; exact ha
    | cons p l ih =>
      intro a ha hQ'
      exact ih _ (OutP_add_word Q a p.2.1 p.1 p.2.2 (hQ' p (List.mem_cons_self _ _)) ha)
        (fun q hq => hQ' q (List.mem_cons_of_mem _ hq))
  exact main _ Automaton.init (OutP_init Q) hQ

theorem entriesP_outExtend (Q : String → Nat × Int → Prop) :
    ∀ (src dst : List (String × List (Nat × Int))),
      (∀ kl ∈ dst, ∀ e ∈ kl.2, Q kl.1 e) → (∀ kl ∈ src, ∀ e ∈ kl.2, Q kl.1 e) →
      ∀ kl ∈ outExtend dst src, ∀ e ∈ kl.2, Q kl.1 e := by
  intro src
  induction src with
  | nil => intro dst hd _ kl hkl; exact hd kl hkl
  | cons s src ih =>
    intro dst hd hs
    unfold outExtend
    simp only [List.foldl_cons]
    have hd' : ∀ kl ∈ assocExtend dst s.1 s.2, ∀ e ∈ kl.2, Q kl.1 e := by
      intro kl hkl e he
      rcases assocExtend_entry dst s.1 s.2 kl hkl e he with ⟨kl', h1, h2, h3⟩ | ⟨h1, h2⟩
      · exact h2 ▸ hd kl' h1 e h3
      · exact h1.symm ▸ hs s (List.mem_cons_self _ _) e h2
    exact ih _ hd' (fun kl hkl => hs kl (List.mem_cons_of_mem _ hkl))

theorem OutP_process_child (Q : String → Nat × Int → Prop) (a : Automaton) (n : Nat)
    (kv : Char × Nat) (ha : OutP Q a) : OutP Q (process_child a n kv) := by
  unfold process_child
  have ha1 : OutP Q (a.upd kv.2 (fun nd => { nd with fail := some ((fail_candidate a n kv.1).getD 0) })) :=
    OutP_upd Q a kv.2 _ (fun nd h => h) ha
  apply OutP_upd
  · intro nd hnd
    exact entriesP_outExtend Q _ nd.output hnd (OutP_nth Q _ ha1 _)
  · exact ha1

theorem OutP_children_fold (Q : String → Nat × Int → Prop) (n : Nat) :
    ∀ (l : List (Char × Nat)) (st : Automaton × List Nat), OutP Q st.1 →
      OutP Q (l.foldl (fun st kv => (process_child st.1 n kv, st.2 ++ [kv.2])) st).1 := by
  intro l
  induction l with
  | nil => intro st h; exact h
  | cons kv l ih =>
    intro st h
    exact ih _ (OutP_process_child Q st.1 n kv h)

theorem OutP_process_level_node (Q : String → Nat × Int → Prop) (a : Automaton)
    (nxt : List Nat) (n : Nat) (ha : OutP Q a) : OutP Q (process_level_node a nxt n).1 :=
  OutP_children_fold Q n _ (a, nxt) ha

theorem OutP_qfold (Q : String → Nat × Int → Prop) :
    ∀ (q : List Nat) (st : Automaton × List Nat), OutP Q st.1 →
      OutP Q (q.foldl (fun st n => process_level_node st.1 st.2 n) st).1 := by
  intro q
  induction q with
  | nil => intro st h; exact h
  | cons n q ih =>
    intro st h
    exact ih _ (OutP_process_level_node Q st.1 st.2 n h)

theorem OutP_bfs (Q : String → Nat × Int → Prop) :
    ∀ (fuel : Nat) (a : Automaton) (q : List Nat), OutP Q a → OutP Q (bfs a q fuel) := by
  intro fuel
  induction fuel with
  | zero =>
    intro a q ha
    cases q with
    | nil => exact ha
    | cons n q' => exact ha
  | succ fuel ih =>
    intro a q ha
    cases q with
    | nil => exact ha
    | cons n q' =>
      simp only [bfs]
      exact ih _ _ (OutP_qfold Q (n :: q') (a, []) ha)

theorem OutP_build_fail (Q : String → Nat × Int → Prop) (a : Automaton) (ha : OutP Q a) :
    OutP Q (build_fail a) := by
  unfold build_fail
  apply OutP_bfs
  have h1 : OutP Q (a.upd 0 (fun nd => { nd with fail := some 0 })) :=
    OutP_upd Q a 0 _ (fun nd h => h) ha
  have main : ∀ (l : List Nat) (a' : Automaton), OutP Q a' →
      OutP Q (l.foldl (fun a v => a.upd v (fun nd => { nd with fail := some 0 })) a') := by
    intro l
    induction l with
    | nil => intro a' h; exact h
    | cons v l ih => intro a' h; exact ih _ (OutP_upd Q a' v _ (fun nd hh => hh) h)
  exact main _ _ h1

theorem mem_enumFrom_snd {α : Type} :
    ∀ (l : List α) (i : Nat) (p : Nat × α), p ∈ l.enumFrom i → p.2 ∈ l := by
  intro l
  induction l with
  | nil => intro i p hp; cases hp
  | cons x l ih =>
    intro i p hp
    rcases List.mem_cons.mp hp with rfl | hp
    · exact List.mem_cons_self _ _
    · exact List.mem_cons_of_mem _ (ih (i+1) p hp)

theorem OutP_build (Q : String → Nat × Int → Prop) (words : List String) (h_score : List Int)
    (hQ : ∀ p ∈ (words.zip h_score).enum, Q p.2.1 (p.1, p.2.2)) :
    OutP Q (build words h_score) :=
  OutP_build_fail Q _ (OutP_trie_phase Q words h_score hQ)

theorem emissions_entry (Q : String → Nat × Int → Prop) (a : Automaton) (ha : OutP Q a) :
    ∀ (cs : List Char) (n : Nat), ∀ e ∈ emissions a cs n, Q e.1 e.2 := by
  intro cs
  induction cs with
  | nil => intro n e he; cases he
  | cons c cs ih =>
    intro n e he
    unfold emissions at he
    cases h : trav_step a n c with
    | mk n' o =>
      rw [h] at he
      cases o with
      | some ch =>
        rcases List.mem_append.mp he with h1 | h2
        · unfold emit_all at h1
          rcases List.mem_flatMap.mp h1 with ⟨kl, hkl, hmem⟩
          rcases List.mem_map.mp hmem with ⟨ent, hent, rfl⟩
          exact OutP_nth Q a ha ch kl hkl ent hent
        · exact ih ch e h2
      | none => exact ih n' e he

theorem sumEms_mono (es : List (String × Nat × Int)) (first last first' last' : Int)
    (h1 : first' ≤ first) (h2 : last ≤ last') (k : String)
    (hE : ∀ e ∈ es, 0 ≤ e.2.2) :
    sumEms es first last k ≤ sumEms es first' last' k := by
  induction es with
  | nil => simp [sumEms]
  | cons e es ih =>
    simp only [sumEms]
    have hrec := ih (fun e' he' => hE e' (List.mem_cons_of_mem _ he'))
    have hterm : (if e.1 = k ∧ first ≤ (e.2.1 : Int) ∧ (e.2.1 : Int) ≤ last then e.2.2 else 0)
        ≤ (if e.1 = k ∧ first' ≤ (e.2.1 : Int) ∧ (e.2.1 : Int) ≤ last' then e.2.2 else 0) := by
      by_cases hc : e.1 = k ∧ first ≤ (e.2.1 : Int) ∧ (e.2.1 : Int) ≤ last
      · have hc' : e.1 = k ∧ first' ≤ (e.2.1 : Int) ∧ (e.2.1 : Int) ≤ last' :=
          ⟨hc.1, le_trans h1 hc.2.1, le_trans hc.2.2 h2⟩
        rw [if_pos hc, if_pos hc']
      · have h0 : 0 ≤ e.2.2 := hE e (List.mem_cons_self _ _)
        by_cases hc' : e.1 = k ∧ first' ≤ (e.2.1 : Int) ∧ (e.2.1 : Int) ≤ last'
        · rw [if_neg hc, if_pos hc']; exact h0
        · rw [if_neg hc, if_neg hc']
    exact add_le_add hterm hrec

/-- C7 counterexample: with scores of mixed sign the claim fails as
stated — on `build(["a","a"], [1,-1])` and text `"a"`, the sub-range
`[0,0]` yields score 1 for `"a"` while the wider range `[0,1]` yields 0,
so widening the range decreased the score. -/
theorem C7_counterexample :
    ¬ (counterVal (traverse (build ["a", "a"] [1, -1]) "a" 0 0) "a"
        ≤ counterVal (traverse (build ["a", "a"] [1, -1]) "a" 0 1) "a") := by
  decide

/-- C7 amended: range monotonicity holds whenever every score is
non-negative (in particular for the natural-number scores of the test
suite): for a fixed text, each pattern's score under `[first, last]` is
at most its score under any wider range `[first', last']`, a missing key
counting as 0. -/
theorem C7_monotone_nonneg (P : List String) (S : List Int) (t : String)
    (first last first' last' : Int) (key : String)
    (hS : ∀ s ∈ S, 0 ≤ s) (h1 : first' ≤ first) (h2 : last ≤ last') :
    counterVal (traverse (build P S) t first last) key
      ≤ counterVal (traverse (build P S) t first' last') key := by
  have hOut : OutP (fun _ e => 0 ≤ e.2) (build P S) := by
    apply OutP_build
    intro p hp
    obtain ⟨i, w, s⟩ := p
    exact hS s (List.of_mem_zip (mem_enumFrom_snd _ 0 _ hp)).2
  have hE : ∀ e ∈ emissions (build P S) t.data 0, 0 ≤ e.2.2 :=
    fun e he => emissions_entry _ _ hOut t.data 0 e he
  rw [traverse_eq_applyEms, traverse_eq_applyEms, counterVal_applyEms, counterVal_applyEms]
  exact add_le_add (le_refl _) (sumEms_mono _ first last first' last' h1 h2 key hE)

theorem C7_monotone_nonneg_witness :
    (∀ s ∈ ([1, 2] : List Int), 0 ≤ s) ∧ (0 : Int) ≤ 0 ∧ (0 : Int) ≤ 1 ∧
    counterVal (traverse (build ["a", "a"] [1, 2]) "a" 0 0) "a"
      ≤ counterVal (traverse (build ["a", "a"] [1, 2]) "a" 0 1) "a" :=
  ⟨by decide, by decide, by decide,
    C7_monotone_nonneg ["a", "a"] [1, 2] "a" 0 0 0 1 "a" (by decide) (by decide) (by decide)⟩

/-! ### Additive merging of counters (for the full-range equivalence) -/

/-- `Counter.update`-style additive merge: fold every pair of `m2` into
`m1`. -/
def counterMerge (m1 m2 : List (String × Int)) : List (String × Int) :=
  m2.foldl (fun m p => counterAdd m p.1 p.2) m1

/-- Additive merge of a list of counters, from the empty counter. -/
def mergeAll (ms : List (List (String × Int))) : List (String × Int) :=
  ms.foldl counterMerge []

/-- Sum of the values at key `k` over all pairs of a raw list. -/
def sumPairs : List (String × Int) → String → Int
  | [], _ => 0
  | p :: m, k => (if p.1 = k then p.2 else 0) + sumPairs m k

/-- Does a raw pair list carry the key `k`? -/
def hasKey : List (String × Int) → String → Bool
  | [], _ => false
  | p :: m, k => decide (p.1 = k) || hasKey m k

theorem counterVal_counterMerge (m2 m1 : List (String × Int)) (k : String) :
    counterVal (counterMerge m1 m2) k = counterVal m1 k + sumPairs m2 k := by
  induction m2 generalizing m1 with
  | nil => simp [counterMerge, sumPairs]
  | cons p m2 ih =>
    show counterVal (counterMerge (counterAdd m1 p.1 p.2) m2) k = _
    rw [ih, counterVal_counterAdd]
    simp only [sumPairs]
    omega

theorem counterFind_counterMerge_none (m2 m1 : List (String × Int)) (k : String) :
    counterFind (counterMerge m1 m2) k = none
      ↔ counterFind m1 k = none ∧ hasKey m2 k = false := by
  induction m2 generalizing m1 with
  | nil => simp [counterMerge, hasKey]
  | cons p m2 ih =>
    show counterFind (counterMerge (counterAdd m1 p.1 p.2) m2) k = none ↔ _
    rw [ih, counterFind_counterAdd_none]
    simp only [hasKey, Bool.or_eq_false_iff, decide_eq_false_iff_not]
    tauto

theorem counterFind_none_iff (m : List (String × Int)) (k : String) :
    counterFind m k = none ↔ ∀ p ∈ m, p.1 ≠ k := by
  induction m with
  | nil => simp [counterFind, assocGet]
  | cons p m ih =>
    obtain ⟨p1, p2⟩ := p
    by_cases hp : p1 = k
    · simp [counterFind, assocGet, hp]
    · simp only [counterFind, assocGet, if_neg hp] at ih ⊢
      rw [ih]
      constructor
      · intro h q hq
        rcases List.mem_cons.mp hq with rfl | hq
        · exact hp
        · exact h q hq
      · intro h q hq
        exact h q (List.mem_cons_of_mem _ hq)

theorem hasKey_false_iff (m : List (String × Int)) (k : String) :
    hasKey m k = false ↔ ∀ p ∈ m, p.1 ≠ k := by
  induction m with
  | nil => simp [hasKey]
  | cons p m ih => simp [hasKey, ih]

theorem sumPairs_zero (m : List (String × Int)) (k : String) (h : ∀ p ∈ m, p.1 ≠ k) :
    sumPairs m k = 0 := by
  induction m with
  | nil => rfl
  | cons p m ih =>
    simp only [sumPairs, if_neg (h p (List.mem_cons_self _ _)), zero_add]
    exact ih (fun q hq => h q (List.mem_cons_of_mem _ hq))

theorem sumPairs_eq_counterVal (m : List (String × Int)) (k : String)
    (h : (m.map Prod.fst).Nodup) : sumPairs m k = counterVal m k := by
  induction m with
  | nil => rfl
  | cons p m ih =>
    simp only [List.map_cons, List.nodup_cons] at h
    by_cases hp : p.1 = k
    · have hz : ∀ q ∈ m, q.1 ≠ k := by
        intro q hq hqk
        exact h.1 (hp ▸ hqk ▸ List.mem_map_of_mem Prod.fst hq)
      simp [sumPairs, counterVal, counterFind, assocGet, hp, sumPairs_zero m k hz]
    · simpa [sumPairs, counterVal, counterFind, assocGet, hp] using ih h.2

theorem mem_keys_counterAdd (m : List (String × Int)) (k : String) (h : Int) (k' : String) :
    k' ∈ (counterAdd m k h).map Prod.fst ↔ k' ∈ m.map Prod.fst ∨ k' = k := by
  induction m with
  | nil => simp [counterAdd]
  | cons p m ih =>
    by_cases hp : p.1 = k
    · simp only [counterAdd, if_pos hp, List.map_cons, List.mem_cons]
      constructor
      · rintro (rfl | hh)
        · exact Or.inl (Or.inl rfl)
        · exact Or.inl (Or.inr hh)
      · rintro ((rfl | hh) | rfl)
        · exact Or.inl rfl
        · exact Or.inr hh
        · exact Or.inl hp.symm
    · simp only [counterAdd, if_neg hp, List.map_cons, List.mem_cons, ih]
      tauto

theorem nodupKeys_counterAdd (m : List (String × Int)) (k : String) (h : Int)
    (hm : (m.map Prod.fst).Nodup) : ((counterAdd m k h).map Prod.fst).Nodup := by
  induction m with
  | nil => simp [counterAdd]
  | cons p m ih =>
    simp only [List.map_cons, List.nodup_cons] at hm
    by_cases hp : p.1 = k
    · simp only [counterAdd, if_pos hp, List.map_cons, List.nodup_cons]
      exact hm
    · simp only [counterAdd, if_neg hp, List.map_cons, List.nodup_cons]
      refine ⟨fun hmem => ?_, ih hm.2⟩
      rcases (mem_keys_counterAdd m k h p.1).mp hmem with hh | hh
      · exact hm.1 hh
      · exact hp hh

theorem nodupKeys_applyEms (es : List (String × Nat × Int)) (first last : Int)
    (m : List (String × Int)) (hm : (m.map Prod.fst).Nodup) :
    ((applyEms es first last m).map Prod.fst).Nodup := by
  induction es generalizing m with
  | nil => exact hm
  | cons e es ih =>
    simp only [applyEms]
    by_cases hc : first ≤ (e.2.1 : Int) ∧ (e.2.1 : Int) ≤ last
    · rw [if_pos hc]
      exact ih _ (nodupKeys_counterAdd m e.1 e.2.2 hm)
    · rw [if_neg hc]
      exact ih _ hm

theorem nodupKeys_traverse (a : Automaton) (w : String) (first last : Int) :
    ((traverse a w first last).map Prod.fst).Nodup := by
  rw [traverse_eq_applyEms]
  exact nodupKeys_applyEms _ first last [] List.nodup_nil

theorem counterVal_mergeAll (ms : List (List (String × Int))) (k : String) :
    counterVal (mergeAll ms) k = (ms.map (fun m => sumPairs m k)).sum := by
  have main : ∀ (ms : List (List (String × Int))) (m0 : List (String × Int)),
      counterVal (ms.foldl counterMerge m0) k
        = counterVal m0 k + (ms.map (fun m => sumPairs m k)).sum := by
    intro ms
    induction ms with
    | nil => intro m0; simp
    | cons m ms ih =>
      intro m0
      simp only [List.foldl_cons, List.map_cons, List.sum_cons, ih, counterVal_counterMerge]
      omega
  simpa [counterVal, counterFind, assocGet] using main ms []

theorem counterFind_mergeAll_none (ms : List (List (String × Int))) (k : String) :
    counterFind (mergeAll ms) k = none ↔ ∀ m ∈ ms, hasKey m k = false := by
  have main : ∀ (ms : List (List (String × Int))) (m0 : List (String × Int)),
      counterFind (ms.foldl counterMerge m0) k = none
        ↔ counterFind m0 k = none ∧ ∀ m ∈ ms, hasKey m k = false := by
    intro ms
    induction ms with
    | nil => intro m0; simp
    | cons m ms ih =>
      intro m0
      simp only [List.foldl_cons, ih, counterFind_counterMerge_none]
      constructor
      · rintro ⟨⟨h1, h2⟩, h3⟩
        exact ⟨h1, fun m' hm' => by
          rcases List.mem_cons.mp hm' with rfl | hm'
          · exact h2
          · exact h3 m' hm'⟩
      · rintro ⟨h1, h2⟩
        exact ⟨⟨h1, h2 m (List.mem_cons_self _ _)⟩,
          fun m' hm' => h2 m' (List.mem_cons_of_mem _ hm')⟩
  have h0 : counterFind [] k = none := rfl
  simpa [h0] using main ms []

theorem counterFind_eq_some_counterVal (m : List (String × Int)) (k : String)
    (h : counterFind m k ≠ none) : counterFind m k = some (counterVal m k) := by
  cases hf : counterFind m k with
  | none => exact absurd hf h
  | some v => simp [counterVal, hf]

theorem sumEms_empty_range (es : List (String × Nat × Int)) (first last : Int) (k : String)
    (h : last < first) : sumEms es first last k = 0 := by
  induction es with
  | nil => rfl
  | cons e es ih =>
    have hc : ¬ (e.1 = k ∧ first ≤ (e.2.1 : Int) ∧ (e.2.1 : Int) ≤ last) := by
      rintro ⟨_, h1, h2⟩
      exact absurd (le_trans h1 h2) (not_le.mpr h)
    simp only [sumEms, if_neg hc, zero_add, ih]

theorem sumEms_zero_split (es : List (String × Nat × Int)) (m : Nat) (k : String) :
    sumEms es 0 (m : Int) k
      = sumEms es 0 ((m : Int) - 1) k + sumEms es (m : Int) (m : Int) k := by
  induction es with
  | nil => rfl
  | cons e es ih =>
    simp only [sumEms, ih]
    have : (if e.1 = k ∧ 0 ≤ (e.2.1 : Int) ∧ (e.2.1 : Int) ≤ (m : Int) then e.2.2 else 0)
        = (if e.1 = k ∧ 0 ≤ (e.2.1 : Int) ∧ (e.2.1 : Int) ≤ (m : Int) - 1 then e.2.2 else 0)
          + (if e.1 = k ∧ (m : Int) ≤ (e.2.1 : Int) ∧ (e.2.1 : Int) ≤ (m : Int) then e.2.2 else 0) := by
      by_cases hk : e.1 = k
      · simp only [hk, true_and]
        split_ifs <;> omega
      · have h1 : ¬ (e.1 = k ∧ 0 ≤ (e.2.1 : Int) ∧ (e.2.1 : Int) ≤ (m : Int)) := fun h => hk h.1
        have h2 : ¬ (e.1 = k ∧ 0 ≤ (e.2.1 : Int) ∧ (e.2.1 : Int) ≤ (m : Int) - 1) := fun h => hk h.1
        have h3 : ¬ (e.1 = k ∧ (m : Int) ≤ (e.2.1 : Int) ∧ (e.2.1 : Int) ≤ (m : Int)) := fun h => hk h.1
        rw [if_neg h1, if_neg h2, if_neg h3]
        omega
    omega

theorem hasEms_iff (es : List (String × Nat × Int)) (first last : Int) (k : String) :
    hasEms es first last k = true
      ↔ ∃ e ∈ es, e.1 = k ∧ first ≤ (e.2.1 : Int) ∧ (e.2.1 : Int) ≤ last := by
  induction es with
  | nil => simp [hasEms]
  | cons e es ih => simp [hasEms, ih, List.mem_cons, or_and_right, exists_or]

theorem hasEms_range_split (es : List (String × Nat × Int)) (n : Nat) (k : String) :
    hasEms es 0 ((n : Int) - 1) k = false
      ↔ ∀ i < n, hasEms es (i : Int) (i : Int) k = false := by
  simp only [Bool.eq_false_iff, Ne, hasEms_iff]
  constructor
  · intro h i _ hex
    apply h
    rcases hex with ⟨e, he, hk, h1, h2⟩
    exact ⟨e, he, hk, by omega, by omega⟩
  · intro h hex
    rcases hex with ⟨e, he, hk, h1, h2⟩
    have hi : e.2.1 < n := by omega
    exact h e.2.1 hi ⟨e, he, hk, by omega, by omega⟩

theorem sum_singleton_ranges (es : List (String × Nat × Int)) (k : String) :
    ∀ n : Nat, ((List.range n).map (fun (i : Nat) => sumEms es (i : Int) (i : Int) k)).sum
      = sumEms es 0 ((n : Int) - 1) k := by
  intro n
  induction n with
  | zero =>
    simp only [List.range_zero, List.map_nil, List.sum_nil, Nat.cast_zero]
    exact (sumEms_empty_range es 0 (0 - 1) k (by norm_num)).symm
  | succ n ih =>
    rw [List.range_succ, List.map_append, List.sum_append]
    simp only [List.map_cons, List.map_nil, List.sum_cons, List.sum_nil, add_zero]
    rw [ih]
    have hcast : ((n + 1 : Nat) : Int) - 1 = (n : Int) := by push_cast; ring
    rw [hcast]
    exact (sumEms_zero_split es n k).symm

theorem counterVal_traverse (a : Automaton) (w : String) (f l : Int) (k : String) :
    counterVal (traverse a w f l) k = sumEms (emissions a w.data 0) f l k := by
  rw [traverse_eq_applyEms, counterVal_applyEms]
  simp [counterVal, counterFind, assocGet]

theorem counterFind_traverse_none (a : Automaton) (w : String) (f l : Int) (k : String) :
    counterFind (traverse a w f l) k = none
      ↔ hasEms (emissions a w.data 0) f l k = false := by
  rw [traverse_eq_applyEms, counterFind_applyEms_none]
  simp [counterFind, assocGet]

/-- C8: for an automaton built from `n >= 1` parallel pattern/score
lists and any text, the full-range traversal `[0, n-1]` equals, as a
mapping (same keys, same values), the additive per-key merge of the `n`
single-ordinal traversals `[i, i]`. -/
theorem C8_full_range_merge (P : List String) (S : List Int) (w : String)
    (_hlen : P.length = S.length) (_hn : 1 ≤ P.length) :
    ∀ key, counterFind (traverse (build P S) w 0 ((P.length : Int) - 1)) key
      = counterFind (mergeAll ((List.range P.length).map
          (fun (i : Nat) => traverse (build P S) w (i : Int) (i : Int)))) key := by
  intro key
  by_cases hL : counterFind (traverse (build P S) w 0 ((P.length : Int) - 1)) key = none
  · rw [hL]
    symm
    rw [counterFind_mergeAll_none]
    intro m hm
    rcases List.mem_map.mp hm with ⟨i, hi, rfl⟩
    rw [hasKey_false_iff, ← counterFind_none_iff, counterFind_traverse_none]
    rw [counterFind_traverse_none] at hL
    exact (hasEms_range_split _ P.length key).mp hL i (List.mem_range.mp hi)
  · have hR : ¬ counterFind (mergeAll ((List.range P.length).map
        (fun (i : Nat) => traverse (build P S) w (i : Int) (i : Int)))) key = none := by
      rw [counterFind_mergeAll_none]
      intro hall
      apply hL
      rw [counterFind_traverse_none, hasEms_range_split _ P.length key]
      intro i hi
      have hm := hall _ (List.mem_map_of_mem _ (List.mem_range.mpr hi))
      rw [hasKey_false_iff, ← counterFind_none_iff, counterFind_traverse_none] at hm
      exact hm
    rw [counterFind_eq_some_counterVal _ _ hL, counterFind_eq_some_counterVal _ _ hR]
    congr 1
    rw [counterVal_traverse, counterVal_mergeAll, List.map_map]
    have hmaps : ((List.range P.length).map
          ((fun m => sumPairs m key) ∘ (fun (i : Nat) => traverse (build P S) w (i : Int) (i : Int))))
        = ((List.range P.length).map
          (fun (i : Nat) => sumEms (emissions (build P S) w.data 0) (i : Int) (i : Int) key)) := by
      apply List.map_congr_left
      intro i _
      show sumPairs (traverse (build P S) w (i : Int) (i : Int)) key = _
      rw [sumPairs_eq_counterVal _ _ (nodupKeys_traverse (build P S) w _ _), counterVal_traverse]
    rw [hmaps, sum_singleton_ranges]

theorem C8_full_range_merge_witness :
    (["a", "b"] : List String).length = ([1, 2] : List Int).length ∧
    1 ≤ (["a", "b"] : List String).length ∧
    counterFind (traverse (build ["a", "b"] [1, 2]) "ab" 0 (((["a", "b"] : List String).length : Int) - 1)) "a"
      = counterFind (mergeAll ((List.range (["a", "b"] : List String).length).map
          (fun (i : Nat) => traverse (build ["a", "b"] [1, 2]) "ab" (i : Int) (i : Int)))) "a" :=
  ⟨by decide, by decide, C8_full_range_merge ["a", "b"] [1, 2] "ab" (by decide) (by decide) "a"⟩

/-! ### Structural theory of the trie arena -/

theorem length_listUpd {α : Type} :
    ∀ (l : List α) (i : Nat) (f : α → α), (listUpd l i f).length = l.length := by
  intro l
  induction l with
  | nil => intro i f; rfl
  | cons x xs ih =>
    intro i f
    cases i with
    | zero => rfl
    | succ i => simp only [listUpd, List.length_cons, ih]

theorem getD_listUpd_ne {α : Type} :
    ∀ (l : List α) (i j : Nat) (f : α → α) (d : α), i ≠ j →
      (listUpd l i f).getD j d = l.getD j d := by
  intro l
  induction l with
  | nil => intro i j f d _; cases i <;> rfl
  | cons x xs ih =>
    intro i j f d hij
    cases i with
    | zero =>
      cases j with
      | zero => exact absurd rfl hij
      | succ j => rfl
    | succ i =>
      cases j with
      | zero => rfl
      | succ j => exact ih i j f d (fun h => hij (congrArg Nat.succ h))

theorem getD_listUpd_self {α : Type} :
    ∀ (l : List α) (i : Nat) (f : α → α) (d : α), i < l.length →
      (listUpd l i f).getD i d = f (l.getD i d) := by
  intro l
  induction l with
  | nil => intro i f d h; cases h
  | cons x xs ih =>
    intro i f d h
    cases i with
    | zero => rfl
    | succ i => exact ih i f d (Nat.lt_of_succ_lt_succ h)

theorem listUpd_of_ge {α : Type} :
    ∀ (l : List α) (i : Nat) (f : α → α), l.length ≤ i → listUpd l i f = l := by
  intro l
  induction l with
  | nil => intro i f _; rfl
  | cons x xs ih =>
    intro i f h
    cases i with
    | zero => cases h
    | succ i => simp only [listUpd, ih i f (Nat.le_of_succ_le_succ h)]

theorem size_upd (a : Automaton) (i : Nat) (f : Node → Node) :
    (a.upd i f).size = a.size :=
  length_listUpd a.nodes i f

theorem nth_upd_ne (a : Automaton) (i j : Nat) (f : Node → Node) (h : i ≠ j) :
    (a.upd i f).nth j = a.nth j :=
  getD_listUpd_ne a.nodes i j f default h

theorem nth_upd_self (a : Automaton) (i : Nat) (f : Node → Node) (h : i < a.size) :
    (a.upd i f).nth i = f (a.nth i) :=
  getD_listUpd_self a.nodes i f default h

theorem getD_append_lt {α : Type} :
    ∀ (l l' : List α) (j : Nat) (d : α), j < l.length → (l ++ l').getD j d = l.getD j d := by
  intro l
  induction l with
  | nil => intro l' j d h; cases h
  | cons x xs ih =>
    intro l' j d h
    cases j with
    | zero => rfl
    | succ j => exact ih l' j d (Nat.lt_of_succ_lt_succ h)

theorem getD_append_ge {α : Type} :
    ∀ (l l' : List α) (j : Nat) (d : α), l.length ≤ j →
      (l ++ l').getD j d = l'.getD (j - l.length) d := by
  intro l
  induction l with
  | nil => intro l' j d _; rfl
  | cons x xs ih =>
    intro l' j d h
    cases j with
    | zero => cases h
    | succ j => simpa [Nat.succ_sub_succ] using ih l' j d (Nat.le_of_succ_le_succ h)

theorem getD_ge {α : Type} :
    ∀ (l : List α) (j : Nat) (d : α), l.length ≤ j → l.getD j d = d := by
  intro l
  induction l with
  | nil => intro j d _; rfl
  | cons x xs ih =>
    intro j d h
    cases j with
    | zero => cases h
    | succ j => exact ih j d (Nat.le_of_succ_le_succ h)

/-- From the root, following the characters of `s` through the child
maps, one arrives at node `i`. -/
inductive Reaches (a : Automaton) : List Char → Nat → Prop
  | root : Reaches a [] 0
  | step {s : List Char} {i j : Nat} {c : Char} :
      Reaches a s i → (a.nth i).get_child c = some j → Reaches a (s ++ [c]) j

/-- `s` labels a path of the trie. -/
def IsPath (a : Automaton) (s : List Char) : Prop := ∃ i, Reaches a s i

/-- Structural well-formedness of the arena, as established by the
insertion phase and untouched by failure construction: node `0` exists,
child pointers are valid and strictly increasing (children are pushed
after their parents), sibling edges carry distinct characters, every
node has at most one incoming edge, and every node lies on a path. -/
structure Wf (a : Automaton) : Prop where
  size_pos : 0 < a.size
  child_lt : ∀ i, ∀ kv ∈ (a.nth i).d_children, kv.2 < a.size
  child_gt : ∀ i, ∀ kv ∈ (a.nth i).d_children, i < kv.2
  child_keys_nodup : ∀ i, ((a.nth i).d_children.map Prod.fst).Nodup
  parent_unique : ∀ i j, ∀ kv ∈ (a.nth i).d_children, ∀ kv' ∈ (a.nth j).d_children,
    kv.2 = kv'.2 → i = j ∧ kv = kv'
  reach_all : ∀ i, i < a.size → ∃ s, Reaches a s i

theorem assocGet_none_iff {α β : Type} [DecidableEq α] :
    ∀ (l : List (α × β)) (k : α), assocGet l k = none ↔ ∀ p ∈ l, p.1 ≠ k := by
  intro l
  induction l with
  | nil => intro k; simp [assocGet]
  | cons p l ih =>
    intro k
    obtain ⟨p1, p2⟩ := p
    by_cases hp : p1 = k
    · simp [assocGet, hp]
    · simp only [assocGet, if_neg hp, ih]
      constructor
      · intro h q hq
        rcases List.mem_cons.mp hq with rfl | hq
        · exact hp
        · exact h q hq
      · intro h q hq
        exact h q (List.mem_cons_of_mem _ hq)

theorem assocGet_some_mem {α β : Type} [DecidableEq α] :
    ∀ (l : List (α × β)) (k : α) (v : β), assocGet l k = some v → (k, v) ∈ l := by
  intro l
  induction l with
  | nil => intro k v h; cases h
  | cons p l ih =>
    intro k v h
    obtain ⟨p1, p2⟩ := p
    by_cases hp : p1 = k
    · simp only [assocGet, if_pos hp] at h
      cases h
      exact hp ▸ List.mem_cons_self _ _
    · simp only [assocGet, if_neg hp] at h
      exact List.mem_cons_of_mem _ (ih k v h)

theorem assocGet_mem_some {α β : Type} [DecidableEq α] :
    ∀ (l : List (α × β)) (k : α) (v : β), (l.map Prod.fst).Nodup → (k, v) ∈ l →
      assocGet l k = some v := by
  intro l
  induction l with
  | nil => intro k v _ h; cases h
  | cons p l ih =>
    intro k v hnd h
    obtain ⟨p1, p2⟩ := p
    simp only [List.map_cons, List.nodup_cons] at hnd
    rcases List.mem_cons.mp h with heq | h
    · cases heq
      simp [assocGet]
    · by_cases hp : p1 = k
      · exfalso
        apply hnd.1
        rw [hp]
        exact List.mem_map_of_mem Prod.fst h
      · simp only [assocGet, if_neg hp]
        exact ih k v hnd.2 h

theorem assocGet_append_left {α β : Type} [DecidableEq α] :
    ∀ (l l' : List (α × β)) (k : α) (v : β), assocGet l k = some v →
      assocGet (l ++ l') k = some v := by
  intro l
  induction l with
  | nil => intro l' k v h; cases h
  | cons p l ih =>
    intro l' k v h
    obtain ⟨p1, p2⟩ := p
    by_cases hp : p1 = k
    · simpa [assocGet, hp] using h
    · simp only [assocGet, if_neg hp] at h ⊢
      exact ih l' k v h

theorem assocGet_append_right {α β : Type} [DecidableEq α] :
    ∀ (l l' : List (α × β)) (k : α), assocGet l k = none →
      assocGet (l ++ l') k = assocGet l' k := by
  intro l
  induction l with
  | nil => intro l' k _; rfl
  | cons p l ih =>
    intro l' k h
    obtain ⟨p1, p2⟩ := p
    by_cases hp : p1 = k
    · simp [assocGet, hp] at h
    · simp only [assocGet, if_neg hp] at h ⊢
      exact ih l' k h

theorem reaches_nil_inv (a : Automaton) :
    ∀ (s : List Char) (i : Nat), Reaches a s i → s = [] → i = 0 := by
  intro s i h
  cases h with
  | root => intro _; rfl
  | step hr hc => intro heq; exact absurd heq (by simp)

theorem reaches_snoc_inv (a : Automaton) :
    ∀ (u : List Char) (j : Nat), Reaches a u j → ∀ (s : List Char) (c : Char), u = s ++ [c] →
      ∃ i, Reaches a s i ∧ (a.nth i).get_child c = some j := by
  intro u j h
  cases h with
  | root => intro s c heq; exact absurd heq.symm (by simp)
  | @step s' i' j' c' hr hc =>
    intro s c heq
    rcases List.append_inj' heq rfl with ⟨rfl, hcc⟩
    have hc2 : c' = c := by simpa using hcc
    subst hc2
    exact ⟨i', hr, hc⟩

theorem reach_fun (a : Automaton) :
    ∀ (s : List Char) (i : Nat), Reaches a s i → ∀ i', Reaches a s i' → i = i' := by
  intro s i h
  induction h with
  | root => intro i' hi'; exact (reaches_nil_inv a [] i' hi' rfl).symm
  | @step s0 i0 j0 c0 hr hc ih =>
    intro i' hi'
    rcases reaches_snoc_inv a _ i' hi' s0 c0 rfl with ⟨i1, hr1, hc1⟩
    have he : i0 = i1 := ih i1 hr1
    subst he
    rw [hc] at hc1
    exact Option.some.inj hc1

theorem reaches_len_le (a : Automaton) (hwf : Wf a) :
    ∀ (s : List Char) (i : Nat), Reaches a s i → s.length ≤ i ∧ i < a.size := by
  intro s i h
  induction h with
  | root => exact ⟨Nat.zero_le 0, hwf.size_pos⟩
  | @step s0 i0 j0 c0 hr hc ih =>
    have hmem : (c0, j0) ∈ (a.nth i0).d_children := assocGet_some_mem _ _ _ hc
    have h1 := hwf.child_gt i0 (c0, j0) hmem
    have h2 := hwf.child_lt i0 (c0, j0) hmem
    simp only [List.length_append, List.length_cons, List.length_nil]
    exact ⟨by omega, h2⟩

theorem reach_inj (a : Automaton) (hwf : Wf a) :
    ∀ (s : List Char) (i : Nat), Reaches a s i → ∀ t, Reaches a t i → s = t := by
  intro s i h
  induction h with
  | root =>
    intro t ht
    cases ht with
    | root => rfl
    | @step t' i' j' c' hr' hc' =>
      have hmem := assocGet_some_mem _ _ _ hc'
      exact absurd (hwf.child_gt i' _ hmem) (Nat.not_lt_zero i')
  | @step s0 i0 j0 c0 hr hc ih =>
    intro t ht
    have hmem : (c0, j0) ∈ (a.nth i0).d_children := assocGet_some_mem _ _ _ hc
    cases ht with
    | root => exact absurd (hwf.child_gt i0 _ hmem) (Nat.not_lt_zero i0)
    | @step t' i' j' c' hr' hc' =>
      have hmem' : (c', j0) ∈ (a.nth i').d_children := assocGet_some_mem _ _ _ hc'
      rcases hwf.parent_unique i0 i' (c0, j0) hmem (c', j0) hmem' rfl with ⟨he, hkv⟩
      subst he
      have hcc : c0 = c' := by
        have := congrArg Prod.fst hkv
        simpa using this
      subst hcc
      rw [ih t' hr']

theorem reaches_mono (a a' : Automaton)
    (h : ∀ i c j, (a.nth i).get_child c = some j → (a'.nth i).get_child c = some j) :
    ∀ (s : List Char) (i : Nat), Reaches a s i → Reaches a' s i := by
  intro s i hr
  induction hr with
  | root => exact Reaches.root
  | step hr hc ih => exact Reaches.step ih (h _ _ _ hc)

/-- The failure-link phase rewires `fail` and `output` but never touches
the child structure; two automatons with identical skeletons have the
same paths. -/
def sameSkel (a a' : Automaton) : Prop :=
  a'.size = a.size ∧ ∀ i, (a'.nth i).d_children = (a.nth i).d_children

theorem sameSkel_refl (a : Automaton) : sameSkel a a := ⟨rfl, fun _ => rfl⟩

theorem sameSkel_trans {a b c : Automaton} (h1 : sameSkel a b) (h2 : sameSkel b c) :
    sameSkel a c :=
  ⟨h2.1.trans h1.1, fun i => (h2.2 i).trans (h1.2 i)⟩

theorem sameSkel_reaches {a a' : Automaton} (h : sameSkel a a') (s : List Char) (i : Nat) :
    Reaches a s i ↔ Reaches a' s i := by
  constructor
  · exact reaches_mono a a' (fun i c j hc => by
      unfold Node.get_child at hc ⊢
      rw [h.2 i]
      exact hc) s i
  · exact reaches_mono a' a (fun i c j hc => by
      unfold Node.get_child at hc ⊢
      rw [← h.2 i]
      exact hc) s i

theorem sameSkel_wf {a a' : Automaton} (h : sameSkel a a') (hwf : Wf a) : Wf a' where
  size_pos := h.1 ▸ hwf.size_pos
  child_lt := fun i kv hkv => h.1 ▸ hwf.child_lt i kv (h.2 i ▸ hkv)
  child_gt := fun i kv hkv => hwf.child_gt i kv (h.2 i ▸ hkv)
  child_keys_nodup := fun i => h.2 i ▸ hwf.child_keys_nodup i
  parent_unique := fun i j kv hkv kv' hkv' heq =>
    hwf.parent_unique i j kv (h.2 i ▸ hkv) kv' (h.2 j ▸ hkv') heq
  reach_all := fun i hi => by
    rcases hwf.reach_all i (h.1 ▸ hi) with ⟨s, hs⟩
    exact ⟨s, (sameSkel_reaches h s i).mp hs⟩

theorem add_child_some_eq (a : Automaton) (n : Nat) (c : Char) (m : Nat)
    (hget : (a.nth n).get_child c = some m) :
    add_child_if_absent a n c = (a, m) := by
  unfold add_child_if_absent
  rw [hget]

theorem add_child_none_eq (a : Automaton) (n : Nat) (c : Char)
    (hget : (a.nth n).get_child c = none) :
    add_child_if_absent a n c
      = ((Automaton.mk (a.nodes ++ [{ label := c }])).upd n
          (fun nd => { nd with d_children := nd.d_children ++ [(c, a.size)] }), a.size) := by
  unfold add_child_if_absent
  rw [hget]

theorem nth_push_lt (a : Automaton) (x : Node) (j : Nat) (h : j < a.size) :
    (Automaton.mk (a.nodes ++ [x])).nth j = a.nth j :=
  getD_append_lt a.nodes [x] j default h

theorem nth_push_self (a : Automaton) (x : Node) :
    (Automaton.mk (a.nodes ++ [x])).nth a.size = x := by
  show (a.nodes ++ [x]).getD a.nodes.length default = x
  rw [getD_append_ge a.nodes [x] a.nodes.length default (le_refl _), Nat.sub_self]
  rfl

theorem nth_push_gt (a : Automaton) (x : Node) (j : Nat) (h : a.size < j) :
    (Automaton.mk (a.nodes ++ [x])).nth j = a.nth j := by
  show (a.nodes ++ [x]).getD j default = a.nodes.getD j default
  rw [getD_ge _ j default (by simp [Automaton.size] at h; simp; omega),
    getD_ge a.nodes j default (by simp [Automaton.size] at h; omega)]

theorem size_push (a : Automaton) (x : Node) :
    (Automaton.mk (a.nodes ++ [x])).size = a.size + 1 := by
  show (a.nodes ++ [x]).length = a.nodes.length + 1
  simp

theorem add_child_none_size (a : Automaton) (n : Nat) (c : Char)
    (hget : (a.nth n).get_child c = none) :
    (add_child_if_absent a n c).1.size = a.size + 1 := by
  rw [add_child_none_eq a n c hget]
  show ((Automaton.mk (a.nodes ++ [{ label := c }])).upd n _).size = a.size + 1
  rw [size_upd, size_push]

theorem add_child_none_nth_self (a : Automaton) (n : Nat) (c : Char)
    (hget : (a.nth n).get_child c = none) (hn : n < a.size) :
    (add_child_if_absent a n c).1.nth n
      = { a.nth n with d_children := (a.nth n).d_children ++ [(c, a.size)] } := by
  rw [add_child_none_eq a n c hget]
  show ((Automaton.mk (a.nodes ++ [{ label := c }])).upd n _).nth n = _
  rw [nth_upd_self _ n _ (by rw [size_push]; omega), nth_push_lt a _ n hn]

theorem add_child_none_nth_new (a : Automaton) (n : Nat) (c : Char)
    (hget : (a.nth n).get_child c = none) (hn : n < a.size) :
    (add_child_if_absent a n c).1.nth a.size = { label := c } := by
  rw [add_child_none_eq a n c hget]
  show ((Automaton.mk (a.nodes ++ [{ label := c }])).upd n _).nth a.size = _
  rw [nth_upd_ne _ n a.size _ (by omega), nth_push_self]

theorem add_child_none_nth_other (a : Automaton) (n : Nat) (c : Char) (j : Nat)
    (hget : (a.nth n).get_child c = none) (hj : j ≠ n) (hj2 : j ≠ a.size) :
    (add_child_if_absent a n c).1.nth j = a.nth j := by
  rw [add_child_none_eq a n c hget]
  show ((Automaton.mk (a.nodes ++ [{ label := c }])).upd n _).nth j = _
  rw [nth_upd_ne _ n j _ (fun h => hj h.symm)]
  rcases Nat.lt_trichotomy j a.size with h | h | h
  · exact nth_push_lt a _ j h
  · exact absurd h hj2
  · exact nth_push_gt a _ j h

/-- Children of every node other than `n` are unchanged by
`add_child_if_absent` (the fresh node's child map is empty, like the
out-of-range default). -/
theorem add_child_children_ne (a : Automaton) (n : Nat) (c : Char) (j : Nat)
    (hn : n < a.size) (hj : j ≠ n) :
    ((add_child_if_absent a n c).1.nth j).d_children = (a.nth j).d_children := by
  cases hget : (a.nth n).get_child c with
  | some m => rw [add_child_some_eq a n c m hget]
  | none =>
    by_cases hj2 : j = a.size
    · subst hj2
      rw [add_child_none_nth_new a n c hget hn]
      show ([] : List (Char × Nat)) = (a.nth a.size).d_children
      rw [show a.nth a.size = default from getD_ge a.nodes a.size default (le_refl _)]
      rfl
    · rw [add_child_none_nth_other a n c j hget hj hj2]

theorem add_child_get_pres (a : Automaton) (n : Nat) (c : Char) (hn : n < a.size) :
    ∀ (i : Nat) (c' : Char) (j : Nat), (a.nth i).get_child c' = some j →
      (((add_child_if_absent a n c).1.nth i)).get_child c' = some j := by
  intro i c' j hc
  by_cases hi : i = n
  · subst hi
    cases hget : (a.nth i).get_child c with
    | some m => rw [add_child_some_eq a i c m hget]; exact hc
    | none =>
      rw [add_child_none_nth_self a i c hget hn]
      show assocGet ((a.nth i).d_children ++ [(c, a.size)]) c' = some j
      exact assocGet_append_left _ _ c' j hc
  · unfold Node.get_child
    rw [add_child_children_ne a n c i hn hi]
    exact hc

theorem add_child_reaches (a : Automaton) (n : Nat) (c : Char) (hn : n < a.size) :
    ∀ (s : List Char) (i : Nat), Reaches a s i → Reaches (add_child_if_absent a n c).1 s i :=
  reaches_mono a _ (add_child_get_pres a n c hn)

theorem add_child_get_new (a : Automaton) (n : Nat) (c : Char) (hn : n < a.size) :
    ((add_child_if_absent a n c).1.nth n).get_child c = some (add_child_if_absent a n c).2 := by
  cases hget : (a.nth n).get_child c with
  | some m => rw [add_child_some_eq a n c m hget]; exact hget
  | none =>
    have h2 : (add_child_if_absent a n c).2 = a.size := by
      rw [add_child_none_eq a n c hget]
    rw [add_child_none_nth_self a n c hget hn, h2]
    show assocGet ((a.nth n).d_children ++ [(c, a.size)]) c = some a.size
    rw [assocGet_append_right _ _ c hget]
    simp [assocGet]

theorem add_child_size_le (a : Automaton) (n : Nat) (c : Char) :
    a.size ≤ (add_child_if_absent a n c).1.size := by
  cases hget : (a.nth n).get_child c with
  | some m => rw [add_child_some_eq a n c m hget]
  | none => rw [add_child_none_size a n c hget]; omega

/-- Every child entry of the grown arena is an old entry or the single
fresh edge `(c, a.size)` out of `n`. -/
theorem add_child_entry_cases (a : Automaton) (n : Nat) (c : Char) (hn : n < a.size) :
    ∀ (j : Nat) (kv : Char × Nat), kv ∈ ((add_child_if_absent a n c).1.nth j).d_children →
      kv ∈ (a.nth j).d_children ∨
        (j = n ∧ kv = (c, a.size) ∧ (a.nth n).get_child c = none) := by
  intro j kv hkv
  by_cases hj : j = n
  · subst hj
    cases hget : (a.nth j).get_child c with
    | some m =>
      rw [add_child_some_eq a j c m hget] at hkv
      exact Or.inl hkv
    | none =>
      rw [add_child_none_nth_self a j c hget hn] at hkv
      rcases List.mem_append.mp hkv with h | h
      · exact Or.inl h
      · exact Or.inr ⟨rfl, List.mem_singleton.mp h, rfl⟩
  · rw [show ((add_child_if_absent a n c).1.nth j).d_children = (a.nth j).d_children from
      add_child_children_ne a n c j hn hj] at hkv
    exact Or.inl hkv

theorem wf_add_child (a : Automaton) (n : Nat) (c : Char) (hwf : Wf a) (hn : n < a.size) :
    Wf (add_child_if_absent a n c).1 := by
  cases hget : (a.nth n).get_child c with
  | some m => rw [add_child_some_eq a n c m hget]; exact hwf
  | none =>
    have hsz : (add_child_if_absent a n c).1.size = a.size + 1 :=
      add_child_none_size a n c hget
    constructor
    · rw [hsz]; omega
    · intro i kv hkv
      rcases add_child_entry_cases a n c hn i kv hkv with h | ⟨_, rfl, _⟩
      · have := hwf.child_lt i kv h
        rw [hsz]; omega
      · rw [hsz]
        show a.size < a.size + 1
        omega
    · intro i kv hkv
      rcases add_child_entry_cases a n c hn i kv hkv with h | ⟨rfl, rfl, _⟩
      · exact hwf.child_gt i kv h
      · exact hn
    · intro i
      by_cases hi : i = n
      · subst hi
        rw [add_child_none_nth_self a i c hget hn]
        show (((a.nth i).d_children ++ [(c, a.size)]).map Prod.fst).Nodup
        rw [List.map_append]
        rw [List.nodup_append]
        refine ⟨hwf.child_keys_nodup i, List.nodup_singleton c, ?_⟩
        intro x hx hx2
        rcases List.mem_map.mp hx with ⟨kv, hkv, rfl⟩
        have hxc : kv.1 = c := by simpa using hx2
        have := (assocGet_none_iff (a.nth i).d_children c).mp hget kv hkv
        exact this hxc
      · rw [add_child_children_ne a n c i hn hi]
        exact hwf.child_keys_nodup i
    · intro i j kv hkv kv' hkv' heq
      rcases add_child_entry_cases a n c hn i kv hkv with h1 | ⟨hi, hkv1, _⟩
      · rcases add_child_entry_cases a n c hn j kv' hkv' with h2 | ⟨hj, hkv2, _⟩
        · exact hwf.parent_unique i j kv h1 kv' h2 heq
        · exfalso
          have hlt := hwf.child_lt i kv h1
          rw [heq, hkv2] at hlt
          exact absurd hlt (lt_irrefl a.size)
      · rcases add_child_entry_cases a n c hn j kv' hkv' with h2 | ⟨hj, hkv2, _⟩
        · exfalso
          have hlt := hwf.child_lt j kv' h2
          rw [← heq, hkv1] at hlt
          exact absurd hlt (lt_irrefl a.size)
        · subst hi; subst hj
          exact ⟨rfl, hkv1.trans hkv2.symm⟩
    · intro i hi
      rw [hsz] at hi
      by_cases hlt : i < a.size
      · rcases hwf.reach_all i hlt with ⟨s, hs⟩
        exact ⟨s, add_child_reaches a n c hn s i hs⟩
      · have hie : i = a.size := by omega
        subst hie
        rcases hwf.reach_all n hn with ⟨s, hs⟩
        have hs' := add_child_reaches a n c hn s n hs
        have hg := add_child_get_new a n c hn
        have h2 : (add_child_if_absent a n c).2 = a.size := by
          rw [add_child_none_eq a n c hget]
        rw [h2] at hg
        exact ⟨s ++ [c], Reaches.step hs' hg⟩

theorem add_child_m_lt (a : Automaton) (n : Nat) (c : Char) (hwf : Wf a) (hn : n < a.size) :
    (add_child_if_absent a n c).2 < (add_child_if_absent a n c).1.size := by
  cases hget : (a.nth n).get_child c with
  | some m =>
    rw [add_child_some_eq a n c m hget]
    exact hwf.child_lt n _ (assocGet_some_mem _ _ _ hget)
  | none =>
    have h2 : (add_child_if_absent a n c).2 = a.size := by
      rw [add_child_none_eq a n c hget]
    rw [h2, add_child_none_size a n c hget]
    omega

/-- The walk of `_add_word` preserves well-formedness, grows the arena
monotonically, preserves paths and child edges, and lands its terminal
node at the extension of the start node's path by the walked characters. -/
theorem add_word_walk_bundle :
    ∀ (cs : List Char) (a : Automaton) (n : Nat), Wf a → n < a.size →
      Wf (add_word_walk a n cs).1 ∧
      (add_word_walk a n cs).2 < (add_word_walk a n cs).1.size ∧
      a.size ≤ (add_word_walk a n cs).1.size ∧
      (∀ (i : Nat) (c : Char) (j : Nat), (a.nth i).get_child c = some j →
        (((add_word_walk a n cs).1.nth i)).get_child c = some j) ∧
      (∀ (s : List Char), Reaches a s n →
        Reaches (add_word_walk a n cs).1 (s ++ cs) (add_word_walk a n cs).2) := by
  intro cs
  induction cs with
  | nil =>
    intro a n hwf hn
    refine ⟨hwf, hn, le_refl _, fun i c j h => h, fun s hs => by simpa using hs⟩
  | cons c cs ih =>
    intro a n hwf hn
    have hwf1 := wf_add_child a n c hwf hn
    have hm1 := add_child_m_lt a n c hwf hn
    rcases ih (add_child_if_absent a n c).1 (add_child_if_absent a n c).2 hwf1 hm1 with
      ⟨hA, hB, hC, hD, hE⟩
    have hstep : add_word_walk a n (c :: cs)
        = add_word_walk (add_child_if_absent a n c).1 (add_child_if_absent a n c).2 cs := rfl
    rw [hstep]
    refine ⟨hA, hB, le_trans (add_child_size_le a n c) hC, ?_, ?_⟩
    · intro i c' j h
      exact hD i c' j (add_child_get_pres a n c hn i c' j h)
    · intro s hs
      have hs1 := add_child_reaches a n c hn s n hs
      have hr : Reaches (add_child_if_absent a n c).1 (s ++ [c]) (add_child_if_absent a n c).2 :=
        Reaches.step hs1 (add_child_get_new a n c hn)
      have := hE (s ++ [c]) hr
      simpa [List.append_assoc] using this

theorem upd_of_ge (a : Automaton) (i : Nat) (f : Node → Node) (h : a.size ≤ i) :
    a.upd i f = a := by
  unfold Automaton.upd
  rw [listUpd_of_ge a.nodes i f h]

theorem sameSkel_upd (a : Automaton) (i : Nat) (f : Node → Node)
    (hf : ∀ nd, (f nd).d_children = nd.d_children) : sameSkel a (a.upd i f) := by
  refine ⟨size_upd a i f, fun j => ?_⟩
  by_cases hij : i = j
  · subst hij
    by_cases hi : i < a.size
    · rw [nth_upd_self a i f hi, hf]
    · rw [upd_of_ge a i f (Nat.le_of_not_lt hi)]
  · rw [nth_upd_ne a i j f hij]

theorem wf_add_word (a : Automaton) (w : String) (idx : Nat) (h : Int) (hwf : Wf a) :
    Wf (add_word a w idx h) := by
  unfold add_word
  rcases add_word_walk_bundle w.data a 0 hwf hwf.size_pos with ⟨hA, _, _, _, _⟩
  exact sameSkel_wf (sameSkel_upd _ _ _ (fun nd => rfl)) hA

theorem wf_init : Wf Automaton.init := by
  have hch : ∀ i, (Automaton.init.nth i).d_children = [] := by
    intro i
    cases i with
    | zero => rfl
    | succ i =>
      show ((Automaton.init.nodes).getD (i+1) default).d_children = []
      rw [getD_ge _ (i+1) default (by show 1 ≤ i + 1; omega)]
      rfl
  constructor
  · show 0 < 1; omega
  · intro i kv hkv; rw [hch i] at hkv; cases hkv
  · intro i kv hkv; rw [hch i] at hkv; cases hkv
  · intro i; rw [hch i]; exact List.nodup_nil
  · intro i j kv hkv; rw [hch i] at hkv; cases hkv
  · intro i hi
    have : i = 0 := by
      show i = 0
      have : i < 1 := hi
      omega
    subst this
    exact ⟨[], Reaches.root⟩

theorem wf_trie_phase (words : List String) (h_score : List Int) :
    Wf (trie_phase words h_score) := by
  unfold trie_phase
  have main : ∀ (l : List (Nat × String × Int)) (a : Automaton), Wf a →
      Wf (l.foldl (fun a p => add_word a p.2.1 p.1 p.2.2) a) := by
    intro l
    induction l with
    | nil => intro a ha; exact ha
    | cons p l ih => intro a ha; exact ih _ (wf_add_word a p.2.1 p.1 p.2.2 ha)
  exact main _ Automaton.init wf_init

theorem process_child_eq (a : Automaton) (n : Nat) (kv : Char × Nat) :
    process_child a n kv
      = (a.upd kv.2 (fun nd => { nd with fail := some ((fail_candidate a n kv.1).getD 0) })).upd kv.2
          (fun nd => { nd with output := (outExtend nd.output
            (((a.upd kv.2 (fun nd => { nd with
                fail := some ((fail_candidate a n kv.1).getD 0) })).nth
              ((fail_candidate a n kv.1).getD 0)).output)) }) := rfl

theorem sameSkel_process_child (a : Automaton) (n : Nat) (kv : Char × Nat) :
    sameSkel a (process_child a n kv) := by
  rw [process_child_eq]
  exact sameSkel_trans
    (sameSkel_upd a kv.2
      (fun nd => { nd with fail := some ((fail_candidate a n kv.1).getD 0) }) (fun nd => rfl))
    (sameSkel_upd _ kv.2
      (fun nd => { nd with output := (outExtend nd.output
        (((a.upd kv.2 (fun nd => { nd with
            fail := some ((fail_candidate a n kv.1).getD 0) })).nth
          ((fail_candidate a n kv.1).getD 0)).output)) }) (fun nd => rfl))

theorem sameSkel_children_fold (n : Nat) :
    ∀ (l : List (Char × Nat)) (st : Automaton × List Nat),
      sameSkel st.1 (l.foldl (fun st kv => (process_child st.1 n kv, st.2 ++ [kv.2])) st).1 := by
  intro l
  induction l with
  | nil => intro st; exact sameSkel_refl _
  | cons kv l ih =>
    intro st
    exact sameSkel_trans (sameSkel_process_child st.1 n kv) (ih _)

theorem sameSkel_qfold :
    ∀ (q : List Nat) (st : Automaton × List Nat),
      sameSkel st.1 (q.foldl (fun st n => process_level_node st.1 st.2 n) st).1 := by
  intro q
  induction q with
  | nil => intro st; exact sameSkel_refl _
  | cons n q ih =>
    intro st
    exact sameSkel_trans (sameSkel_children_fold n _ _) (ih _)

theorem sameSkel_bfs :
    ∀ (fuel : Nat) (a : Automaton) (q : List Nat), sameSkel a (bfs a q fuel) := by
  intro fuel
  induction fuel with
  | zero =>
    intro a q
    cases q with
    | nil => exact sameSkel_refl a
    | cons n q' => exact sameSkel_refl a
  | succ fuel ih =>
    intro a q
    cases q with
    | nil => exact sameSkel_refl a
    | cons n q' =>
      simp only [bfs]
      exact sameSkel_trans (sameSkel_qfold (n :: q') (a, [])) (ih _ _)

theorem sameSkel_build_fail (a : Automaton) : sameSkel a (build_fail a) := by
  unfold build_fail
  have h1 : sameSkel a (a.upd 0 (fun nd => { nd with fail := some 0 })) :=
    sameSkel_upd _ _ _ (fun nd => rfl)
  have main : ∀ (l : List Nat) (a' : Automaton),
      sameSkel a' (l.foldl (fun a v => a.upd v (fun nd => { nd with fail := some 0 })) a') := by
    intro l
    induction l with
    | nil => intro a'; exact sameSkel_refl a'
    | cons v l ih =>
      intro a'
      simp only [List.foldl_cons]
      exact sameSkel_trans
        (sameSkel_upd a' v (fun nd => { nd with fail := some 0 }) (fun nd => rfl)) (ih _)
  exact sameSkel_trans (sameSkel_trans h1 (main _ _)) (sameSkel_bfs _ _ _)

theorem wf_build (words : List String) (h_score : List Int) :
    Wf (build words h_score) :=
  sameSkel_wf (sameSkel_build_fail (trie_phase words h_score)) (wf_trie_phase words h_score)

/-! ### Failure links: specification and walk correctness -/

theorem suffix_snoc_mono {u s : List Char} (c : Char) (h : u <:+ s) :
    u ++ [c] <:+ s ++ [c] := by
  rcases h with ⟨t, rfl⟩
  exact ⟨t, (List.append_assoc t u [c]).symm⟩

theorem suffix_snoc_cases {u s : List Char} {c : Char} (h : u <:+ s ++ [c]) :
    u = [] ∨ ∃ u0, u = u0 ++ [c] ∧ u0 <:+ s := by
  rcases List.eq_nil_or_concat u with rfl | ⟨u0, c', rfl⟩
  · exact Or.inl rfl
  · simp only [List.concat_eq_append] at h ⊢
    rcases h with ⟨t, ht⟩
    rw [← List.append_assoc] at ht
    rcases List.append_inj' ht rfl with ⟨h1, h2⟩
    have hc : c' = c := by simpa using h2
    subst hc
    exact Or.inr ⟨u0, rfl, ⟨t, h1⟩⟩

theorem suffix_of_suffix_le {u t s : List Char} (hu : u <:+ s) (ht : t <:+ s)
    (hle : u.length ≤ t.length) : u <:+ t := by
  rcases hu with ⟨x, rfl⟩
  rcases ht with ⟨y, hy⟩
  have hx : u = (y ++ t).drop x.length := by
    rw [hy]; simp
  have hlen : x.length = y.length + (t.length - u.length) := by
    have h1 : x.length + u.length = y.length + t.length := by
      have := congrArg List.length hy
      simp at this
      omega
    omega
  rw [hx, hlen, List.drop_append_eq_append_drop]
  simp only [List.drop_of_length_le (by omega : y.length ≤ y.length + (t.length - u.length)),
    List.nil_append]
  exact List.drop_suffix _ _

theorem prefix_snoc_cases {t s : List Char} {c : Char} (h : t <+: s ++ [c]) :
    t = s ++ [c] ∨ t <+: s := by
  rcases h with ⟨r, hr⟩
  rcases List.eq_nil_or_concat r with rfl | ⟨r0, c', rfl⟩
  · exact Or.inl (by simpa using hr)
  · simp only [List.concat_eq_append] at hr
    rw [← List.append_assoc] at hr
    rcases List.append_inj' hr rfl with ⟨h1, _⟩
    exact Or.inr ⟨r0, h1⟩

theorem reaches_prefix (a : Automaton) :
    ∀ (s : List Char) (i : Nat), Reaches a s i → ∀ t, t <+: s → ∃ j, Reaches a t j := by
  intro s i h
  induction h with
  | root =>
    intro t ht
    rw [List.prefix_nil.mp ht]
    exact ⟨0, Reaches.root⟩
  | @step s0 i0 j0 c0 hr hc ih =>
    intro t ht
    rcases prefix_snoc_cases ht with rfl | ht0
    · exact ⟨j0, Reaches.step hr hc⟩
    · exact ih t ht0

/-- `t` is the longest proper suffix of `s` that is a trie path — the
specification of a failure link (root when `t = []`). -/
def Lpsuf (a : Automaton) (s t : List Char) : Prop :=
  t <:+ s ∧ t.length < s.length ∧ IsPath a t ∧
    ∀ u, u <:+ s → u.length < s.length → IsPath a u → u.length ≤ t.length

/-- Failure links are set and correct for the root and for every node of
depth at most `D`. -/
def FailBelow (a : Automaton) (D : Nat) : Prop :=
  (a.nth 0).fail = some 0 ∧
  ∀ i s, Reaches a s i → s.length ≤ D → i ≠ 0 →
    ∃ f t, (a.nth i).fail = some f ∧ Reaches a t f ∧ Lpsuf a s t

theorem fail_walk_eq_trav_walk (a : Automaton) (k : Char) :
    ∀ (fuel n : Nat), fail_walk a k fuel n = (trav_walk a k fuel n).2 := by
  intro fuel
  induction fuel with
  | zero => intro n; rfl
  | succ fuel ih =>
    intro n
    show fail_walk a k (fuel + 1) n = (trav_walk a k (fuel + 1) n).2
    unfold fail_walk trav_walk
    cases h : (a.nth (fail_of a n)).get_child k with
    | some ch => simp [h]
    | none =>
      by_cases h0 : fail_of a n = 0
      · rw [h0] at h
        simp [h, h0]
      · simp [h, h0, ih]

theorem fail_candidate_eq (a : Automaton) (n : Nat) (k : Char) :
    fail_candidate a n k = (trav_step a (fail_of a n) k).2 := by
  unfold fail_candidate trav_step
  cases h : (a.nth (fail_of a n)).get_child k with
  | some ch => simp [h]
  | none => simp [h, fail_walk_eq_trav_walk]

theorem reaches_zero_nil (a : Automaton) (hwf : Wf a) (t : List Char)
    (h : Reaches a t 0) : t = [] :=
  reach_inj a hwf t 0 h [] Reaches.root

theorem trav_walk_succ (a : Automaton) (c : Char) (fuel v : Nat) :
    trav_walk a c (fuel + 1) v
      = (match (a.nth (fail_of a v)).get_child c with
        | some ch => (fail_of a v, some ch)
        | none => if fail_of a v = 0 then (fail_of a v, none)
                  else trav_walk a c fuel (fail_of a v)) := rfl

/-- Correctness of the failure-chain walk: starting from a node `v` on
path `t` that itself lacks a `c` child, the walk either finds the child
of the longest suffix-path of `t` that has one, or ends at the root
having proved that no suffix-path of `t` has one. -/
theorem trav_walk_spec (a : Automaton) (hwf : Wf a) (c : Char) (D : Nat)
    (hfb : FailBelow a D) :
    ∀ (fuel : Nat) (t : List Char) (v : Nat), Reaches a t v → t.length ≤ D →
      (a.nth v).get_child c = none → t.length + 1 ≤ fuel →
      (∃ t' f' ch, trav_walk a c fuel v = (f', some ch) ∧ Reaches a t' f' ∧
          t' <:+ t ∧ t'.length < t.length ∧ (a.nth f').get_child c = some ch ∧
          (∀ u w, u <:+ t → Reaches a u w → (a.nth w).get_child c ≠ none →
            u.length ≤ t'.length)) ∨
      (trav_walk a c fuel v = (0, none) ∧
        ∀ u w, u <:+ t → Reaches a u w → (a.nth w).get_child c = none) := by
  intro fuel
  induction fuel with
  | zero => intro t v _ _ _ hf; omega
  | succ fuel ih =>
    intro t v hr hlen hnone hfuel
    by_cases hv : v = 0
    · subst hv
      have ht : t = [] := reaches_zero_nil a hwf t hr
      subst ht
      have hf0 : fail_of a 0 = 0 := by unfold fail_of; rw [hfb.1]; rfl
      right
      constructor
      · rw [trav_walk_succ, hf0, hnone]
        rfl
      · intro u w hu hru
        have hu0 : u = [] := List.suffix_nil.mp hu
        subst hu0
        have hw : 0 = w := reach_fun a [] 0 Reaches.root w hru
        rw [← hw]
        exact hnone
    · rcases hfb.2 v t hr hlen hv with ⟨f, t1, hfail, hrf, hsuf, hlt, hpath, hmax⟩
      have hf : fail_of a v = f := by unfold fail_of; rw [hfail]; rfl
      cases hch : (a.nth f).get_child c with
      | some ch =>
        have hwval : trav_walk a c (fuel + 1) v = (f, some ch) := by
          rw [trav_walk_succ, hf, hch]
        left
        refine ⟨t1, f, ch, hwval, hrf, hsuf, hlt, hch, ?_⟩
        intro u w hu hru hune
        by_cases hut : u = t
        · subst hut
          have hvw : v = w := reach_fun a u v hr w hru
          rw [← hvw] at hune
          exact absurd hnone hune
        · have hul : u.length < t.length := by
            have h1 := List.IsSuffix.length_le hu
            rcases Nat.lt_or_ge u.length t.length with h | h
            · exact h
            · exact absurd (List.IsSuffix.eq_of_length hu (by omega)) hut
          exact hmax u hu hul ⟨w, hru⟩
      | none =>
        by_cases hf0 : f = 0
        · subst hf0
          have ht1 : t1 = [] := reaches_zero_nil a hwf t1 hrf
          subst ht1
          have hwval : trav_walk a c (fuel + 1) v = (0, none) := by
            rw [trav_walk_succ, hf, hch]
            rfl
          right
          refine ⟨hwval, ?_⟩
          intro u w hu hru
          by_cases hut : u = t
          · subst hut
            have hvw : v = w := reach_fun a u v hr w hru
            rw [← hvw]
            exact hnone
          · have hul : u.length < t.length := by
              have h1 := List.IsSuffix.length_le hu
              rcases Nat.lt_or_ge u.length t.length with h | h
              · exact h
              · exact absurd (List.IsSuffix.eq_of_length hu (by omega)) hut
            have hle0 : u.length ≤ 0 := hmax u hu hul ⟨w, hru⟩
            have hu0 : u = [] := List.length_eq_zero.mp (by omega)
            subst hu0
            have hw : 0 = w := reach_fun a [] 0 Reaches.root w hru
            rw [← hw]
            exact hch
        · have hwval : trav_walk a c (fuel + 1) v = trav_walk a c fuel f := by
            rw [trav_walk_succ, hf, hch, if_neg hf0]
          have hrec := ih t1 f hrf (by omega) hch (by omega)
          rcases hrec with ⟨t', f', ch, heq, hr', hsuf', hlt', hch', hmax'⟩ | ⟨heq, hall⟩
          · left
            refine ⟨t', f', ch, hwval.trans heq, hr', hsuf'.trans hsuf, by omega, hch', ?_⟩
            intro u w hu hru hune
            by_cases hut : u = t
            · subst hut
              have hvw : v = w := reach_fun a u v hr w hru
              rw [← hvw] at hune
              exact absurd hnone hune
            · have hul : u.length < t.length := by
                have h1 := List.IsSuffix.length_le hu
                rcases Nat.lt_or_ge u.length t.length with h | h
                · exact h
                · exact absurd (List.IsSuffix.eq_of_length hu (by omega)) hut
              have hu1 : u.length ≤ t1.length := hmax u hu hul ⟨w, hru⟩
              have hut1 : u <:+ t1 := suffix_of_suffix_le hu hsuf hu1
              by_cases hut1e : u = t1
              · subst hut1e
                have hfw : f = w := reach_fun a u f hrf w hru
                rw [← hfw] at hune
                exact absurd hch hune
              · exact hmax' u w hut1 hru hune
          · right
            refine ⟨hwval.trans heq, ?_⟩
            intro u w hu hru
            by_cases hut : u = t
            · subst hut
              have hvw : v = w := reach_fun a u v hr w hru
              rw [← hvw]
              exact hnone
            · have hul : u.length < t.length := by
                have h1 := List.IsSuffix.length_le hu
                rcases Nat.lt_or_ge u.length t.length with h | h
                · exact h
                · exact absurd (List.IsSuffix.eq_of_length hu (by omega)) hut
              have hu1 : u.length ≤ t1.length := hmax u hu hul ⟨w, hru⟩
              exact hall u w (suffix_of_suffix_le hu hsuf hu1) hru

theorem trav_step_eq_some (a : Automaton) (n : Nat) (c : Char) (ch : Nat)
    (h : (a.nth n).get_child c = some ch) : trav_step a n c = (n, some ch) := by
  unfold trav_step
  rw [h]

theorem trav_step_eq_none (a : Automaton) (n : Nat) (c : Char)
    (h : (a.nth n).get_child c = none) : trav_step a n c = trav_walk a c a.size n := by
  unfold trav_step
  rw [h]

/-- One matching step: from the node of path `t`, `trav_step` finds the
child over `c` of the longest suffix-path of `t` having one (possibly
`t` itself), or lands on the root after refuting them all. -/
theorem trav_step_spec (a : Automaton) (hwf : Wf a) (c : Char) (D : Nat) (hfb : FailBelow a D)
    (t : List Char) (v : Nat) (hr : Reaches a t v) (hlen : t.length ≤ D) :
    (∃ t' f' ch, trav_step a v c = (f', some ch) ∧ Reaches a t' f' ∧ t' <:+ t ∧
        (a.nth f').get_child c = some ch ∧
        (∀ u w, u <:+ t → Reaches a u w → (a.nth w).get_child c ≠ none →
          u.length ≤ t'.length)) ∨
    (trav_step a v c = (0, none) ∧
      ∀ u w, u <:+ t → Reaches a u w → (a.nth w).get_child c = none) := by
  cases hch : (a.nth v).get_child c with
  | some ch =>
    left
    refine ⟨t, v, ch, trav_step_eq_some a v c ch hch, hr, List.suffix_refl t, hch, ?_⟩
    intro u w hu _ _
    exact List.IsSuffix.length_le hu
  | none =>
    have hfuel : t.length + 1 ≤ a.size := by
      have := reaches_len_le a hwf t v hr
      omega
    rcases trav_walk_spec a hwf c D hfb a.size t v hr hlen hch hfuel with
      ⟨t', f', ch, heq, h2, h3, _, h5, h6⟩ | ⟨heq, hall⟩
    · left
      exact ⟨t', f', ch, (trav_step_eq_none a v c hch).trans heq, h2, h3, h5, h6⟩
    · right
      exact ⟨(trav_step_eq_none a v c hch).trans heq, hall⟩

/-- The value `_build_fail` assigns as the failure link of the child of
`n` over `c` is precisely the node of the longest proper suffix-path of
`path(n) ++ [c]`. -/
theorem fail_candidate_spec (a : Automaton) (hwf : Wf a) (p : Nat) (hfb : FailBelow a p)
    (n : Nat) (sn : List Char) (c : Char)
    (hrn : Reaches a sn n) (hp : 1 ≤ sn.length) (hlen : sn.length ≤ p) :
    ∃ t', Reaches a t' ((fail_candidate a n c).getD 0) ∧ Lpsuf a (sn ++ [c]) t' := by
  have hn0 : n ≠ 0 := by
    intro h
    subst h
    have h0 := reaches_zero_nil a hwf sn hrn
    subst h0
    simp at hp
  rcases hfb.2 n sn hrn hlen hn0 with ⟨f, t1, hfail, hrf, hsuf, hlt, hpath, hmax⟩
  have hf : fail_of a n = f := by unfold fail_of; rw [hfail]; rfl
  rw [fail_candidate_eq, hf]
  have ht1len : t1.length ≤ p := by omega
  rcases trav_step_spec a hwf c p hfb t1 f hrf ht1len with
    ⟨t', f', ch, heq, hr', hsuf', hch', hmax'⟩ | ⟨heq, hall⟩
  · rw [heq]
    refine ⟨t' ++ [c], Reaches.step hr' hch',
      suffix_snoc_mono c (hsuf'.trans hsuf), ?_, ⟨ch, Reaches.step hr' hch'⟩, ?_⟩
    · simp only [List.length_append, List.length_cons, List.length_nil]
      have := List.IsSuffix.length_le hsuf'
      omega
    · intro u hu hul hup
      rcases suffix_snoc_cases hu with rfl | ⟨u0, rfl, hu0⟩
      · simp
      · rcases hup with ⟨w', hw'⟩
        rcases reaches_snoc_inv a _ w' hw' u0 c rfl with ⟨w, hw, hcw⟩
        have hu0l : u0.length < sn.length := by
          simp only [List.length_append, List.length_cons, List.length_nil] at hul
          omega
        have hu0le : u0.length ≤ t1.length := hmax u0 hu0 hu0l ⟨w, hw⟩
        have hu0t1 : u0 <:+ t1 := suffix_of_suffix_le hu0 hsuf hu0le
        have hfin : u0.length ≤ t'.length := hmax' u0 w hu0t1 hw (by simp [hcw])
        simp only [List.length_append, List.length_cons, List.length_nil]
        omega
  · rw [heq]
    refine ⟨[], Reaches.root, List.nil_suffix, by simp, ⟨0, Reaches.root⟩, ?_⟩
    intro u hu hul hup
    rcases suffix_snoc_cases hu with rfl | ⟨u0, rfl, hu0⟩
    · simp
    · exfalso
      rcases hup with ⟨w', hw'⟩
      rcases reaches_snoc_inv a _ w' hw' u0 c rfl with ⟨w, hw, hcw⟩
      have hu0l : u0.length < sn.length := by
        simp only [List.length_append, List.length_cons, List.length_nil] at hul
        omega
      have hu0le : u0.length ≤ t1.length := hmax u0 hu0 hu0l ⟨w, hw⟩
      have hu0t1 : u0 <:+ t1 := suffix_of_suffix_le hu0 hsuf hu0le
      have hno := hall u0 w hu0t1 hw
      rw [hno] at hcw
      exact Option.noConfusion hcw

theorem output_upd_fail (a : Automaton) (v : Nat) (x : Option Nat) (j : Nat) :
    ((a.upd v (fun nd => { nd with fail := x })).nth j).output = (a.nth j).output := by
  by_cases hj : v = j
  · subst hj
    by_cases hv : v < a.size
    · rw [nth_upd_self a v _ hv]
    · rw [upd_of_ge a v _ (Nat.le_of_not_lt hv)]
  · rw [nth_upd_ne a v j _ hj]

theorem process_child_nth_ne (a : Automaton) (n : Nat) (kv : Char × Nat) (j : Nat)
    (hj : j ≠ kv.2) : (process_child a n kv).nth j = a.nth j := by
  rw [process_child_eq]
  rw [nth_upd_ne _ kv.2 j _ (fun h => hj h.symm), nth_upd_ne _ kv.2 j _ (fun h => hj h.symm)]

theorem process_child_nth_self (a : Automaton) (n : Nat) (kv : Char × Nat)
    (hv : kv.2 < a.size) :
    (process_child a n kv).nth kv.2
      = { a.nth kv.2 with
          fail := some ((fail_candidate a n kv.1).getD 0),
          output := (outExtend ((a.nth kv.2).output)
            ((a.nth ((fail_candidate a n kv.1).getD 0)).output)) } := by
  rw [process_child_eq]
  have hsz : kv.2 < (a.upd kv.2 (fun nd =>
      { nd with fail := some ((fail_candidate a n kv.1).getD 0) })).size := by
    rw [size_upd]; exact hv
  rw [nth_upd_self _ kv.2 _ hsz, nth_upd_self a kv.2 _ hv, output_upd_fail]

theorem isPath_skel {a a' : Automaton} (h : sameSkel a a') (s : List Char) :
    IsPath a s ↔ IsPath a' s := by
  unfold IsPath
  constructor
  · rintro ⟨i, hi⟩; exact ⟨i, (sameSkel_reaches h s i).mp hi⟩
  · rintro ⟨i, hi⟩; exact ⟨i, (sameSkel_reaches h s i).mpr hi⟩

theorem lpsuf_skel {a a' : Automaton} (h : sameSkel a a') (s t : List Char) :
    Lpsuf a s t ↔ Lpsuf a' s t := by
  unfold Lpsuf
  constructor
  · rintro ⟨h1, h2, h3, h4⟩
    exact ⟨h1, h2, (isPath_skel h t).mp h3,
      fun u hu hul hup => h4 u hu hul ((isPath_skel h u).mpr hup)⟩
  · rintro ⟨h1, h2, h3, h4⟩
    exact ⟨h1, h2, (isPath_skel h t).mpr h3,
      fun u hu hul hup => h4 u hu hul ((isPath_skel h u).mp hup)⟩

/-- During a breadth-first round at processed depth `p`, the set of
depth-`(p+1)` nodes already handled: children of already-folded queued
parents. -/
def DoneOf (a : Automaton) (done : List Nat) (i : Nat) : Prop :=
  ∃ n ∈ done, ∃ c, (a.nth n).get_child c = some i

/-- State invariant inside `_build_fail`: failure links and outputs are
final for every node of depth at most `p` and for the already-processed
depth-`(p+1)` nodes `Done`; every other node still carries only its
direct output entries (`a0` is the pre-fail automaton). -/
structure PartInv (a0 : Automaton) (p : Nat) (a : Automaton) (Done : Nat → Prop) : Prop where
  skel : sameSkel a0 a
  root_out : (a.nth 0).output = []
  failb : FailBelow a p
  fail_done : ∀ i s, Done i → Reaches a s i →
    ∃ f t, (a.nth i).fail = some f ∧ Reaches a t f ∧ Lpsuf a s t
  out_proc : ∀ i s, Reaches a s i → 1 ≤ s.length → s.length ≤ p →
    (a.nth i).output = outExtend ((a0.nth i).output) ((a.nth (fail_of a i)).output)
  out_done : ∀ i, Done i →
    (a.nth i).output = outExtend ((a0.nth i).output) ((a.nth (fail_of a i)).output)
  out_raw : ∀ i s, Reaches a s i → p < s.length → ¬ Done i →
    (a.nth i).output = (a0.nth i).output
  done_depth : ∀ i, Done i → ∃ s, Reaches a s i ∧ s.length = p + 1

/-- Processing one fresh child `(c, v)` of a depth-`p` parent extends the
invariant's processed set by `v`. -/
theorem partInv_step (a0 : Automaton) (hwf0 : Wf a0) (p : Nat) (a : Automaton)
    (Done : Nat → Prop) (hinv : PartInv a0 p a Done)
    (n : Nat) (sn : List Char) (c : Char) (v : Nat)
    (hrn : Reaches a sn n) (hsn : sn.length = p) (hp : 1 ≤ p)
    (hcv : (a.nth n).get_child c = some v)
    (hvD : ¬ Done v) :
    PartInv a0 p (process_child a n (c, v)) (fun i => Done i ∨ i = v) := by
  have hwf : Wf a := sameSkel_wf hinv.skel hwf0
  have hrv : Reaches a (sn ++ [c]) v := Reaches.step hrn hcv
  have hvlen : (sn ++ [c]).length = p + 1 := by simp [hsn]
  have hvsz : v < a.size := (reaches_len_le a hwf _ v hrv).2
  have hv0 : v ≠ 0 := by
    have := (reaches_len_le a hwf _ v hrv).1
    omega
  rcases fail_candidate_spec a hwf p hinv.failb n sn c hrn (by omega) (by omega) with
    ⟨t', hrt', hlp⟩
  set vf := (fail_candidate a n (c, v).1).getD 0 with hvf
  have hrt'2 : Reaches a t' vf := hrt'
  have ht'len : t'.length ≤ p := by
    have := hlp.2.1
    simp only [List.length_append, List.length_cons, List.length_nil] at this
    omega
  have hvfv : vf ≠ v := by
    intro h
    rw [h] at hrt'2
    have := reach_inj a hwf t' v hrt'2 (sn ++ [c]) hrv
    rw [this] at ht'len
    omega
  have hskel2 : sameSkel a (process_child a n (c, v)) := sameSkel_process_child a n (c, v)
  have hre : ∀ s i, Reaches (process_child a n (c, v)) s i ↔ Reaches a s i :=
    fun s i => (sameSkel_reaches hskel2 s i).symm
  have hnthv : (process_child a n (c, v)).nth v
      = { a.nth v with
          fail := some vf,
          output := (outExtend ((a.nth v).output) ((a.nth vf).output)) } :=
    process_child_nth_self a n (c, v) hvsz
  have hnthne : ∀ j, j ≠ v → (process_child a n (c, v)).nth j = a.nth j :=
    fun j hj => process_child_nth_ne a n (c, v) j hj
  have hdep_ne : ∀ i s, Reaches a s i → s.length ≤ p → i ≠ v := by
    intro i s hs hl h
    subst h
    have := reach_inj a hwf s i hs (sn ++ [c]) hrv
    rw [this] at hl
    omega
  have hrawv : (a.nth v).output = (a0.nth v).output :=
    hinv.out_raw v (sn ++ [c]) hrv (by omega) hvD
  constructor
  · exact sameSkel_trans hinv.skel hskel2
  · rw [hnthne 0 (fun h => hv0 h.symm)]
    exact hinv.root_out
  · constructor
    · rw [hnthne 0 (fun h => hv0 h.symm)]
      exact hinv.failb.1
    · intro i s hrs hsl hi0
      rw [hre] at hrs
      have hiv : i ≠ v := hdep_ne i s hrs hsl
      rcases hinv.failb.2 i s hrs hsl hi0 with ⟨f, t, hf, hrf, hl⟩
      exact ⟨f, t, by rw [hnthne i hiv]; exact hf, (hre t f).mpr hrf,
        (lpsuf_skel hskel2 s t).mp hl⟩
  · intro i s hD hrs
    rw [hre] at hrs
    rcases hD with hD | rfl
    · have hiv : i ≠ v := by
        intro h
        exact hvD (h ▸ hD)
      rcases hinv.fail_done i s hD hrs with ⟨f, t, hf, hrf, hl⟩
      exact ⟨f, t, by rw [hnthne i hiv]; exact hf, (hre t f).mpr hrf,
        (lpsuf_skel hskel2 s t).mp hl⟩
    · have hs : s = sn ++ [c] := reach_inj a hwf s i hrs (sn ++ [c]) hrv
      subst hs
      refine ⟨vf, t', ?_, (hre t' vf).mpr hrt'2, (lpsuf_skel hskel2 _ t').mp hlp⟩
      rw [hnthv]
  · intro i s hrs h1 hle
    rw [hre] at hrs
    have hiv : i ≠ v := hdep_ne i s hrs hle
    rcases hinv.failb.2 i s hrs hle (by
      intro h
      subst h
      have h0 := reaches_zero_nil a hwf s hrs
      subst h0
      simp at h1) with ⟨f, t, hf, hrf, hl⟩
    have hfi : fail_of a i = f := by unfold fail_of; rw [hf]; rfl
    have hfv : f ≠ v := hdep_ne f t hrf (by
      have h2 := hl.2.1
      omega)
    have hfi' : fail_of (process_child a n (c, v)) i = f := by
      unfold fail_of
      rw [hnthne i hiv, hf]
      rfl
    rw [hnthne i hiv, hfi', hnthne f hfv, ← hfi]
    exact hinv.out_proc i s hrs h1 hle
  · intro i hD
    rcases hD with hD | rfl
    · have hiv : i ≠ v := fun h => hvD (h ▸ hD)
      rcases hinv.done_depth i hD with ⟨s, hrs, hsl⟩
      rcases hinv.fail_done i s hD hrs with ⟨f, t, hf, hrf, hl⟩
      have hfi : fail_of a i = f := by unfold fail_of; rw [hf]; rfl
      have hfv : f ≠ v := hdep_ne f t hrf (by
        have h2 := hl.2.1
        omega)
      have hfi' : fail_of (process_child a n (c, v)) i = f := by
        unfold fail_of
        rw [hnthne i hiv, hf]
        rfl
      rw [hnthne i hiv, hfi', hnthne f hfv, ← hfi]
      exact hinv.out_done i hD
    · have hfi' : fail_of (process_child a n (c, i)) i = vf := by
        unfold fail_of
        rw [hnthv]
        rfl
      rw [hnthv, hfi', hnthne vf hvfv]
      show outExtend ((a.nth i).output) ((a.nth vf).output) = _
      rw [hrawv]
  · intro i s hrs hgt hnd
    rw [hre] at hrs
    have hiv : i ≠ v := fun h => hnd (Or.inr h)
    rw [hnthne i hiv]
    exact hinv.out_raw i s hrs hgt (fun h => hnd (Or.inl h))
  · intro i hD
    rcases hD with hD | rfl
    · rcases hinv.done_depth i hD with ⟨s, hrs, hsl⟩
      exact ⟨s, (hre s i).mpr hrs, hsl⟩
    · exact ⟨sn ++ [c], (hre _ i).mpr hrv, hvlen⟩

theorem partInv_congr (a0 : Automaton) (p : Nat) (a : Automaton) (D1 D2 : Nat → Prop)
    (hD : ∀ i, D1 i ↔ D2 i) (h : PartInv a0 p a D1) : PartInv a0 p a D2 where
  skel := h.skel
  root_out := h.root_out
  failb := h.failb
  fail_done := fun i s hd hr => h.fail_done i s ((hD i).mpr hd) hr
  out_proc := h.out_proc
  out_done := fun i hd => h.out_done i ((hD i).mpr hd)
  out_raw := fun i s hr hl hd => h.out_raw i s hr hl (fun hh => hd ((hD i).mp hh))
  done_depth := fun i hd => h.done_depth i ((hD i).mpr hd)

theorem children_snd_nodup (a : Automaton) (hwf : Wf a) (i : Nat) :
    ((a.nth i).d_children.map Prod.snd).Nodup := by
  have hkeys := hwf.child_keys_nodup i
  have hl : (a.nth i).d_children.Nodup := List.Nodup.of_map Prod.fst hkeys
  apply List.Nodup.map_on ?_ hl
  intro x hx y hy hxy
  exact (hwf.parent_unique i i x hx y hy hxy).2

/-- Folding `process_child` over a block of fresh children of a queued
parent extends the processed set by exactly those children, and appends
them to the pending queue. -/
theorem partInv_children_fold (a0 : Automaton) (hwf0 : Wf a0) (p : Nat) (hp : 1 ≤ p) :
    ∀ (l : List (Char × Nat)) (a : Automaton) (nxt : List Nat) (Done : Nat → Prop)
      (n : Nat) (sn : List Char),
      PartInv a0 p a Done →
      Reaches a sn n → sn.length = p →
      (∀ kv ∈ l, (a.nth n).get_child kv.1 = some kv.2) →
      (∀ kv ∈ l, ¬ Done kv.2) →
      (l.map Prod.snd).Nodup →
      PartInv a0 p
        ((l.foldl (fun st kv => (process_child st.1 n kv, st.2 ++ [kv.2])) (a, nxt)).1)
        (fun i => Done i ∨ i ∈ l.map Prod.snd) ∧
      (l.foldl (fun st kv => (process_child st.1 n kv, st.2 ++ [kv.2])) (a, nxt)).2
        = nxt ++ l.map Prod.snd := by
  intro l
  induction l with
  | nil =>
    intro a nxt Done n sn hinv hrn hsn _ _ _
    refine ⟨partInv_congr a0 p a Done _ (fun i => ?_) hinv, by simp⟩
    simp
  | cons kv l ih =>
    intro a nxt Done n sn hinv hrn hsn hlook hfresh hnd
    obtain ⟨kc, v⟩ := kv
    have hwf : Wf a := sameSkel_wf hinv.skel hwf0
    have hcv : (a.nth n).get_child kc = some v := hlook (kc, v) (List.mem_cons_self _ _)
    have hvD : ¬ Done v := hfresh (kc, v) (List.mem_cons_self _ _)
    have hstep := partInv_step a0 hwf0 p a Done hinv n sn kc v hrn hsn hp hcv hvD
    have hskel2 : sameSkel a (process_child a n (kc, v)) := sameSkel_process_child a n (kc, v)
    have hnv : n ≠ v := by
      have := hwf.child_gt n _ (assocGet_some_mem _ _ _ hcv)
      omega
    have hnthn : (process_child a n (kc, v)).nth n = a.nth n :=
      process_child_nth_ne a n (kc, v) n hnv
    simp only [List.foldl_cons]
    simp only [List.map_cons, List.nodup_cons] at hnd
    have hrec := ih (process_child a n (kc, v)) (nxt ++ [v]) (fun i => Done i ∨ i = v) n sn
      hstep
      ((sameSkel_reaches hskel2 sn n).mp hrn) hsn
      (by
        intro kv' hkv'
        rw [hnthn]
        exact hlook kv' (List.mem_cons_of_mem _ hkv'))
      (by
        intro kv' hkv'
        rintro (hd | he)
        · exact hfresh kv' (List.mem_cons_of_mem _ hkv') hd
        · exact hnd.1 (he ▸ List.mem_map_of_mem Prod.snd hkv'))
      hnd.2
    refine ⟨partInv_congr a0 p _ _ _ (fun i => ?_) hrec.1, ?_⟩
    · simp only [List.map_cons, List.mem_cons]
      tauto
    · rw [hrec.2]
      simp

theorem doneOf_snoc_iff (a0 : Automaton) (hwf0 : Wf a0) (done : List Nat) (m : Nat) (i : Nat) :
    (DoneOf a0 done i ∨ i ∈ (a0.nth m).d_children.map Prod.snd)
      ↔ DoneOf a0 (done ++ [m]) i := by
  unfold DoneOf
  constructor
  · rintro (⟨n', hn', c, hc⟩ | hmem)
    · exact ⟨n', List.mem_append_left _ hn', c, hc⟩
    · rcases List.mem_map.mp hmem with ⟨kv, hkv, rfl⟩
      exact ⟨m, List.mem_append_right _ (List.mem_singleton.mpr rfl), kv.1,
        assocGet_mem_some _ _ _ (hwf0.child_keys_nodup m) (by simpa using hkv)⟩
  · rintro ⟨n', hn', c, hc⟩
    rcases List.mem_append.mp hn' with h | h
    · exact Or.inl ⟨n', h, c, hc⟩
    · rcases List.mem_singleton.mp h with rfl
      exact Or.inr (List.mem_map_of_mem Prod.snd (assocGet_some_mem _ _ _ hc))

/-- One breadth-first round: folding `process_level_node` over the
remaining queued depth-`p` parents processes exactly their children and
queues them, in order. -/
theorem partInv_round_fold (a0 : Automaton) (hwf0 : Wf a0) (p : Nat) (hp : 1 ≤ p) :
    ∀ (rest done : List Nat) (a : Automaton) (nxt : List Nat),
      PartInv a0 p a (DoneOf a0 done) →
      (∀ i ∈ rest, ∃ s, Reaches a0 s i ∧ s.length = p) →
      (done ++ rest).Nodup →
      nxt = done.flatMap (fun m => (a0.nth m).d_children.map Prod.snd) →
      PartInv a0 p
        ((rest.foldl (fun st m => process_level_node st.1 st.2 m) (a, nxt)).1)
        (DoneOf a0 (done ++ rest)) ∧
      (rest.foldl (fun st m => process_level_node st.1 st.2 m) (a, nxt)).2
        = (done ++ rest).flatMap (fun m => (a0.nth m).d_children.map Prod.snd) := by
  intro rest
  induction rest with
  | nil =>
    intro done a nxt hinv _ _ hnxt
    simp only [List.foldl_nil, List.append_nil]
    exact ⟨hinv, hnxt⟩
  | cons m rest ih =>
    intro done a nxt hinv hdep hnd hnxt
    rcases hdep m (List.mem_cons_self _ _) with ⟨sm, hrm0, hsm⟩
    have hrm : Reaches a sm m := (sameSkel_reaches hinv.skel sm m).mp hrm0
    have hch_eq : (a.nth m).d_children = (a0.nth m).d_children := hinv.skel.2 m
    have hwf : Wf a := sameSkel_wf hinv.skel hwf0
    have hmnotdone : m ∉ done := by
      intro hm
      have hdisj := (List.nodup_append.mp hnd).2.2
      exact hdisj hm (List.mem_cons_self _ _)
    have hlook : ∀ kv ∈ (a.nth m).d_children, (a.nth m).get_child kv.1 = some kv.2 := by
      intro kv hkv
      exact assocGet_mem_some _ _ _ (hwf.child_keys_nodup m) (by simpa using hkv)
    have hfresh : ∀ kv ∈ (a.nth m).d_children, ¬ DoneOf a0 done kv.2 := by
      intro kv hkv hcontra
      rcases hcontra with ⟨n', hn', c, hc⟩
      have hkv0 : kv ∈ (a0.nth m).d_children := hch_eq ▸ hkv
      have hcmem : (c, kv.2) ∈ (a0.nth n').d_children := assocGet_some_mem _ _ _ hc
      have hpu := hwf0.parent_unique m n' kv hkv0 (c, kv.2) hcmem rfl
      exact hmnotdone (hpu.1 ▸ hn')
    have hsnd : ((a.nth m).d_children.map Prod.snd).Nodup := children_snd_nodup a hwf m
    have hcf := partInv_children_fold a0 hwf0 p hp (a.nth m).d_children a nxt
      (DoneOf a0 done) m sm hinv hrm hsm hlook hfresh hsnd
    have hde : ∀ i, ((DoneOf a0 done i ∨ i ∈ (a.nth m).d_children.map Prod.snd)
        ↔ DoneOf a0 (done ++ [m]) i) := by
      rw [hch_eq]
      exact doneOf_snoc_iff a0 hwf0 done m
    have hinv' : PartInv a0 p (process_level_node a nxt m).1 (DoneOf a0 (done ++ [m])) :=
      partInv_congr a0 p _ _ _ hde hcf.1
    have hnxt' : (process_level_node a nxt m).2
        = (done ++ [m]).flatMap (fun n' => (a0.nth n').d_children.map Prod.snd) := by
      have h2 : (process_level_node a nxt m).2 = nxt ++ (a.nth m).d_children.map Prod.snd :=
        hcf.2
      rw [h2, hnxt, hch_eq]
      simp
    have hnd' : ((done ++ [m]) ++ rest).Nodup := by
      have : (done ++ [m]) ++ rest = done ++ (m :: rest) := by simp
      rw [this]
      exact hnd
    have hrec := ih (done ++ [m]) (process_level_node a nxt m).1 (process_level_node a nxt m).2
      hinv' (fun i hi => hdep i (List.mem_cons_of_mem _ hi)) hnd' hnxt'
    have hass : (done ++ [m]) ++ rest = done ++ (m :: rest) := by simp
    rw [hass] at hrec
    simp only [List.foldl_cons]
    exact hrec

/-- When a whole depth-`p` level is processed, the invariant rolls over
to processed depth `p + 1` with an empty processed set. -/
theorem partInv_roll (a0 : Automaton) (hwf0 : Wf a0) (p : Nat) (a : Automaton) (q : List Nat)
    (hinv : PartInv a0 p a (DoneOf a0 q))
    (hq : ∀ i s, Reaches a0 s i → s.length = p → i ∈ q) :
    PartInv a0 (p + 1) a (fun _ => False) := by
  have hdone : ∀ i s, Reaches a s i → s.length = p + 1 → DoneOf a0 q i := by
    intro i s hr hl
    rcases List.eq_nil_or_concat s with rfl | ⟨s0, c, rfl⟩
    · simp at hl
    · rw [List.concat_eq_append] at hr hl
      rcases reaches_snoc_inv a _ i hr s0 c rfl with ⟨w, hw, hcw⟩
      have hw0 : Reaches a0 s0 w := (sameSkel_reaches hinv.skel s0 w).mpr hw
      have hcw0 : (a0.nth w).get_child c = some i := by
        unfold Node.get_child at hcw ⊢
        rw [← hinv.skel.2 w]
        exact hcw
      have hs0len : s0.length = p := by
        simp at hl
        omega
      exact ⟨w, hq w s0 hw0 hs0len, c, hcw0⟩
  constructor
  · exact hinv.skel
  · exact hinv.root_out
  · constructor
    · exact hinv.failb.1
    · intro i s hr hl hi0
      rcases Nat.lt_or_ge s.length (p + 1) with h | h
      · exact hinv.failb.2 i s hr (by omega) hi0
      · exact hinv.fail_done i s (hdone i s hr (by omega)) hr
  · intro i s hF
    cases hF
  · intro i s hr h1 hle
    rcases Nat.lt_or_ge s.length (p + 1) with h | h
    · exact hinv.out_proc i s hr h1 (by omega)
    · exact hinv.out_done i (hdone i s hr (by omega))
  · intro i hF
    cases hF
  · intro i s hr hgt _
    apply hinv.out_raw i s hr (by omega)
    intro hD
    rcases hinv.done_depth i hD with ⟨s', hrs', hsl'⟩
    have heq := reach_inj a (sameSkel_wf hinv.skel hwf0) s i hr s' hrs'
    rw [heq] at hgt
    omega
  · intro i hF
    cases hF

theorem flatMap_children_nodup (a0 : Automaton) (hwf0 : Wf a0) :
    ∀ (q : List Nat), q.Nodup →
      (q.flatMap (fun m => (a0.nth m).d_children.map Prod.snd)).Nodup := by
  intro q
  induction q with
  | nil => intro _; simp
  | cons m q ih =>
    intro hnd
    rcases List.nodup_cons.mp hnd with ⟨hm, hq⟩
    simp only [List.flatMap_cons]
    rw [List.nodup_append]
    refine ⟨children_snd_nodup a0 hwf0 m, ih hq, ?_⟩
    intro v hv hv2
    rcases List.mem_map.mp hv with ⟨kv, hkv, rfl⟩
    rcases List.mem_flatMap.mp hv2 with ⟨m', hm', hv'⟩
    rcases List.mem_map.mp hv' with ⟨kv', hkv', heq⟩
    have hpu := hwf0.parent_unique m m' kv hkv kv' hkv' heq.symm
    exact hm (hpu.1 ▸ hm')

theorem doneOf_nil_iff (a0 : Automaton) (i : Nat) : DoneOf a0 [] i ↔ False := by
  constructor
  · rintro ⟨n, hn, _⟩
    cases hn
  · intro h
    cases h

theorem depth_bound_of_level_empty (a0 : Automaton) (p : Nat)
    (hq2 : ∀ i s, Reaches a0 s i → s.length = p → False) :
    ∀ (i : Nat) (s : List Char), Reaches a0 s i → s.length ≤ p := by
  intro i s hr
  by_contra hgt
  push_neg at hgt
  have hpre : s.take p <+: s := List.take_prefix p s
  rcases reaches_prefix a0 s i hr (s.take p) hpre with ⟨j, hj⟩
  have hlen : (s.take p).length = p := by
    rw [List.length_take]
    omega
  exact hq2 j (s.take p) hj hlen

/-- The breadth-first loop, run with enough fuel on a full level queue,
finishes the whole automaton: there is a processed depth `P` that covers
every node. -/
theorem bfs_spec (a0 : Automaton) (hwf0 : Wf a0) :
    ∀ (fuel p : Nat) (a : Automaton) (q : List Nat),
      1 ≤ p →
      PartInv a0 p a (fun _ => False) →
      (∀ i ∈ q, ∃ s, Reaches a0 s i ∧ s.length = p) →
      (∀ i s, Reaches a0 s i → s.length = p → i ∈ q) →
      q.Nodup →
      a0.size ≤ fuel + p →
      ∃ P, PartInv a0 P (bfs a q fuel) (fun _ => False) ∧
        ∀ (i : Nat) (s : List Char), Reaches a0 s i → s.length ≤ P := by
  intro fuel
  induction fuel with
  | zero =>
    intro p a q hp hinv hq1 hq2 hnd hsz
    cases q with
    | nil =>
      refine ⟨p, hinv, depth_bound_of_level_empty a0 p ?_⟩
      intro i s hr hl
      cases hq2 i s hr hl
    | cons m q' =>
      exfalso
      rcases hq1 m (List.mem_cons_self _ _) with ⟨s, hr, hl⟩
      have := reaches_len_le a0 hwf0 s m hr
      omega
  | succ fuel ih =>
    intro p a q hp hinv hq1 hq2 hnd hsz
    cases q with
    | nil =>
      refine ⟨p, hinv, depth_bound_of_level_empty a0 p ?_⟩
      intro i s hr hl
      cases hq2 i s hr hl
    | cons m q' =>
      have hinv0 : PartInv a0 p a (DoneOf a0 []) :=
        partInv_congr a0 p a _ _ (fun i => (doneOf_nil_iff a0 i).symm) hinv
      have hround := partInv_round_fold a0 hwf0 p hp (m :: q') [] a []
        hinv0 hq1 (by simpa using hnd) (by simp)
      simp only [List.nil_append] at hround
      have hroll := partInv_roll a0 hwf0 p _ (m :: q') hround.1 hq2
      have hq1' : ∀ i ∈ ((m :: q').foldl
          (fun st n => process_level_node st.1 st.2 n) (a, ([] : List Nat))).2,
          ∃ s, Reaches a0 s i ∧ s.length = p + 1 := by
        rw [hround.2]
        intro i hi
        rcases List.mem_flatMap.mp hi with ⟨m', hm', hv⟩
        rcases List.mem_map.mp hv with ⟨kv, hkv, rfl⟩
        rcases hq1 m' hm' with ⟨s', hrs', hsl'⟩
        have hget : (a0.nth m').get_child kv.1 = some kv.2 :=
          assocGet_mem_some _ _ _ (hwf0.child_keys_nodup m') (by simpa using hkv)
        exact ⟨s' ++ [kv.1], Reaches.step hrs' hget, by simp [hsl']⟩
      have hq2' : ∀ i s, Reaches a0 s i → s.length = p + 1 →
          i ∈ ((m :: q').foldl
            (fun st n => process_level_node st.1 st.2 n) (a, ([] : List Nat))).2 := by
        rw [hround.2]
        intro i s hr hl
        rcases List.eq_nil_or_concat s with rfl | ⟨s0, c, rfl⟩
        · simp at hl
        · rw [List.concat_eq_append] at hr hl
          rcases reaches_snoc_inv a0 _ i hr s0 c rfl with ⟨w, hw, hcw⟩
          have hs0len : s0.length = p := by
            simp at hl
            omega
          apply List.mem_flatMap.mpr
          exact ⟨w, hq2 w s0 hw hs0len,
            List.mem_map_of_mem Prod.snd (assocGet_some_mem _ _ _ hcw)⟩
      have hnd' : ((m :: q').foldl
          (fun st n => process_level_node st.1 st.2 n) (a, ([] : List Nat))).2.Nodup := by
        rw [hround.2]
        exact flatMap_children_nodup a0 hwf0 (m :: q') hnd
      have hrec := ih (p + 1) _ _ (by omega) hroll hq1' hq2' hnd' (by omega)
      simpa only [bfs] using hrec

theorem outExtend_nil (dst : List (String × List (Nat × Int))) : outExtend dst [] = dst := rfl

theorem fail0_fold_nth (l : List Nat) :
    ∀ (a' : Automaton) (j : Nat), j ∉ l →
      ((l.foldl (fun a v => a.upd v (fun nd => { nd with fail := some 0 })) a').nth j)
        = a'.nth j := by
  induction l with
  | nil => intro a' j _; rfl
  | cons v l ih =>
    intro a' j hj
    simp only [List.foldl_cons]
    rw [ih _ j (fun h => hj (List.mem_cons_of_mem _ h))]
    exact nth_upd_ne a' v j _ (fun h => hj (h ▸ List.mem_cons_self _ _))

theorem fail0_fold_output (l : List Nat) :
    ∀ (a' : Automaton) (j : Nat),
      (((l.foldl (fun a v => a.upd v (fun nd => { nd with fail := some 0 })) a').nth j)).output
        = (a'.nth j).output := by
  induction l with
  | nil => intro a' j; rfl
  | cons v l ih =>
    intro a' j
    simp only [List.foldl_cons]
    rw [ih _ j, output_upd_fail]

theorem fail0_fold_size (l : List Nat) :
    ∀ (a' : Automaton),
      (l.foldl (fun a v => a.upd v (fun nd => { nd with fail := some 0 })) a').size
        = a'.size := by
  induction l with
  | nil => intro a'; rfl
  | cons v l ih =>
    intro a'
    simp only [List.foldl_cons]
    rw [ih, size_upd]

theorem fail0_fold_fail_mem (l : List Nat) :
    ∀ (a' : Automaton) (j : Nat), j ∈ l → j < a'.size →
      (((l.foldl (fun a v => a.upd v (fun nd => { nd with fail := some 0 })) a').nth j)).fail
        = some 0 := by
  induction l with
  | nil => intro a' j hj _; cases hj
  | cons v l ih =>
    intro a' j hj hsz
    simp only [List.foldl_cons]
    by_cases hjl : j ∈ l
    · exact ih _ j hjl (by rw [size_upd]; exact hsz)
    · rcases List.mem_cons.mp hj with rfl | hj2
      · rw [fail0_fold_nth l _ j hjl, nth_upd_self a' j _ hsz]
      · exact absurd hj2 hjl

theorem root_children_level (a0 : Automaton) (hwf0 : Wf a0) :
    (∀ i ∈ (a0.nth 0).d_children.map Prod.snd, ∃ s, Reaches a0 s i ∧ s.length = 1) ∧
    (∀ i s, Reaches a0 s i → s.length = 1 → i ∈ (a0.nth 0).d_children.map Prod.snd) := by
  constructor
  · intro i hi
    rcases List.mem_map.mp hi with ⟨kv, hkv, rfl⟩
    have hget : (a0.nth 0).get_child kv.1 = some kv.2 :=
      assocGet_mem_some _ _ _ (hwf0.child_keys_nodup 0) (by simpa using hkv)
    exact ⟨[kv.1], Reaches.step Reaches.root hget, rfl⟩
  · intro i s hr hl
    rcases List.length_eq_one.mp hl with ⟨c, rfl⟩
    rcases reaches_snoc_inv a0 [c] i hr [] c rfl with ⟨w, hw, hcw⟩
    have hw0 : w = 0 := reaches_nil_inv a0 [] w hw rfl
    subst hw0
    exact List.mem_map_of_mem Prod.snd (assocGet_some_mem _ _ _ hcw)

theorem fail0_fold_skel (l : List Nat) :
    ∀ (a' : Automaton),
      sameSkel a' (l.foldl (fun a v => a.upd v (fun nd => { nd with fail := some 0 })) a') := by
  induction l with
  | nil => intro a'; exact sameSkel_refl a'
  | cons v l ih =>
    intro a'
    simp only [List.foldl_cons]
    exact sameSkel_trans
      (sameSkel_upd a' v (fun nd => { nd with fail := some 0 }) (fun nd => rfl)) (ih _)

/-- `_build_fail` finishes with correct failure links for every node and
with every non-root node's output extended by its failure target's. -/
theorem build_fail_spec (a0 : Automaton) (hwf0 : Wf a0) (hroot : (a0.nth 0).output = []) :
    ∃ P, PartInv a0 P (build_fail a0) (fun _ => False) ∧
      ∀ (i : Nat) (s : List Char), Reaches a0 s i → s.length ≤ P := by
  set a1 := a0.upd 0 (fun nd => { nd with fail := some 0 }) with ha1
  set q := (a1.nth 0).d_children.map (fun kv => kv.2) with hqdef
  set a2 := q.foldl (fun a v => a.upd v (fun nd => { nd with fail := some 0 })) a1 with ha2
  have hbuild : build_fail a0 = bfs a2 q a2.size := rfl
  have hskel1 : sameSkel a0 a1 :=
    sameSkel_upd a0 0 (fun nd => { nd with fail := some 0 }) (fun nd => rfl)
  have hskel2 : sameSkel a1 a2 := fail0_fold_skel q a1
  have hskel : sameSkel a0 a2 := sameSkel_trans hskel1 hskel2
  have hwf2 : Wf a2 := sameSkel_wf hskel hwf0
  have hch0 : (a1.nth 0).d_children = (a0.nth 0).d_children := hskel1.2 0
  have hmapeq : ((a0.nth 0).d_children).map (fun kv => kv.2)
      = ((a0.nth 0).d_children).map Prod.snd :=
    List.map_congr_left (fun kv _ => rfl)
  have hq0 : q = (a0.nth 0).d_children.map Prod.snd := by
    rw [hqdef, hch0, hmapeq]
  have hout : ∀ j, (a2.nth j).output = (a0.nth j).output := by
    intro j
    rw [ha2, fail0_fold_output, ha1, output_upd_fail]
  have h0q : (0 : Nat) ∉ q := by
    rw [hq0]
    intro h
    rcases List.mem_map.mp h with ⟨kv, hkv, hkv2⟩
    have := hwf0.child_gt 0 kv hkv
    omega
  have hfail0 : (a2.nth 0).fail = some 0 := by
    rw [ha2, fail0_fold_nth q a1 0 h0q, ha1, nth_upd_self a0 0 _ hwf0.size_pos]
  have hlevel := root_children_level a0 hwf0
  have hq1 : ∀ i ∈ q, ∃ s, Reaches a0 s i ∧ s.length = 1 := by
    rw [hq0]
    exact hlevel.1
  have hq2 : ∀ i s, Reaches a0 s i → s.length = 1 → i ∈ q := by
    rw [hq0]
    exact hlevel.2
  have hndq : q.Nodup := by
    rw [hq0]
    exact children_snd_nodup a0 hwf0 0
  have hsz2 : a2.size = a0.size := by
    rw [ha2, fail0_fold_size, ha1, size_upd]
  have hfail1 : ∀ i, i ∈ q → (a2.nth i).fail = some 0 := by
    intro i hi
    rw [ha2]
    apply fail0_fold_fail_mem q a1 i hi
    rcases hq1 i hi with ⟨s, hr, _⟩
    have hlt := (reaches_len_le a0 hwf0 s i hr).2
    rw [ha1, size_upd]
    exact hlt
  have hroot2 : (a2.nth 0).output = [] := by
    rw [hout 0]
    exact hroot
  have hinv : PartInv a0 1 a2 (fun _ => False) := by
    constructor
    · exact hskel
    · exact hroot2
    · constructor
      · exact hfail0
      · intro i s hr hl hi0
        have hr0 : Reaches a0 s i := (sameSkel_reaches hskel s i).mpr hr
        have hs1 : s.length = 1 := by
          cases s with
          | nil => exact absurd (reaches_nil_inv a2 [] i hr rfl) hi0
          | cons hd tl =>
            simp only [List.length_cons] at hl ⊢
            omega
        have hiq : i ∈ q := hq2 i s hr0 hs1
        refine ⟨0, [], hfail1 i hiq, Reaches.root,
          List.nil_suffix, by simp [hs1], ⟨0, Reaches.root⟩, ?_⟩
        intro u hu hul _
        rw [hs1] at hul
        simp only [List.length_nil]
        omega
    · intro i s hF
      cases hF
    · intro i s hr h1 hle
      have hs1 : s.length = 1 := by omega
      have hr0 : Reaches a0 s i := (sameSkel_reaches hskel s i).mpr hr
      have hi0 : i ≠ 0 := by
        intro h
        subst h
        have h0 := reaches_zero_nil a2 hwf2 s hr
        subst h0
        simp at hs1
      have hiq : i ∈ q := hq2 i s hr0 hs1
      have hfi : fail_of a2 i = 0 := by
        unfold fail_of
        rw [hfail1 i hiq]
        rfl
      rw [hfi, hout i, hroot2, outExtend_nil]
    · intro i hF
      cases hF
    · intro i s _ _ _
      exact hout i
    · intro i hF
      cases hF
  rcases bfs_spec a0 hwf0 a2.size 1 a2 q (le_refl 1) hinv hq1 hq2 hndq (by omega) with
    ⟨P, h1, h2⟩
  rw [hbuild]
  exact ⟨P, h1, h2⟩

theorem add_child_output (a : Automaton) (n : Nat) (c : Char) (hn : n < a.size) :
    ∀ j, ((add_child_if_absent a n c).1.nth j).output = (a.nth j).output := by
  intro j
  cases hget : (a.nth n).get_child c with
  | some m => rw [add_child_some_eq a n c m hget]
  | none =>
    by_cases hj : j = n
    · subst hj
      rw [add_child_none_nth_self a j c hget hn]
    · by_cases hj2 : j = a.size
      · subst hj2
        rw [add_child_none_nth_new a n c hget hn]
        show ([] : List (String × List (Nat × Int))) = (a.nth a.size).output
        rw [show a.nth a.size = default from getD_ge a.nodes a.size default (le_refl _)]
        rfl
      · rw [add_child_none_nth_other a n c j hget hj hj2]

theorem add_word_walk_output :
    ∀ (cs : List Char) (a : Automaton) (n : Nat), Wf a → n < a.size →
      ∀ j, ((add_word_walk a n cs).1.nth j).output = (a.nth j).output := by
  intro cs
  induction cs with
  | nil => intro a n _ _ j; rfl
  | cons c cs ih =>
    intro a n hwf hn j
    have hstep : add_word_walk a n (c :: cs)
        = add_word_walk (add_child_if_absent a n c).1 (add_child_if_absent a n c).2 cs := rfl
    rw [hstep, ih _ _ (wf_add_child a n c hwf hn) (add_child_m_lt a n c hwf hn),
      add_child_output a n c hn]

theorem add_word_root_output (a : Automaton) (w : String) (idx : Nat) (h : Int)
    (hwf : Wf a) (hw : w ≠ "") :
    ((add_word a w idx h).nth 0).output = (a.nth 0).output := by
  unfold add_word
  rcases add_word_walk_bundle w.data a 0 hwf hwf.size_pos with ⟨hA, hB, _, _, hE⟩
  have hterm : 1 ≤ (add_word_walk a 0 w.data).2 := by
    have hreach := hE [] Reaches.root
    have hlen := (reaches_len_le _ hA _ _ hreach).1
    simp only [List.nil_append] at hlen
    have hwlen : 1 ≤ w.data.length := by
      cases hd : w.data with
      | nil =>
        exfalso
        apply hw
        cases w with
        | mk l =>
          have hl : l = [] := hd
          rw [hl]
      | cons c cs => simp
    omega
  rw [nth_upd_ne _ _ 0 _ (by omega), add_word_walk_output w.data a 0 hwf hwf.size_pos 0]

theorem trie_phase_root_output (words : List String) (h_score : List Int)
    (hne : ∀ p ∈ words, p ≠ "") :
    ((trie_phase words h_score).nth 0).output = [] := by
  unfold trie_phase
  have main : ∀ (l : List (Nat × String × Int)) (a : Automaton), Wf a →
      (∀ p ∈ l, p.2.1 ≠ "") → (a.nth 0).output = [] →
      ((l.foldl (fun a p => add_word a p.2.1 p.1 p.2.2) a).nth 0).output = [] := by
    intro l
    induction l with
    | nil => intro a _ _ h0; exact h0
    | cons p l ih =>
      intro a hwf hl h0
      simp only [List.foldl_cons]
      exact ih _ (wf_add_word a p.2.1 p.1 p.2.2 hwf)
        (fun q hq => hl q (List.mem_cons_of_mem _ hq))
        ((add_word_root_output a p.2.1 p.1 p.2.2 hwf
          (hl p (List.mem_cons_self _ _))).trans h0)
  apply main _ Automaton.init wf_init
  · intro p hp
    exact hne p.2.1 (List.of_mem_zip (mem_enumFrom_snd _ 0 _ hp)).1
  · rfl

/-- C5: after `build` on non-empty patterns, every node's failure link is
set (non-null), the root's failure link is the root itself, and for every
non-root node the failure target's trie path is the longest proper
suffix of the node's trie path that is itself a trie path. -/
theorem C5_failure_links (P : List String) (S : List Int) (hne : ∀ p ∈ P, p ≠ "") :
    (((build P S).nth 0).fail = some 0) ∧
    (∀ i, i < (build P S).size → ((build P S).nth i).fail ≠ none) ∧
    (∀ i s, Reaches (build P S) s i → i ≠ 0 →
      ∃ f t, ((build P S).nth i).fail = some f ∧ Reaches (build P S) t f ∧
        Lpsuf (build P S) s t) := by
  have hwf0 : Wf (trie_phase P S) := wf_trie_phase P S
  have hroot : ((trie_phase P S).nth 0).output = [] := trie_phase_root_output P S hne
  rcases build_fail_spec (trie_phase P S) hwf0 hroot with ⟨Q, hinv, hbound⟩
  have hb : build P S = build_fail (trie_phase P S) := rfl
  have hwf : Wf (build P S) := wf_build P S
  refine ⟨hb ▸ hinv.failb.1, ?_, ?_⟩
  · intro i hi
    rcases hwf.reach_all i hi with ⟨s, hs⟩
    by_cases hi0 : i = 0
    · subst hi0
      have h0 : ((build P S).nth 0).fail = some 0 := by rw [hb]; exact hinv.failb.1
      rw [h0]
      exact fun h => Option.noConfusion h
    · have hs0 : Reaches (trie_phase P S) s i :=
        (sameSkel_reaches (hb ▸ hinv.skel) s i).mpr hs
      rcases hinv.failb.2 i s (hb ▸ hs) (hbound i s hs0) hi0 with ⟨f, t, hf, _, _⟩
      rw [hb, hf]
      exact fun h => Option.noConfusion h
  · intro i s hs hi0
    have hs0 : Reaches (trie_phase P S) s i :=
      (sameSkel_reaches (hb ▸ hinv.skel) s i).mpr hs
    exact hinv.failb.2 i s (hb ▸ hs) (hbound i s hs0) hi0

theorem C5_failure_links_witness :
    (∀ p ∈ (["ab", "b"] : List String), p ≠ "") ∧
    ((((build ["ab", "b"] [1, 2]).nth 0).fail = some 0) ∧
    (∀ i, i < (build ["ab", "b"] [1, 2]).size → ((build ["ab", "b"] [1, 2]).nth i).fail ≠ none) ∧
    (∀ i s, Reaches (build ["ab", "b"] [1, 2]) s i → i ≠ 0 →
      ∃ f t, ((build ["ab", "b"] [1, 2]).nth i).fail = some f ∧
        Reaches (build ["ab", "b"] [1, 2]) t f ∧ Lpsuf (build ["ab", "b"] [1, 2]) s t)) :=
  ⟨by decide, C5_failure_links ["ab", "b"] [1, 2] (by decide)⟩

/-! ### Output propagation along failure chains -/

theorem assocGet_assocExtend_self {α β : Type} [DecidableEq α] :
    ∀ (o : List (α × List β)) (k : α) (es : List β),
      (assocGet (assocExtend o k es) k).getD []
        = (assocGet o k).getD [] ++ es := by
  intro o
  induction o with
  | nil => intro k es; simp [assocExtend, assocGet]
  | cons p o ih =>
    intro k es
    obtain ⟨p1, pl⟩ := p
    by_cases hp : p1 = k
    · simp [assocExtend, assocGet, hp]
    · simp only [assocExtend, if_neg hp, assocGet]
      exact ih k es

theorem assocGet_assocExtend_ne {α β : Type} [DecidableEq α] :
    ∀ (o : List (α × List β)) (k : α) (es : List β) (w : α), w ≠ k →
      assocGet (assocExtend o k es) w = assocGet o w := by
  intro o
  induction o with
  | nil =>
    intro k es w hw
    simp only [assocExtend, assocGet]
    rw [if_neg (fun h : k = w => hw h.symm)]
  | cons p o ih =>
    intro k es w hw
    obtain ⟨p1, pl⟩ := p
    by_cases hp : p1 = k
    · simp only [assocExtend, if_pos hp, assocGet]
      have hn : ¬ p1 = w := fun h => hw (h ▸ hp)
      rw [if_neg hn, if_neg hn]
    · simp only [assocExtend, if_neg hp, assocGet]
      by_cases hpw : p1 = w
      · rw [if_pos hpw, if_pos hpw]
      · rw [if_neg hpw, if_neg hpw]
        exact ih k es w hw

theorem assocExtend_keys_of_none {α β : Type} [DecidableEq α] :
    ∀ (o : List (α × List β)) (k : α) (es : List β), assocGet o k = none →
      (assocExtend o k es).map Prod.fst = o.map Prod.fst ++ [k] := by
  intro o
  induction o with
  | nil => intro k es _; rfl
  | cons p o ih =>
    intro k es hg
    obtain ⟨p1, pl⟩ := p
    by_cases hp : p1 = k
    · simp [assocGet, hp] at hg
    · simp only [assocGet, if_neg hp] at hg
      simp only [assocExtend, if_neg hp, List.map_cons, ih k es hg, List.cons_append]

theorem assocExtend_keys_of_some {α β : Type} [DecidableEq α] :
    ∀ (o : List (α × List β)) (k : α) (es : List β) (l : List β), assocGet o k = some l →
      (assocExtend o k es).map Prod.fst = o.map Prod.fst := by
  intro o
  induction o with
  | nil => intro k es l hg; cases hg
  | cons p o ih =>
    intro k es l hg
    obtain ⟨p1, pl⟩ := p
    by_cases hp : p1 = k
    · simp only [assocExtend, if_pos hp, List.map_cons]
    · simp only [assocGet, if_neg hp] at hg
      simp only [assocExtend, if_neg hp, List.map_cons, ih k es l hg]

theorem assocExtend_keys_nodup {α β : Type} [DecidableEq α]
    (o : List (α × List β)) (k : α) (es : List β)
    (h : (o.map Prod.fst).Nodup) : ((assocExtend o k es).map Prod.fst).Nodup := by
  cases hg : assocGet o k with
  | none =>
    rw [assocExtend_keys_of_none o k es hg]
    rw [List.nodup_append]
    refine ⟨h, List.nodup_singleton k, ?_⟩
    intro x hx hx2
    rcases List.mem_singleton.mp hx2 with rfl
    rcases List.mem_map.mp hx with ⟨p, hp, hpk⟩
    exact ((assocGet_none_iff o x).mp hg p hp) hpk
  | some l =>
    rw [assocExtend_keys_of_some o k es l hg]
    exact h

/-- Every node's output map has pairwise-distinct pattern keys. -/
def OutKN (a : Automaton) : Prop :=
  ∀ nd ∈ a.nodes, (nd.output.map Prod.fst).Nodup

theorem outKN_upd (a : Automaton) (i : Nat) (f : Node → Node)
    (hf : ∀ nd, (nd.output.map Prod.fst).Nodup → ((f nd).output.map Prod.fst).Nodup)
    (ha : OutKN a) : OutKN (a.upd i f) := by
  intro nd hnd
  rcases mem_listUpd a.nodes i f nd hnd with h | ⟨y, hy, rfl⟩
  · exact ha nd h
  · exact hf y (ha y hy)

theorem outKN_push (a : Automaton) (nd0 : Node) (h0 : nd0.output = [])
    (ha : OutKN a) : OutKN ⟨a.nodes ++ [nd0]⟩ := by
  intro nd hnd
  rcases List.mem_append.mp hnd with h | h
  · exact ha nd h
  · rcases List.mem_singleton.mp h with rfl
    rw [h0]
    exact List.nodup_nil

theorem outKN_nth (a : Automaton) (ha : OutKN a) (i : Nat) :
    (((a.nth i).output).map Prod.fst).Nodup := by
  by_cases h : i < a.nodes.length
  · have hm : a.nth i ∈ a.nodes := by
      unfold Automaton.nth
      rw [List.getD_eq_getElem a.nodes default h]
      exact List.getElem_mem h
    exact ha _ hm
  · unfold Automaton.nth
    rw [List.getD_eq_default a.nodes default (Nat.le_of_not_lt h)]
    exact List.nodup_nil

theorem outKN_outExtend (src : List (String × List (Nat × Int))) :
    ∀ (dst : List (String × List (Nat × Int))), (dst.map Prod.fst).Nodup →
      ((outExtend dst src).map Prod.fst).Nodup := by
  induction src with
  | nil => intro dst h; exact h
  | cons s src ih =>
    intro dst h
    exact ih _ (assocExtend_keys_nodup dst s.1 s.2 h)

theorem outKN_add_child (a : Automaton) (n : Nat) (c : Char) (ha : OutKN a) :
    OutKN (add_child_if_absent a n c).1 := by
  unfold add_child_if_absent
  cases (a.nth n).get_child c with
  | some m => exact ha
  | none => exact outKN_upd _ n _ (fun nd h => h) (outKN_push a _ rfl ha)

theorem outKN_add_word_walk :
    ∀ (cs : List Char) (a : Automaton) (n : Nat), OutKN a → OutKN (add_word_walk a n cs).1 := by
  intro cs
  induction cs with
  | nil => intro a n ha; exact ha
  | cons c cs ih =>
    intro a n ha
    unfold add_word_walk
    exact ih _ _ (outKN_add_child a n c ha)

theorem outKN_add_word (a : Automaton) (w : String) (idx : Nat) (h : Int)
    (ha : OutKN a) : OutKN (add_word a w idx h) := by
  unfold add_word
  apply outKN_upd
  · intro nd hnd
    exact assocExtend_keys_nodup nd.output w [(idx, h)] hnd
  · exact outKN_add_word_walk w.data a 0 ha

theorem outKN_init : OutKN Automaton.init := by
  intro nd hnd
  rcases List.mem_singleton.mp hnd with rfl
  exact List.nodup_nil

theorem outKN_trie_phase (words : List String) (h_score : List Int) :
    OutKN (trie_phase words h_score) := by
  unfold trie_phase
  have main : ∀ (l : List (Nat × String × Int)) (a : Automaton), OutKN a →
      OutKN (l.foldl (fun a p => add_word a p.2.1 p.1 p.2.2) a) := by
    intro l
    induction l with
    | nil => intro a ha; exact ha
    | cons p l ih => intro a ha; exact ih _ (outKN_add_word a p.2.1 p.1 p.2.2 ha)
  exact main _ Automaton.init outKN_init

theorem outKN_process_child (a : Automaton) (n : Nat) (kv : Char × Nat) (ha : OutKN a) :
    OutKN (process_child a n kv) := by
  rw [process_child_eq]
  apply outKN_upd
  · intro nd hnd
    exact outKN_outExtend _ nd.output hnd
  · exact outKN_upd a kv.2 _ (fun nd h => h) ha

theorem outKN_children_fold (n : Nat) :
    ∀ (l : List (Char × Nat)) (st : Automaton × List Nat), OutKN st.1 →
      OutKN (l.foldl (fun st kv => (process_child st.1 n kv, st.2 ++ [kv.2])) st).1 := by
  intro l
  induction l with
  | nil => intro st h; exact h
  | cons kv l ih => intro st h; exact ih _ (outKN_process_child st.1 n kv h)

theorem outKN_qfold :
    ∀ (q : List Nat) (st : Automaton × List Nat), OutKN st.1 →
      OutKN (q.foldl (fun st n => process_level_node st.1 st.2 n) st).1 := by
  intro q
  induction q with
  | nil => intro st h; exact h
  | cons n q ih => intro st h; exact ih _ (outKN_children_fold n _ _ h)

theorem outKN_bfs :
    ∀ (fuel : Nat) (a : Automaton) (q : List Nat), OutKN a → OutKN (bfs a q fuel) := by
  intro fuel
  induction fuel with
  | zero =>
    intro a q ha
    cases q with
    | nil => exact ha
    | cons n q' => exact ha
  | succ fuel ih =>
    intro a q ha
    cases q with
    | nil => exact ha
    | cons n q' =>
      simp only [bfs]
      exact ih _ _ (outKN_qfold (n :: q') (a, []) ha)

theorem outKN_build_fail (a : Automaton) (ha : OutKN a) : OutKN (build_fail a) := by
  unfold build_fail
  apply outKN_bfs
  have h1 : OutKN (a.upd 0 (fun nd => { nd with fail := some 0 })) :=
    outKN_upd a 0 _ (fun nd h => h) ha
  have main : ∀ (l : List Nat) (a' : Automaton), OutKN a' →
      OutKN (l.foldl (fun a v => a.upd v (fun nd => { nd with fail := some 0 })) a') := by
    intro l
    induction l with
    | nil => intro a' h; exact h
    | cons v l ih => intro a' h; exact ih _ (outKN_upd a' v _ (fun nd hh => hh) h)
  exact main _ _ h1

theorem outKN_build (words : List String) (h_score : List Int) :
    OutKN (build words h_score) :=
  outKN_build_fail _ (outKN_trie_phase words h_score)

/-- The `(ordinal, score)` entries node `i` stores under pattern key `w`
(empty when the key is absent). -/
def outAt (a : Automaton) (i : Nat) (w : String) : List (Nat × Int) :=
  (assocGet (a.nth i).output w).getD []

theorem assocGet_outExtend :
    ∀ (src : List (String × List (Nat × Int))), (src.map Prod.fst).Nodup →
      ∀ (dst : List (String × List (Nat × Int))) (w : String),
        (assocGet (outExtend dst src) w).getD []
          = (assocGet dst w).getD [] ++ (assocGet src w).getD [] := by
  intro src
  induction src with
  | nil => intro _ dst w; simp [outExtend, assocGet]
  | cons p src ih =>
    intro hnd dst w
    obtain ⟨k, l⟩ := p
    simp only [List.map_cons, List.nodup_cons] at hnd
    show (assocGet (outExtend (assocExtend dst k l) src) w).getD [] = _
    rw [ih hnd.2]
    by_cases hw : w = k
    · subst hw
      rw [assocGet_assocExtend_self]
      have hsrc : assocGet src w = none := by
        rw [assocGet_none_iff]
        intro q hq hqw
        exact hnd.1 (hqw ▸ List.mem_map_of_mem Prod.fst hq)
      rw [hsrc]
      show ((assocGet dst w).getD [] ++ l) ++ [] = _ ++ (assocGet ((w, l) :: src) w).getD []
      have ht : assocGet ((w, l) :: src) w = some l := by
        show (if w = w then some l else assocGet src w) = some l
        rw [if_pos rfl]
      rw [ht]
      simp
    · rw [assocGet_assocExtend_ne _ _ _ _ hw]
      have hr : assocGet ((k, l) :: src) w = assocGet src w := by
        show (if k = w then some l else assocGet src w) = assocGet src w
        rw [if_neg (fun h : k = w => hw h.symm)]
      rw [hr]

/-- The failure chain from `v` down to (and including) the root; exact
whenever `fuel` is at least the depth of `v`. -/
def failChainList (a : Automaton) : Nat → Nat → List Nat
  | 0, _ => []
  | fuel+1, v => if v = 0 then [] else fail_of a v :: failChainList a fuel (fail_of a v)

theorem failChainList_succ (a : Automaton) (fuel v : Nat) :
    failChainList a (fuel + 1) v
      = if v = 0 then [] else fail_of a v :: failChainList a fuel (fail_of a v) := rfl

theorem outAt_chain (a0 : Automaton) (hwf0 : Wf a0) (Q : Nat) (a : Automaton)
    (hinv : PartInv a0 Q a (fun _ => False))
    (hroot0 : (a0.nth 0).output = [])
    (hkn : OutKN a) :
    ∀ (d : Nat) (i : Nat) (s : List Char), Reaches a s i → s.length ≤ d → s.length ≤ Q →
      ∀ w, outAt a i w
        = outAt a0 i w ++ (failChainList a d i).flatMap (fun u => outAt a0 u w) := by
  intro d
  induction d with
  | zero =>
    intro i s hr hd _ w
    have hs : s = [] := List.length_eq_zero.mp (by omega)
    subst hs
    have hi : i = 0 := reaches_nil_inv a [] i hr rfl
    subst hi
    show outAt a 0 w = outAt a0 0 w ++ ([] : List Nat).flatMap _
    rw [show outAt a 0 w = [] from by unfold outAt; rw [hinv.root_out]; rfl,
      show outAt a0 0 w = [] from by unfold outAt; rw [hroot0]; rfl]
    rfl
  | succ d ih =>
    intro i s hr hd hq w
    by_cases hi : i = 0
    · subst hi
      have hs : s = [] := reaches_zero_nil a (sameSkel_wf hinv.skel hwf0) s hr
      subst hs
      rw [show failChainList a (d+1) 0 = [] from by rw [failChainList_succ, if_pos rfl],
        show outAt a 0 w = [] from by unfold outAt; rw [hinv.root_out]; rfl,
        show outAt a0 0 w = [] from by unfold outAt; rw [hroot0]; rfl]
      rfl
    · have h1 : 1 ≤ s.length := by
        cases s with
        | nil => exact absurd (reaches_nil_inv a [] i hr rfl) hi
        | cons c0 tl => simp
      rcases hinv.failb.2 i s hr hq hi with ⟨f, t, hf, hrf, hl⟩
      have hfo : fail_of a i = f := by unfold fail_of; rw [hf]; rfl
      have heq := hinv.out_proc i s hr h1 hq
      rw [hfo] at heq
      have hchain : failChainList a (d+1) i = f :: failChainList a d f := by
        rw [failChainList_succ, if_neg hi, hfo]
      rw [hchain]
      have hllen := hl.2.1
      have houtf := ih f t hrf (by omega) (by omega) w
      have hndf := outKN_nth a hkn f
      unfold outAt
      rw [heq, assocGet_outExtend ((a.nth f).output) hndf ((a0.nth i).output) w]
      rw [show (assocGet (a.nth f).output w).getD [] = outAt a f w from rfl, houtf]
      unfold outAt
      simp [List.flatMap_cons, List.append_assoc]

/-- C6: after `build` on non-empty patterns, each node's output map under
every pattern key is exactly its direct (trie-insertion) entries followed
by the direct entries of each node on its failure chain up to the root,
kept with full multiplicity and never merged. -/
theorem C6_output_propagation (P : List String) (S : List Int) (hne : ∀ p ∈ P, p ≠ "") :
    ∀ (v : Nat) (s : List Char), Reaches (build P S) s v → ∀ w,
      outAt (build P S) v w
        = outAt (trie_phase P S) v w
          ++ (failChainList (build P S) ((build P S).size) v).flatMap
              (fun u => outAt (trie_phase P S) u w) := by
  intro v s hr w
  have hwf0 : Wf (trie_phase P S) := wf_trie_phase P S
  have hroot : ((trie_phase P S).nth 0).output = [] := trie_phase_root_output P S hne
  rcases build_fail_spec (trie_phase P S) hwf0 hroot with ⟨Q, hinv, hbound⟩
  have hinv' : PartInv (trie_phase P S) Q (build P S) (fun _ => False) := hinv
  have hs0 : Reaches (trie_phase P S) s v := (sameSkel_reaches hinv'.skel s v).mpr hr
  have hsize : s.length ≤ (build P S).size := by
    have h2 := reaches_len_le (build P S) (wf_build P S) s v hr
    omega
  exact outAt_chain (trie_phase P S) hwf0 Q (build P S) hinv' hroot (outKN_build P S)
    ((build P S).size) v s hr hsize (hbound v s hs0) w

theorem C6_output_propagation_witness :
    (∀ p ∈ (["ab", "b"] : List String), p ≠ "") ∧
    (∀ (v : Nat) (s : List Char), Reaches (build ["ab", "b"] [1, 2]) s v → ∀ w,
      outAt (build ["ab", "b"] [1, 2]) v w
        = outAt (trie_phase ["ab", "b"] [1, 2]) v w
          ++ (failChainList (build ["ab", "b"] [1, 2]) ((build ["ab", "b"] [1, 2]).size) v).flatMap
              (fun u => outAt (trie_phase ["ab", "b"] [1, 2]) u w)) :=
  ⟨by decide, C6_output_propagation ["ab", "b"] [1, 2] (by decide)⟩

/-! ### Direct trie content: which entries insertion stores at which node -/

theorem string_data_inj (s t : String) (h : s.data = t.data) : s = t := by
  cases s with
  | mk l =>
    cases t with
    | mk l' =>
      have hl : l = l' := h
      rw [hl]

/-- Growing the arena by one child adds no path to a pre-existing node:
the fresh edge points at the fresh node only. -/
theorem add_child_reaches_old (a : Automaton) (n : Nat) (c : Char) (hwf : Wf a)
    (hn : n < a.size) :
    ∀ (s : List Char) (u : Nat), Reaches (add_child_if_absent a n c).1 s u → u < a.size →
      Reaches a s u := by
  intro s u h
  induction h with
  | root => intro _; exact Reaches.root
  | @step s0 i j c' hr hc ih =>
    intro hj
    have hc' : assocGet (((add_child_if_absent a n c).1.nth i)).d_children c' = some j := hc
    have hmem : (c', j) ∈ ((add_child_if_absent a n c).1.nth i).d_children :=
      assocGet_some_mem _ c' j hc'
    rcases add_child_entry_cases a n c hn i (c', j) hmem with hold | ⟨_, hkv, _⟩
    · have hi : i < a.size := by
        by_contra hge
        have hdef : a.nth i = default := getD_ge a.nodes i default (Nat.le_of_not_lt hge)
        rw [hdef] at hold
        have hnil : (default : Node).d_children = [] := rfl
        rw [hnil] at hold
        cases hold
      have hedge : (a.nth i).get_child c' = some j :=
        assocGet_mem_some _ c' j (hwf.child_keys_nodup i) hold
      exact Reaches.step (ih hi) hedge
    · have hj2 : j = a.size := congrArg Prod.snd hkv
      omega

/-- The `_add_word` walk adds no path to a pre-existing node. -/
theorem walk_reaches_old :
    ∀ (cs : List Char) (a : Automaton) (n : Nat), Wf a → n < a.size →
      ∀ (s : List Char) (u : Nat), Reaches (add_word_walk a n cs).1 s u → u < a.size →
        Reaches a s u := by
  intro cs
  induction cs with
  | nil => intro a n _ _ s u h _; exact h
  | cons c cs ih =>
    intro a n hwf hn s u h hu
    have hstep : add_word_walk a n (c :: cs)
        = add_word_walk (add_child_if_absent a n c).1 (add_child_if_absent a n c).2 cs := rfl
    rw [hstep] at h
    have h1 := ih _ _ (wf_add_child a n c hwf hn) (add_child_m_lt a n c hwf hn) s u h
      (lt_of_lt_of_le hu (add_child_size_le a n c))
    exact add_child_reaches_old a n c hwf hn s u h1 hu

/-- The `(ordinal, score)` pairs recorded under pattern key `w` by a run
of `(ordinal, (pattern, score))` insertions. -/
def pairEntries (l : List (Nat × String × Int)) (w : String) : List (Nat × Int) :=
  (l.filter (fun q => decide (q.2.1 = w))).map (fun q => (q.1, q.2.2))

/-- The entries the whole insertion loop of `build(P, S)` records for
pattern `w`: one `(i, S[i])` pair per enumerated zipped pair with
`P[i] = w`. -/
def directEntries (P : List String) (S : List Int) (w : String) : List (Nat × Int) :=
  pairEntries ((P.zip S).enum) w

theorem pairEntries_nil (w : String) : pairEntries [] w = [] := rfl

theorem pairEntries_cons (q : Nat × String × Int) (l : List (Nat × String × Int)) (w : String) :
    pairEntries (q :: l) w
      = (if q.2.1 = w then [(q.1, q.2.2)] else []) ++ pairEntries l w := by
  unfold pairEntries
  by_cases h : q.2.1 = w
  · rw [List.filter_cons_of_pos (by simpa using h), if_pos h]
    rfl
  · rw [List.filter_cons_of_neg (by simpa using h), if_neg h]
    rfl

theorem add_word_eq (a : Automaton) (w : String) (idx : Nat) (h : Int) :
    add_word a w idx h
      = (add_word_walk a 0 w.data).1.upd (add_word_walk a 0 w.data).2
          (fun nd => { nd with output := assocExtend nd.output w [(idx, h)] }) := rfl

theorem add_word_outAt_ne (a : Automaton) (w0 : String) (idx : Nat) (h : Int)
    (hwf : Wf a) (u : Nat) (hu : u ≠ (add_word_walk a 0 w0.data).2) (w : String) :
    outAt (add_word a w0 idx h) u w = outAt a u w := by
  rw [add_word_eq]
  unfold outAt
  rw [nth_upd_ne _ _ u _ (fun he => hu he.symm),
    add_word_walk_output w0.data a 0 hwf hwf.size_pos u]

theorem add_word_outAt_self (a : Automaton) (w0 : String) (idx : Nat) (h : Int)
    (hwf : Wf a) (w : String) :
    outAt (add_word a w0 idx h) (add_word_walk a 0 w0.data).2 w
      = outAt a (add_word_walk a 0 w0.data).2 w ++ (if w = w0 then [(idx, h)] else []) := by
  rw [add_word_eq]
  unfold outAt
  rcases add_word_walk_bundle w0.data a 0 hwf hwf.size_pos with ⟨_, hB, _, _, _⟩
  rw [nth_upd_self _ _ _ hB]
  by_cases hw : w = w0
  · subst hw
    show (assocGet (assocExtend ((add_word_walk a 0 w.data).1.nth
        (add_word_walk a 0 w.data).2).output w [(idx, h)]) w).getD [] = _
    rw [assocGet_assocExtend_self, if_pos rfl,
      add_word_walk_output w.data a 0 hwf hwf.size_pos]
  · show (assocGet (assocExtend ((add_word_walk a 0 w0.data).1.nth
        (add_word_walk a 0 w0.data).2).output w0 [(idx, h)]) w).getD [] = _
    rw [assocGet_assocExtend_ne _ _ _ _ hw, if_neg hw,
      add_word_walk_output w0.data a 0 hwf hwf.size_pos, List.append_nil]

theorem add_word_skel (a : Automaton) (w : String) (idx : Nat) (h : Int) :
    sameSkel (add_word_walk a 0 w.data).1 (add_word a w idx h) :=
  sameSkel_upd (add_word_walk a 0 w.data).1 (add_word_walk a 0 w.data).2
    (fun nd => { nd with output := assocExtend nd.output w [(idx, h)] }) (fun nd => rfl)

theorem add_word_reaches (a : Automaton) (w : String) (idx : Nat) (h : Int) (hwf : Wf a) :
    ∀ (s : List Char) (u : Nat), Reaches a s u → Reaches (add_word a w idx h) s u := by
  intro s u hr
  rcases add_word_walk_bundle w.data a 0 hwf hwf.size_pos with ⟨_, _, _, hD, _⟩
  have h1 : Reaches (add_word_walk a 0 w.data).1 s u := reaches_mono a _ hD s u hr
  exact (sameSkel_reaches (add_word_skel a w idx h) s u).mp h1

theorem add_word_reaches_old (a : Automaton) (w : String) (idx : Nat) (h : Int) (hwf : Wf a) :
    ∀ (s : List Char) (u : Nat), Reaches (add_word a w idx h) s u → u < a.size →
      Reaches a s u := by
  intro s u hr hu
  have h1 : Reaches (add_word_walk a 0 w.data).1 s u :=
    (sameSkel_reaches (add_word_skel a w idx h) s u).mpr hr
  exact walk_reaches_old w.data a 0 hwf hwf.size_pos s u h1 hu

theorem add_word_terminal (a : Automaton) (w : String) (idx : Nat) (h : Int) (hwf : Wf a) :
    Reaches (add_word a w idx h) w.data (add_word_walk a 0 w.data).2 := by
  rcases add_word_walk_bundle w.data a 0 hwf hwf.size_pos with ⟨_, _, _, _, hE⟩
  have h1 := hE [] Reaches.root
  simp only [List.nil_append] at h1
  exact (sameSkel_reaches (add_word_skel a w idx h) _ _).mp h1

/-- Invariant of the insertion loop, relative to a ledger `E` of entries
already recorded: entries live only at the terminal node of their
pattern, every terminal carries exactly its ledger entries, and every
recorded pattern labels a trie path. -/
theorem trie_content_fold :
    ∀ (l : List (Nat × String × Int)) (a : Automaton) (E : String → List (Nat × Int)),
      Wf a →
      (∀ u w, outAt a u w ≠ [] → Reaches a w.data u) →
      (∀ u w, Reaches a w.data u → outAt a u w = E w) →
      (∀ w, E w ≠ [] → IsPath a w.data) →
      ((∀ u w, outAt (l.foldl (fun a p => add_word a p.2.1 p.1 p.2.2) a) u w ≠ [] →
          Reaches (l.foldl (fun a p => add_word a p.2.1 p.1 p.2.2) a) w.data u) ∧
        (∀ u w, Reaches (l.foldl (fun a p => add_word a p.2.1 p.1 p.2.2) a) w.data u →
          outAt (l.foldl (fun a p => add_word a p.2.1 p.1 p.2.2) a) u w
            = E w ++ pairEntries l w) ∧
        (∀ w, E w ++ pairEntries l w ≠ [] →
          IsPath (l.foldl (fun a p => add_word a p.2.1 p.1 p.2.2) a) w.data)) := by
  intro l
  induction l with
  | nil =>
    intro a E hwf h1 h2 h3
    simp only [List.foldl_nil]
    refine ⟨h1, ?_, ?_⟩
    · intro u w hr
      rw [pairEntries_nil, List.append_nil]
      exact h2 u w hr
    · intro w hw
      rw [pairEntries_nil, List.append_nil] at hw
      exact h3 w hw
  | cons p l ih =>
    intro a E hwf h1 h2 h3
    obtain ⟨idx, w0, h⟩ := p
    have hfold : (((idx, w0, h) :: l).foldl (fun a p => add_word a p.2.1 p.1 p.2.2) a)
        = l.foldl (fun a p => add_word a p.2.1 p.1 p.2.2) (add_word a w0 idx h) := rfl
    rw [hfold]
    have hwf1 : Wf (add_word a w0 idx h) := wf_add_word a w0 idx h hwf
    have hterm : Reaches (add_word a w0 idx h) w0.data (add_word_walk a 0 w0.data).2 :=
      add_word_terminal a w0 idx h hwf
    have hmono := add_word_reaches a w0 idx h hwf
    have hold := add_word_reaches_old a w0 idx h hwf
    have A1 : ∀ u w, outAt (add_word a w0 idx h) u w ≠ [] →
        Reaches (add_word a w0 idx h) w.data u := by
      intro u w hne
      by_cases hum : u = (add_word_walk a 0 w0.data).2
      · subst hum
        by_cases hww : w = w0
        · subst hww
          exact hterm
        · rw [add_word_outAt_self a w0 idx h hwf w, if_neg hww, List.append_nil] at hne
          exact hmono _ _ (h1 _ w hne)
      · rw [add_word_outAt_ne a w0 idx h hwf u hum w] at hne
        exact hmono _ _ (h1 u w hne)
    have A2 : ∀ u w, Reaches (add_word a w0 idx h) w.data u →
        outAt (add_word a w0 idx h) u w
          = E w ++ (if w = w0 then [(idx, h)] else []) := by
      intro u w hr
      by_cases hum : u = (add_word_walk a 0 w0.data).2
      · subst hum
        have hww : w = w0 := string_data_inj w w0
          (reach_inj _ hwf1 w.data _ hr w0.data hterm)
        subst hww
        rw [add_word_outAt_self a w idx h hwf w, if_pos rfl]
        congr 1
        by_cases hm : (add_word_walk a 0 w.data).2 < a.size
        · exact h2 _ w (hold _ _ hr hm)
        · have hdef : a.nth (add_word_walk a 0 w.data).2 = default :=
            getD_ge a.nodes _ default (Nat.le_of_not_lt hm)
          have hL : outAt a (add_word_walk a 0 w.data).2 w = [] := by
            unfold outAt
            rw [hdef]
            rfl
          rw [hL]
          by_contra hEne
          have hEne' : E w ≠ [] := fun hh => hEne hh.symm
          rcases h3 w hEne' with ⟨u', hu'⟩
          have heq' : u' = (add_word_walk a 0 w.data).2 :=
            reach_fun _ w.data u' (hmono _ _ hu') _ hr
          have hlt := (reaches_len_le a hwf w.data u' hu').2
          omega
      · by_cases hww : w = w0
        · subst hww
          exact absurd (reach_fun _ w.data u hr _ hterm) hum
        · rw [add_word_outAt_ne a w0 idx h hwf u hum w, if_neg hww, List.append_nil]
          by_cases hu : u < a.size
          · exact h2 u w (hold _ _ hr hu)
          · have hdef : a.nth u = default := getD_ge a.nodes u default (Nat.le_of_not_lt hu)
            have hL : outAt a u w = [] := by
              unfold outAt
              rw [hdef]
              rfl
            rw [hL]
            by_contra hEne
            have hEne' : E w ≠ [] := fun hh => hEne hh.symm
            rcases h3 w hEne' with ⟨u', hu'⟩
            have heq' : u' = u := reach_fun _ w.data u' (hmono _ _ hu') u hr
            have hlt := (reaches_len_le a hwf w.data u' hu').2
            omega
    have A3 : ∀ w, E w ++ (if w = w0 then [(idx, h)] else []) ≠ [] →
        IsPath (add_word a w0 idx h) w.data := by
      intro w hne
      by_cases hww : w = w0
      · subst hww
        exact ⟨_, hterm⟩
      · have hEw : E w ≠ [] := by
          intro hh
          apply hne
          rw [if_neg hww, List.append_nil]
          exact hh
        rcases h3 w hEw with ⟨u, hu⟩
        exact ⟨u, hmono _ _ hu⟩
    rcases ih (add_word a w0 idx h)
      (fun w => E w ++ (if w = w0 then [(idx, h)] else [])) hwf1 A1 A2 A3 with ⟨B1, B2, B3⟩
    refine ⟨B1, ?_, ?_⟩
    · intro u w hr
      rw [B2 u w hr]
      show (E w ++ (if w = w0 then [(idx, h)] else [])) ++ pairEntries l w
        = E w ++ pairEntries ((idx, w0, h) :: l) w
      rw [pairEntries_cons]
      show (E w ++ (if w = w0 then [(idx, h)] else [])) ++ pairEntries l w
        = E w ++ ((if w0 = w then [(idx, h)] else []) ++ pairEntries l w)
      by_cases hww : w = w0
      · subst hww
        rw [if_pos rfl, List.append_assoc]
      · rw [if_neg hww, if_neg (fun hh : w0 = w => hww hh.symm), List.append_nil,
          List.nil_append]
    · intro w hw
      apply B3
      intro hnil
      apply hw
      show E w ++ pairEntries ((idx, w0, h) :: l) w = []
      rw [pairEntries_cons]
      show E w ++ ((if w0 = w then [(idx, h)] else []) ++ pairEntries l w) = []
      by_cases hww : w = w0
      · subst hww
        rw [if_pos rfl]
        rw [if_pos rfl] at hnil
        rw [← List.append_assoc]
        exact hnil
      · rw [if_neg (fun hh : w0 = w => hww hh.symm), List.nil_append]
        rw [if_neg hww, List.append_nil] at hnil
        exact hnil

theorem outAt_init (u : Nat) (w : String) : outAt Automaton.init u w = [] := by
  cases u with
  | zero => rfl
  | succ u =>
    unfold outAt
    rw [show Automaton.init.nth (u+1) = default from
      getD_ge _ _ default (by show 1 ≤ u + 1; omega)]
    rfl

theorem trie_phase_eq (P : List String) (S : List Int) :
    trie_phase P S
      = ((P.zip S).enum).foldl (fun a p => add_word a p.2.1 p.1 p.2.2) Automaton.init := rfl

/-- After the insertion phase, entries live only at the terminal node of
their pattern string. -/
theorem trie_out_reaches (P : List String) (S : List Int) :
    ∀ u w, outAt (trie_phase P S) u w ≠ [] → Reaches (trie_phase P S) w.data u := by
  have hmain := trie_content_fold ((P.zip S).enum) Automaton.init (fun _ => []) wf_init
    (fun u w hne => absurd (outAt_init u w) hne)
    (fun u w _ => outAt_init u w)
    (fun w hne => absurd rfl hne)
  rw [trie_phase_eq]
  exact hmain.1

/-- After the insertion phase, the terminal node of `w` stores under key
`w` exactly the enumeration-filtered `(ordinal, score)` pairs of `w`. -/
theorem trie_out_eq (P : List String) (S : List Int) :
    ∀ u w, Reaches (trie_phase P S) w.data u →
      outAt (trie_phase P S) u w = directEntries P S w := by
  have hmain := trie_content_fold ((P.zip S).enum) Automaton.init (fun _ => []) wf_init
    (fun u w hne => absurd (outAt_init u w) hne)
    (fun u w _ => outAt_init u w)
    (fun w hne => absurd rfl hne)
  intro u w hr
  rw [trie_phase_eq]
  rw [trie_phase_eq] at hr
  rw [hmain.2.1 u w hr]
  show [] ++ pairEntries ((P.zip S).enum) w = directEntries P S w
  rw [List.nil_append]
  rfl

/-- A pattern with at least one recorded entry labels a trie path. -/
theorem trie_path_of_direct (P : List String) (S : List Int) :
    ∀ w, directEntries P S w ≠ [] → IsPath (trie_phase P S) w.data := by
  have hmain := trie_content_fold ((P.zip S).enum) Automaton.init (fun _ => []) wf_init
    (fun u w hne => absurd (outAt_init u w) hne)
    (fun u w _ => outAt_init u w)
    (fun w hne => absurd rfl hne)
  intro w hne
  rw [trie_phase_eq]
  apply hmain.2.2
  show [] ++ pairEntries ((P.zip S).enum) w ≠ []
  rw [List.nil_append]
  exact hne

/-! ### The closed form of a built node's output entries per key -/

theorem flatMap_nil_of_all {α β : Type} (l : List α) (g : α → List β)
    (h : ∀ x, g x = []) : l.flatMap g = [] := by
  induction l with
  | nil => rfl
  | cons x l ih => rw [List.flatMap_cons, h x, ih, List.append_nil]

/-- The failure chain of a built node contributes, per pattern key,
exactly the direct entries of the pattern's terminal — when the pattern
is a proper suffix of the node's path — and nothing otherwise. -/
theorem chainFlat (a0 : Automaton) (hwf0 : Wf a0) (Q : Nat) (a : Automaton)
    (hinv : PartInv a0 Q a (fun _ => False))
    (hor : ∀ u w, outAt a0 u w ≠ [] → Reaches a0 w.data u) :
    ∀ (d : Nat) (i : Nat) (s : List Char), Reaches a s i → s.length ≤ d → s.length ≤ Q →
      ∀ (w : String) (uw : Nat), Reaches a0 w.data uw →
        (failChainList a d i).flatMap (fun u => outAt a0 u w)
          = if w.data <:+ s ∧ w.data.length < s.length then outAt a0 uw w else [] := by
  have hwf : Wf a := sameSkel_wf hinv.skel hwf0
  intro d
  induction d with
  | zero =>
    intro i s hr hd _ w uw _
    have hs : s = [] := List.length_eq_zero.mp (by omega)
    subst hs
    rw [if_neg (fun hc : w.data <:+ [] ∧ w.data.length < List.length [] => by simp at hc)]
    rfl
  | succ d ih =>
    intro i s hr hd hq w uw hruw
    by_cases hi : i = 0
    · subst hi
      have hs : s = [] := reaches_zero_nil a hwf s hr
      subst hs
      rw [show failChainList a (d+1) 0 = [] from by rw [failChainList_succ, if_pos rfl],
        if_neg (fun hc : w.data <:+ [] ∧ w.data.length < List.length [] => by simp at hc)]
      rfl
    · rcases hinv.failb.2 i s hr hq hi with ⟨fnd, tf, hf, hrf, hl⟩
      have hfo : fail_of a i = fnd := by
        unfold fail_of
        rw [hf]
        rfl
      have hchain : failChainList a (d+1) i = fnd :: failChainList a d fnd := by
        rw [failChainList_succ, if_neg hi, hfo]
      have hllen := hl.2.1
      have htail := ih fnd tf hrf (by omega) (by omega) w uw hruw
      rw [hchain, List.flatMap_cons, htail]
      have hrf0 : Reaches a0 tf fnd := (sameSkel_reaches hinv.skel tf fnd).mpr hrf
      by_cases hwt : w.data = tf
      · -- the head is the pattern terminal; the tail contributes nothing
        have huwf : uw = fnd := by
          apply reach_fun a0 w.data uw hruw
          rw [hwt]
          exact hrf0
        have htc : ¬ (w.data <:+ tf ∧ w.data.length < tf.length) := by
          rintro ⟨_, hlt⟩
          rw [hwt] at hlt
          omega
        rw [if_neg htc, List.append_nil, huwf]
        have hcond : w.data <:+ s ∧ w.data.length < s.length := by
          rw [hwt]
          exact ⟨hl.1, hllen⟩
        rw [if_pos hcond]
      · -- the head contributes nothing
        have hhead : outAt a0 fnd w = [] := by
          by_contra hne
          have hrw : Reaches a0 w.data fnd := hor fnd w hne
          have hrwa : Reaches a w.data fnd := (sameSkel_reaches hinv.skel w.data fnd).mp hrw
          exact hwt (reach_inj a hwf w.data fnd hrwa tf hrf)
        rw [hhead, List.nil_append]
        by_cases hc : w.data <:+ s ∧ w.data.length < s.length
        · -- the pattern is a proper suffix-path of `s`, hence a suffix of `tf`
          have hip : IsPath a w.data :=
            ⟨uw, (sameSkel_reaches hinv.skel w.data uw).mp hruw⟩
          have hle : w.data.length ≤ tf.length := hl.2.2.2 w.data hc.1 hc.2 hip
          have hsub : w.data <:+ tf := suffix_of_suffix_le hc.1 hl.1 hle
          have hstrict : w.data.length < tf.length := by
            rcases Nat.lt_or_ge w.data.length tf.length with h | h
            · exact h
            · exact absurd (List.IsSuffix.eq_of_length hsub (by omega)) hwt
          rw [if_pos ⟨hsub, hstrict⟩, if_pos hc]
        · have htc : ¬ (w.data <:+ tf ∧ w.data.length < tf.length) := by
            rintro ⟨h1, h2⟩
            exact hc ⟨h1.trans hl.1, by omega⟩
          rw [if_neg htc, if_neg hc]

theorem outAt_of_ge (a : Automaton) (v : Nat) (hv : a.size ≤ v) (w : String) :
    outAt a v w = [] := by
  unfold outAt
  rw [show a.nth v = default from getD_ge a.nodes v default hv]
  rfl

/-- A built node's entries under key `w`, when `w` labels a trie path:
the direct entries of `w`'s terminal exactly when `w` is a suffix of the
node's path, nothing otherwise. -/
theorem outAt_build_eq (P : List String) (S : List Int) (hne : ∀ p ∈ P, p ≠ "")
    (v : Nat) (s : List Char) (hr : Reaches (build P S) s v)
    (w : String) (uw : Nat) (hruw : Reaches (trie_phase P S) w.data uw) :
    outAt (build P S) v w = if w.data <:+ s then directEntries P S w else [] := by
  have hwf0 : Wf (trie_phase P S) := wf_trie_phase P S
  have hroot : ((trie_phase P S).nth 0).output = [] := trie_phase_root_output P S hne
  rcases build_fail_spec (trie_phase P S) hwf0 hroot with ⟨Q, hinv, hbound⟩
  have hwf : Wf (build P S) := sameSkel_wf hinv.skel hwf0
  have hs0 : Reaches (trie_phase P S) s v := (sameSkel_reaches hinv.skel s v).mpr hr
  have hsize : s.length ≤ (build P S).size := by
    have h2 := reaches_len_le (build P S) hwf s v hr
    omega
  have hmain := outAt_chain (trie_phase P S) hwf0 Q (build P S) hinv hroot
    (outKN_build P S) ((build P S).size) v s hr hsize (hbound v s hs0) w
  have hflat := chainFlat (trie_phase P S) hwf0 Q (build P S) hinv
    (trie_out_reaches P S) ((build P S).size) v s hr hsize (hbound v s hs0) w uw hruw
  rw [hmain, hflat]
  have hterm : outAt (trie_phase P S) uw w = directEntries P S w :=
    trie_out_eq P S uw w hruw
  by_cases hws : w.data = s
  · -- `v` is the terminal of `w` itself
    have hvw : uw = v := by
      apply reach_fun (trie_phase P S) w.data uw hruw
      rw [hws]
      exact hs0
    have hhead : outAt (trie_phase P S) v w = directEntries P S w := by
      rw [← hvw]
      exact hterm
    have hnc : ¬ (w.data <:+ s ∧ w.data.length < s.length) := by
      rintro ⟨_, hlt⟩
      rw [hws] at hlt
      omega
    have hsuf : w.data <:+ s := by
      rw [hws]
    rw [hhead, if_neg hnc, if_pos hsuf, List.append_nil]
  · have hhead : outAt (trie_phase P S) v w = [] := by
      by_contra hne2
      have hrw := trie_out_reaches P S v w hne2
      exact hws (reach_inj (trie_phase P S) hwf0 w.data v hrw s hs0)
    rw [hhead, List.nil_append, hterm]
    by_cases hsuf : w.data <:+ s
    · have hle := List.IsSuffix.length_le hsuf
      have hstrict : w.data.length < s.length := by
        rcases Nat.lt_or_ge w.data.length s.length with h | h
        · exact h
        · exact absurd (List.IsSuffix.eq_of_length hsuf (by omega)) hws
      rw [if_pos ⟨hsuf, hstrict⟩, if_pos hsuf]
    · rw [if_neg (fun hc => hsuf hc.1), if_neg hsuf]

/-- When no entry was recorded for `w`, no built node carries the key
`w` with entries. -/
theorem outAt_build_nil (P : List String) (S : List Int) (hne : ∀ p ∈ P, p ≠ "")
    (w : String) (hD : directEntries P S w = []) :
    ∀ v, outAt (build P S) v w = [] := by
  have hwf0 : Wf (trie_phase P S) := wf_trie_phase P S
  have hroot : ((trie_phase P S).nth 0).output = [] := trie_phase_root_output P S hne
  rcases build_fail_spec (trie_phase P S) hwf0 hroot with ⟨Q, hinv, hbound⟩
  have hwf : Wf (build P S) := sameSkel_wf hinv.skel hwf0
  have hall : ∀ u, outAt (trie_phase P S) u w = [] := by
    intro u
    by_contra hne2
    have hrw := trie_out_reaches P S u w hne2
    rw [trie_out_eq P S u w hrw, hD] at hne2
    exact hne2 rfl
  intro v
  by_cases hv : v < (build P S).size
  · rcases hwf.reach_all v hv with ⟨s, hr⟩
    have hs0 : Reaches (trie_phase P S) s v := (sameSkel_reaches hinv.skel s v).mpr hr
    have hsize : s.length ≤ (build P S).size := by
      have h2 := reaches_len_le (build P S) hwf s v hr
      omega
    rw [outAt_chain (trie_phase P S) hwf0 Q (build P S) hinv hroot
      (outKN_build P S) ((build P S).size) v s hr hsize (hbound v s hs0) w,
      hall v, List.nil_append]
    exact flatMap_nil_of_all _ _ hall
  · exact outAt_of_ge (build P S) v (Nat.le_of_not_lt hv) w

/-! ### Counting emissions per pattern along a traversal -/

/-- Range-filtered sum of the scores of a per-pattern entry list. -/
def entrySum : List (Nat × Int) → Int → Int → Int
  | [], _, _ => 0
  | e :: es, f, l => (if f ≤ (e.1 : Int) ∧ (e.1 : Int) ≤ l then e.2 else 0) + entrySum es f l

/-- Does a per-pattern entry list carry an ordinal inside the range? -/
def entryHas : List (Nat × Int) → Int → Int → Bool
  | [], _, _ => false
  | e :: es, f, l => decide (f ≤ (e.1 : Int) ∧ (e.1 : Int) ≤ l) || entryHas es f l

theorem sumEms_append (l1 l2 : List (String × Nat × Int)) (f l : Int) (k : String) :
    sumEms (l1 ++ l2) f l k = sumEms l1 f l k + sumEms l2 f l k := by
  induction l1 with
  | nil =>
    show sumEms l2 f l k = 0 + sumEms l2 f l k
    rw [zero_add]
  | cons e l1 ih =>
    show (if e.1 = k ∧ f ≤ (e.2.1 : Int) ∧ (e.2.1 : Int) ≤ l then e.2.2 else 0)
        + sumEms (l1 ++ l2) f l k
      = ((if e.1 = k ∧ f ≤ (e.2.1 : Int) ∧ (e.2.1 : Int) ≤ l then e.2.2 else 0)
        + sumEms l1 f l k) + sumEms l2 f l k
    rw [ih, add_assoc]

theorem hasEms_append (l1 l2 : List (String × Nat × Int)) (f l : Int) (k : String) :
    hasEms (l1 ++ l2) f l k = (hasEms l1 f l k || hasEms l2 f l k) := by
  induction l1 with
  | nil =>
    show hasEms l2 f l k = (false || hasEms l2 f l k)
    rw [Bool.false_or]
  | cons e l1 ih =>
    show (decide (e.1 = k ∧ f ≤ (e.2.1 : Int) ∧ (e.2.1 : Int) ≤ l) || hasEms (l1 ++ l2) f l k)
      = ((decide (e.1 = k ∧ f ≤ (e.2.1 : Int) ∧ (e.2.1 : Int) ≤ l) || hasEms l1 f l k)
        || hasEms l2 f l k)
    rw [ih, Bool.or_assoc]

theorem sumEms_tagged (k : String) (f l : Int) (w : String) :
    ∀ (es : List (Nat × Int)),
      sumEms (es.map (fun e => (k, e))) f l w
        = if k = w then entrySum es f l else 0 := by
  intro es
  induction es with
  | nil =>
    by_cases hk : k = w <;> simp [sumEms, entrySum, hk]
  | cons e es ih =>
    show (if k = w ∧ f ≤ (e.1 : Int) ∧ (e.1 : Int) ≤ l then e.2 else 0)
        + sumEms (es.map (fun e => (k, e))) f l w
      = if k = w then entrySum (e :: es) f l else 0
    rw [ih]
    by_cases hk : k = w
    · rw [if_pos hk, if_pos hk]
      show _ = (if f ≤ (e.1 : Int) ∧ (e.1 : Int) ≤ l then e.2 else 0) + entrySum es f l
      by_cases hc : f ≤ (e.1 : Int) ∧ (e.1 : Int) ≤ l
      · rw [if_pos ⟨hk, hc⟩, if_pos hc]
      · rw [if_neg (fun hh => hc hh.2), if_neg hc]
    · rw [if_neg (fun hh => hk hh.1), if_neg hk, if_neg hk, zero_add]

theorem hasEms_tagged (k : String) (f l : Int) (w : String) :
    ∀ (es : List (Nat × Int)),
      hasEms (es.map (fun e => (k, e))) f l w
        = if k = w then entryHas es f l else false := by
  intro es
  induction es with
  | nil =>
    by_cases hk : k = w <;> simp [hasEms, entryHas, hk]
  | cons e es ih =>
    show (decide (k = w ∧ f ≤ (e.1 : Int) ∧ (e.1 : Int) ≤ l)
        || hasEms (es.map (fun e => (k, e))) f l w)
      = if k = w then entryHas (e :: es) f l else false
    rw [ih]
    by_cases hk : k = w
    · subst hk
      simp [entryHas]
    · simp [hk]

theorem sumEms_outList (f l : Int) (w : String) :
    ∀ (out : List (String × List (Nat × Int))), (out.map Prod.fst).Nodup →
      sumEms (out.flatMap (fun kl => kl.2.map (fun e => (kl.1, e)))) f l w
        = entrySum ((assocGet out w).getD []) f l := by
  intro out
  induction out with
  | nil => intro _; rfl
  | cons kl out ih =>
    intro hnd
    obtain ⟨k, es⟩ := kl
    simp only [List.map_cons, List.nodup_cons] at hnd
    rw [List.flatMap_cons, sumEms_append, sumEms_tagged, ih hnd.2]
    by_cases hk : k = w
    · subst hk
      have hnone : assocGet out k = none := by
        rw [assocGet_none_iff]
        intro p hp hpk
        exact hnd.1 (hpk ▸ List.mem_map_of_mem Prod.fst hp)
      have hself : assocGet ((k, es) :: out) k = some es := by
        show (if k = k then some es else assocGet out k) = some es
        rw [if_pos rfl]
      rw [if_pos rfl, hnone, hself]
      show entrySum es f l + entrySum [] f l = entrySum es f l
      show entrySum es f l + 0 = entrySum es f l
      ring
    · have hskip : assocGet ((k, es) :: out) w = assocGet out w := by
        show (if k = w then some es else assocGet out w) = assocGet out w
        rw [if_neg hk]
      rw [if_neg hk, hskip, zero_add]

theorem hasEms_outList (f l : Int) (w : String) :
    ∀ (out : List (String × List (Nat × Int))), (out.map Prod.fst).Nodup →
      hasEms (out.flatMap (fun kl => kl.2.map (fun e => (kl.1, e)))) f l w
        = entryHas ((assocGet out w).getD []) f l := by
  intro out
  induction out with
  | nil => intro _; rfl
  | cons kl out ih =>
    intro hnd
    obtain ⟨k, es⟩ := kl
    simp only [List.map_cons, List.nodup_cons] at hnd
    rw [List.flatMap_cons, hasEms_append, hasEms_tagged, ih hnd.2]
    by_cases hk : k = w
    · subst hk
      have hnone : assocGet out k = none := by
        rw [assocGet_none_iff]
        intro p hp hpk
        exact hnd.1 (hpk ▸ List.mem_map_of_mem Prod.fst hp)
      have hself : assocGet ((k, es) :: out) k = some es := by
        show (if k = k then some es else assocGet out k) = some es
        rw [if_pos rfl]
      rw [if_pos rfl, hnone, hself]
      show (entryHas es f l || entryHas [] f l) = entryHas es f l
      show (entryHas es f l || false) = entryHas es f l
      rw [Bool.or_false]
    · have hskip : assocGet ((k, es) :: out) w = assocGet out w := by
        show (if k = w then some es else assocGet out w) = assocGet out w
        rw [if_neg hk]
      rw [if_neg hk, hskip, Bool.false_or]

theorem sumEms_emit_all (a : Automaton) (hkn : OutKN a) (ch : Nat) (f l : Int) (w : String) :
    sumEms (emit_all a ch) f l w = entrySum (outAt a ch w) f l :=
  sumEms_outList f l w ((a.nth ch).output) (outKN_nth a hkn ch)

theorem hasEms_emit_all (a : Automaton) (hkn : OutKN a) (ch : Nat) (f l : Int) (w : String) :
    hasEms (emit_all a ch) f l w = entryHas (outAt a ch w) f l :=
  hasEms_outList f l w ((a.nth ch).output) (outKN_nth a hkn ch)

theorem emissions_cons_some (a : Automaton) (c : Char) (cs : List Char) (n n' ch : Nat)
    (h : trav_step a n c = (n', some ch)) :
    emissions a (c :: cs) n = emit_all a ch ++ emissions a cs ch := by
  show (match trav_step a n c with
    | (_, some ch) => emit_all a ch ++ emissions a cs ch
    | (n', none) => emissions a cs n') = emit_all a ch ++ emissions a cs ch
  rw [h]

theorem emissions_cons_none (a : Automaton) (c : Char) (cs : List Char) (n n' : Nat)
    (h : trav_step a n c = (n', none)) :
    emissions a (c :: cs) n = emissions a cs n' := by
  show (match trav_step a n c with
    | (_, some ch) => emit_all a ch ++ emissions a cs ch
    | (n', none) => emissions a cs n') = emissions a cs n'
  rw [h]

theorem get_child_skel {a a' : Automaton} (h : sameSkel a a') (i : Nat) (c : Char) :
    (a'.nth i).get_child c = (a.nth i).get_child c := by
  unfold Node.get_child
  rw [h.2 i]

/-- Occurrences of `wd` ending inside `cs`, past the consumed prefix
`u0`: positions `j` with `wd` a suffix of `u0 ++ cs.take (j+1)`, in the
step-by-step form the traversal follows. -/
def matchCount (wd : List Char) : List Char → List Char → Nat
  | _, [] => 0
  | u0, c :: cs => (if wd <:+ u0 ++ [c] then 1 else 0) + matchCount wd (u0 ++ [c]) cs

theorem matchCount_nil (wd u0 : List Char) : matchCount wd u0 [] = 0 := rfl

theorem matchCount_cons (wd u0 : List Char) (c : Char) (cs : List Char) :
    matchCount wd u0 (c :: cs)
      = (if wd <:+ u0 ++ [c] then 1 else 0) + matchCount wd (u0 ++ [c]) cs := rfl

/-- The central traversal invariant: scanning `cs` with the cursor on
the node of the longest suffix-path `t` of the consumed prefix `u0`, the
pattern `w` is emitted (with its full recorded entry list) exactly at
the positions where `w` becomes a suffix of the consumed text. -/
theorem emissions_spec (P : List String) (S : List Int) (hne : ∀ p ∈ P, p ≠ "")
    (w : String) (hwd : w.data ≠ []) (uw : Nat)
    (hruw : Reaches (trie_phase P S) w.data uw) (f l : Int) :
    ∀ (cs u0 t : List Char) (n : Nat),
      Reaches (build P S) t n → t <:+ u0 →
      (∀ u, u <:+ u0 → IsPath (build P S) u → u.length ≤ t.length) →
      sumEms (emissions (build P S) cs n) f l w
          = (matchCount w.data u0 cs : Int) * entrySum (directEntries P S w) f l ∧
        (hasEms (emissions (build P S) cs n) f l w = true
          ↔ 1 ≤ matchCount w.data u0 cs ∧ entryHas (directEntries P S w) f l = true) := by
  have hwf0 : Wf (trie_phase P S) := wf_trie_phase P S
  have hroot : ((trie_phase P S).nth 0).output = [] := trie_phase_root_output P S hne
  rcases build_fail_spec (trie_phase P S) hwf0 hroot with ⟨Q, hinv, hbound⟩
  have hwf : Wf (build P S) := sameSkel_wf hinv.skel hwf0
  have hkn : OutKN (build P S) := outKN_build P S
  have hskel : sameSkel (trie_phase P S) (build P S) := hinv.skel
  intro cs
  induction cs with
  | nil =>
    intro u0 t n _ _ _
    constructor
    · show sumEms [] f l w = (matchCount w.data u0 [] : Int) * entrySum (directEntries P S w) f l
      rw [matchCount_nil]
      show (0 : Int) = ((0 : Nat) : Int) * _
      simp
    · show hasEms [] f l w = true ↔ 1 ≤ matchCount w.data u0 [] ∧ _
      rw [matchCount_nil]
      show false = true ↔ _
      simp
  | cons c cs ih =>
    intro u0 t n hr hsuf hmax
    have htlen : t.length ≤ Q := hbound n t ((sameSkel_reaches hinv.skel t n).mpr hr)
    rcases trav_step_spec (build P S) hwf c Q hinv.failb t n hr htlen with
      ⟨t', f', ch, hstep, hrt', hsuft', hch', hmax'⟩ | ⟨hstep, hall⟩
    · -- a match: the cursor moves to the child `ch` of the longest
      -- suffix-path `t'` of `t` having one, and `ch` emits
      have hreach_ch : Reaches (build P S) (t' ++ [c]) ch := Reaches.step hrt' hch'
      have hems := emissions_cons_some (build P S) c cs n f' ch hstep
      have hsuf1 : t' ++ [c] <:+ u0 ++ [c] := suffix_snoc_mono c (hsuft'.trans hsuf)
      have hmax1 : ∀ u, u <:+ u0 ++ [c] → IsPath (build P S) u →
          u.length ≤ (t' ++ [c]).length := by
        intro u hu hup
        rcases suffix_snoc_cases hu with heq | ⟨x, hxeq, hx⟩
        · rw [heq]
          simp
        · rcases hup with ⟨wx', hwx'⟩
          rcases reaches_snoc_inv (build P S) u wx' hwx' x c hxeq with ⟨wx, hwx, hcx⟩
          have hxle : x.length ≤ t.length := hmax x hx ⟨wx, hwx⟩
          have hxt : x <:+ t := suffix_of_suffix_le hx hsuf hxle
          have hxt' : x.length ≤ t'.length := hmax' x wx hxt hwx
            (by rw [hcx]; exact fun hh => Option.noConfusion hh)
          rw [hxeq]
          simp only [List.length_append, List.length_cons, List.length_nil]
          omega
      have hocc_iff : w.data <:+ t' ++ [c] ↔ w.data <:+ u0 ++ [c] := by
        constructor
        · intro hh
          exact hh.trans hsuf1
        · intro hh
          rcases suffix_snoc_cases hh with heq | ⟨x, hxeq, hx⟩
          · exact absurd heq hwd
          · rcases reaches_snoc_inv (trie_phase P S) w.data uw hruw x c hxeq with
              ⟨ux, hux, hcux⟩
            have huxb : Reaches (build P S) x ux :=
              (sameSkel_reaches hinv.skel x ux).mp hux
            have hcuxb : ((build P S).nth ux).get_child c = some uw := by
              rw [get_child_skel hskel]
              exact hcux
            have hxle : x.length ≤ t.length := hmax x hx ⟨ux, huxb⟩
            have hxt : x <:+ t := suffix_of_suffix_le hx hsuf hxle
            have hxle' : x.length ≤ t'.length := hmax' x ux hxt huxb
              (by rw [hcuxb]; exact fun hh => Option.noConfusion hh)
            have hxt' : x <:+ t' := suffix_of_suffix_le hxt hsuft' hxle'
            rw [hxeq]
            exact suffix_snoc_mono c hxt'
      have hout_ch : outAt (build P S) ch w
          = if w.data <:+ t' ++ [c] then directEntries P S w else [] :=
        outAt_build_eq P S hne ch (t' ++ [c]) hreach_ch w uw hruw
      rcases ih (u0 ++ [c]) (t' ++ [c]) ch hreach_ch hsuf1 hmax1 with ⟨ihsum, ihhas⟩
      constructor
      · rw [hems, sumEms_append, sumEms_emit_all (build P S) hkn ch f l w, hout_ch,
          ihsum, matchCount_cons]
        by_cases hocc : w.data <:+ u0 ++ [c]
        · rw [if_pos (hocc_iff.mpr hocc), if_pos hocc]
          push_cast
          ring
        · rw [if_neg (fun hh => hocc (hocc_iff.mp hh)), if_neg hocc]
          show entrySum [] f l + _ = _
          show (0 : Int) + _ = _
          push_cast
          ring
      · rw [hems, hasEms_append, hasEms_emit_all (build P S) hkn ch f l w, hout_ch,
          matchCount_cons]
        by_cases hocc : w.data <:+ u0 ++ [c]
        · rw [if_pos (hocc_iff.mpr hocc), if_pos hocc]
          simp only [Bool.or_eq_true, ihhas]
          constructor
          · rintro (hE | ⟨_, hE⟩)
            · exact ⟨by omega, hE⟩
            · exact ⟨by omega, hE⟩
          · rintro ⟨_, hE⟩
            exact Or.inl hE
        · rw [if_neg (fun hh => hocc (hocc_iff.mp hh)), if_neg hocc]
          show (entryHas [] f l || _) = true ↔ _
          show (false || _) = true ↔ _
          rw [Bool.false_or, ihhas]
          constructor <;> rintro ⟨h1, h2⟩ <;> exact ⟨by omega, h2⟩
    · -- no suffix-path of `t` has a `c` child: the cursor resets to the
      -- root and, crucially, no pattern ends at this position
      have hems := emissions_cons_none (build P S) c cs n 0 hstep
      have hmax1 : ∀ u, u <:+ u0 ++ [c] → IsPath (build P S) u →
          u.length ≤ ([] : List Char).length := by
        intro u hu hup
        rcases suffix_snoc_cases hu with heq | ⟨x, hxeq, hx⟩
        · rw [heq]
        · exfalso
          rcases hup with ⟨wx', hwx'⟩
          rcases reaches_snoc_inv (build P S) u wx' hwx' x c hxeq with ⟨wx, hwx, hcx⟩
          have hxle : x.length ≤ t.length := hmax x hx ⟨wx, hwx⟩
          have hxt : x <:+ t := suffix_of_suffix_le hx hsuf hxle
          have hnone := hall x wx hxt hwx
          rw [hnone] at hcx
          exact Option.noConfusion hcx
      have hocc : ¬ (w.data <:+ u0 ++ [c]) := by
        intro hh
        rcases suffix_snoc_cases hh with heq | ⟨x, hxeq, hx⟩
        · exact hwd heq
        · rcases reaches_snoc_inv (trie_phase P S) w.data uw hruw x c hxeq with
            ⟨ux, hux, hcux⟩
          have huxb : Reaches (build P S) x ux :=
            (sameSkel_reaches hinv.skel x ux).mp hux
          have hxle : x.length ≤ t.length := hmax x hx ⟨ux, huxb⟩
          have hxt : x <:+ t := suffix_of_suffix_le hx hsuf hxle
          have hnone := hall x ux hxt huxb
          rw [get_child_skel hskel] at hnone
          rw [hnone] at hcux
          exact Option.noConfusion hcux
      rcases ih (u0 ++ [c]) [] 0 Reaches.root List.nil_suffix hmax1 with ⟨ihsum, ihhas⟩
      constructor
      · rw [hems, ihsum, matchCount_cons, if_neg hocc]
        push_cast
        ring
      · rw [hems, ihhas, matchCount_cons, if_neg hocc]
        constructor <;> rintro ⟨h1, h2⟩ <;> exact ⟨by omega, h2⟩

/-- With no recorded entry for `w`, a traversal emits nothing keyed `w`. -/
theorem emissions_nil_key (P : List String) (S : List Int) (hne : ∀ p ∈ P, p ≠ "")
    (w : String) (hD : directEntries P S w = []) (f l : Int) :
    ∀ (cs : List Char) (n : Nat),
      sumEms (emissions (build P S) cs n) f l w = 0 ∧
        hasEms (emissions (build P S) cs n) f l w = false := by
  have hkn : OutKN (build P S) := outKN_build P S
  have hout := outAt_build_nil P S hne w hD
  intro cs
  induction cs with
  | nil => intro n; exact ⟨rfl, rfl⟩
  | cons c cs ih =>
    intro n
    cases hts : trav_step (build P S) n c with
    | mk n' o =>
      cases o with
      | some ch =>
        rw [emissions_cons_some (build P S) c cs n n' ch hts]
        constructor
        · rw [sumEms_append, sumEms_emit_all (build P S) hkn ch f l w, hout ch, (ih ch).1]
          simp [entrySum]
        · rw [hasEms_append, hasEms_emit_all (build P S) hkn ch f l w, hout ch, (ih ch).2]
          simp [entryHas]
      | none =>
        rw [emissions_cons_none (build P S) c cs n n' hts]
        exact ih n'

/-- The value and key-presence of an arbitrary string after a full
traversal: its value is its occurrence count in the text times the
range-filtered sum of its recorded scores, and it appears as a key
exactly when it occurs and some recorded ordinal lies in the range. -/
theorem traverse_closed_form (P : List String) (S : List Int) (hne : ∀ p ∈ P, p ≠ "")
    (t : String) (f l : Int) (p : String) :
    counterVal (traverse (build P S) t f l) p
        = (matchCount p.data [] t.data : Int) * entrySum (directEntries P S p) f l ∧
      (counterFind (traverse (build P S) t f l) p ≠ none
        ↔ 1 ≤ matchCount p.data [] t.data ∧ entryHas (directEntries P S p) f l = true) := by
  by_cases hD : directEntries P S p = []
  · rcases emissions_nil_key P S hne p hD f l t.data 0 with ⟨hsum, hhas⟩
    constructor
    · rw [counterVal_traverse, hsum, hD]
      show (0 : Int) = _ * entrySum [] f l
      show (0 : Int) = _ * 0
      rw [mul_zero]
    · constructor
      · intro hfind
        exact absurd ((counterFind_traverse_none _ _ _ _ _).mpr hhas) hfind
      · rintro ⟨_, hE⟩
        rw [hD] at hE
        exact Bool.noConfusion hE
  · have hpath : IsPath (trie_phase P S) p.data := trie_path_of_direct P S p hD
    have hpd : p.data ≠ [] := by
      have hex : ∃ q ∈ (P.zip S).enum, q.2.1 = p := by
        have hD' : pairEntries ((P.zip S).enum) p ≠ [] := hD
        unfold pairEntries at hD'
        rcases List.exists_mem_of_ne_nil _ hD' with ⟨e, he⟩
        rcases List.mem_map.mp he with ⟨q, hq, _⟩
        rcases List.mem_filter.mp hq with ⟨hq1, hq2⟩
        exact ⟨q, hq1, of_decide_eq_true hq2⟩
      rcases hex with ⟨q, hq, hqp⟩
      have hpP : p ∈ P := by
        rw [← hqp]
        exact (List.of_mem_zip (mem_enumFrom_snd _ 0 _ hq)).1
      intro hnil
      exact hne p hpP (string_data_inj p "" hnil)
    rcases hpath with ⟨uw, hruw⟩
    rcases emissions_spec P S hne p hpd uw hruw f l t.data [] [] 0 Reaches.root
      List.nil_suffix (fun u hu _ => by rw [List.suffix_nil.mp hu]) with ⟨hsum, hhas⟩
    constructor
    · rw [counterVal_traverse]
      exact hsum
    · constructor
      · intro hfind
        apply hhas.mp
        cases hE : hasEms (emissions (build P S) t.data 0) f l p with
        | true => rfl
        | false => exact absurd ((counterFind_traverse_none _ _ _ _ _).mpr hE) hfind
      · intro hE hfind
        rw [counterFind_traverse_none] at hfind
        rw [hhas.mpr hE] at hfind
        exact Bool.noConfusion hfind

/-! ### Occurrence counting and the claim-side formulas -/

/-- The number of occurrences of `wd` as a contiguous substring of `td`,
counting overlaps: one per end position. -/
def occCount (wd td : List Char) : Nat :=
  ((List.range td.length).filter (fun j => decide (wd <:+ td.take (j+1)))).length

theorem countP_ext {α : Type} (p q : α → Bool) :
    ∀ (ls : List α), (∀ x ∈ ls, p x = q x) → ls.countP p = ls.countP q := by
  intro ls
  induction ls with
  | nil => intro _; rfl
  | cons x ls ih =>
    intro h
    rw [List.countP_cons, List.countP_cons, h x (List.mem_cons_self _ _),
      ih (fun y hy => h y (List.mem_cons_of_mem _ hy))]

theorem matchCount_positions (wd : List Char) :
    ∀ (cs u0 : List Char),
      matchCount wd u0 cs
        = (List.range cs.length).countP (fun j => decide (wd <:+ u0 ++ cs.take (j+1))) := by
  intro cs
  induction cs with
  | nil => intro u0; rfl
  | cons c cs ih =>
    intro u0
    rw [matchCount_cons, ih (u0 ++ [c])]
    show _ = (List.range (cs.length + 1)).countP
      (fun j => decide (wd <:+ u0 ++ (c :: cs).take (j+1)))
    rw [List.range_succ_eq_map, List.countP_cons, List.countP_map]
    have hcomp : ((List.range cs.length).countP
          ((fun j => decide (wd <:+ u0 ++ (c :: cs).take (j+1))) ∘ Nat.succ))
        = (List.range cs.length).countP
          (fun j => decide (wd <:+ (u0 ++ [c]) ++ cs.take (j+1))) := by
      apply countP_ext
      intro j _
      show decide (wd <:+ u0 ++ (c :: cs).take (j+1+1))
        = decide (wd <:+ (u0 ++ [c]) ++ cs.take (j+1))
      have harg : u0 ++ (c :: cs).take (j+1+1) = (u0 ++ [c]) ++ cs.take (j+1) := by
        rw [List.take_succ_cons]
        simp
      rw [harg]
    rw [hcomp]
    have hif : (if ((fun j => decide (wd <:+ u0 ++ (c :: cs).take (j+1))) 0)
          then (1 : Nat) else 0)
        = (if wd <:+ u0 ++ [c] then 1 else 0) := by
      show (if decide (wd <:+ u0 ++ [c]) = true then (1 : Nat) else 0) = _
      by_cases hocc : wd <:+ u0 ++ [c]
      · rw [if_pos (decide_eq_true hocc), if_pos hocc]
      · rw [if_neg (fun hd => hocc (of_decide_eq_true hd)), if_neg hocc]
    rw [hif]
    exact Nat.add_comm _ _

theorem occCount_eq_matchCount (wd td : List Char) :
    occCount wd td = matchCount wd [] td := by
  rw [matchCount_positions]
  unfold occCount
  rw [← List.countP_eq_length_filter]
  apply countP_ext
  intro j _
  simp

/-- Membership in the per-pattern recorded entries. -/
theorem mem_pairEntries (p : String) (e : Nat × Int) :
    ∀ (L : List (Nat × String × Int)),
      (e ∈ pairEntries L p ↔ ∃ q ∈ L, q.2.1 = p ∧ e = (q.1, q.2.2)) := by
  intro L
  induction L with
  | nil => simp [pairEntries]
  | cons q L ih =>
    rw [pairEntries_cons]
    by_cases hk : q.2.1 = p
    · rw [if_pos hk]
      show e ∈ (q.1, q.2.2) :: pairEntries L p ↔ _
      rw [List.mem_cons, ih]
      constructor
      · rintro (rfl | ⟨q', hq', hk', he'⟩)
        · exact ⟨q, List.mem_cons_self _ _, hk, rfl⟩
        · exact ⟨q', List.mem_cons_of_mem _ hq', hk', he'⟩
      · rintro ⟨q', hq', hk', he'⟩
        rcases List.mem_cons.mp hq' with rfl | hq'
        · exact Or.inl he'
        · exact Or.inr ⟨q', hq', hk', he'⟩
    · rw [if_neg hk]
      show e ∈ pairEntries L p ↔ _
      rw [ih]
      constructor
      · rintro ⟨q', hq', hk', he'⟩
        exact ⟨q', List.mem_cons_of_mem _ hq', hk', he'⟩
      · rintro ⟨q', hq', hk', he'⟩
        rcases List.mem_cons.mp hq' with rfl | hq'
        · exact absurd hk' hk
        · exact ⟨q', hq', hk', he'⟩

theorem entryHas_iff (f l : Int) :
    ∀ (es : List (Nat × Int)),
      (entryHas es f l = true ↔ ∃ e ∈ es, f ≤ (e.1 : Int) ∧ (e.1 : Int) ≤ l) := by
  intro es
  induction es with
  | nil => simp [entryHas]
  | cons e es ih =>
    show (decide (f ≤ (e.1 : Int) ∧ (e.1 : Int) ≤ l) || entryHas es f l) = true ↔ _
    rw [Bool.or_eq_true, decide_eq_true_eq, ih]
    constructor
    · rintro (h | ⟨e', he', h'⟩)
      · exact ⟨e, List.mem_cons_self _ _, h⟩
      · exact ⟨e', List.mem_cons_of_mem _ he', h'⟩
    · rintro ⟨e', he', h'⟩
      rcases List.mem_cons.mp he' with rfl | he'
      · exact Or.inl h'
      · exact Or.inr ⟨e', he', h'⟩

theorem entrySum_nonneg (f l : Int) :
    ∀ (es : List (Nat × Int)), (∀ e ∈ es, 0 ≤ e.2) → 0 ≤ entrySum es f l := by
  intro es
  induction es with
  | nil => intro _; exact le_refl 0
  | cons e es ih =>
    intro h
    show 0 ≤ (if f ≤ (e.1 : Int) ∧ (e.1 : Int) ≤ l then e.2 else 0) + entrySum es f l
    have h1 : 0 ≤ entrySum es f l := ih (fun e' he' => h e' (List.mem_cons_of_mem _ he'))
    by_cases hc : f ≤ (e.1 : Int) ∧ (e.1 : Int) ≤ l
    · rw [if_pos hc]
      have h2 := h e (List.mem_cons_self _ _)
      omega
    · rw [if_neg hc]
      omega

theorem entrySum_pos (f l : Int) :
    ∀ (es : List (Nat × Int)), (∀ e ∈ es, 0 < e.2) → entryHas es f l = true →
      0 < entrySum es f l := by
  intro es
  induction es with
  | nil =>
    intro _ hh
    exact Bool.noConfusion hh
  | cons e es ih =>
    intro hpos hhas
    show 0 < (if f ≤ (e.1 : Int) ∧ (e.1 : Int) ≤ l then e.2 else 0) + entrySum es f l
    have hnn : 0 ≤ entrySum es f l :=
      entrySum_nonneg f l es (fun e' he' => le_of_lt (hpos e' (List.mem_cons_of_mem _ he')))
    by_cases hc : f ≤ (e.1 : Int) ∧ (e.1 : Int) ≤ l
    · rw [if_pos hc]
      have h2 := hpos e (List.mem_cons_self _ _)
      omega
    · rw [if_neg hc]
      have hhas' : entryHas es f l = true := by
        have hcons : (decide (f ≤ (e.1 : Int) ∧ (e.1 : Int) ≤ l) || entryHas es f l)
            = true := hhas
        rw [decide_eq_false hc, Bool.false_or] at hcons
        exact hcons
      have h2 := ih (fun e' he' => hpos e' (List.mem_cons_of_mem _ he')) hhas'
      omega

theorem sum_map_snd_mul (r : Int) :
    ∀ (L : List (Nat × String × Int)),
      (L.map (fun q => q.2.2 * r)).sum = (L.map (fun q => q.2.2)).sum * r := by
  intro L
  induction L with
  | nil => simp
  | cons x L ih =>
    simp only [List.map_cons, List.sum_cons, ih]
    ring

theorem entrySum_pairEntries (p : String) (first last : Nat) :
    ∀ (L : List (Nat × String × Int)),
      entrySum (pairEntries L p) (first : Int) (last : Int)
        = ((L.filter (fun q => decide (q.2.1 = p ∧ first ≤ q.1 ∧ q.1 ≤ last))).map
            (fun q => q.2.2)).sum := by
  intro L
  induction L with
  | nil => rfl
  | cons q L ih =>
    rw [pairEntries_cons]
    by_cases hk : q.2.1 = p
    · rw [if_pos hk]
      show (if (first : Int) ≤ (q.1 : Int) ∧ (q.1 : Int) ≤ (last : Int) then q.2.2 else 0)
          + entrySum (pairEntries L p) (first : Int) (last : Int) = _
      rw [ih]
      by_cases hr : first ≤ q.1 ∧ q.1 ≤ last
      · have hfc : List.filter (fun q => decide (q.2.1 = p ∧ first ≤ q.1 ∧ q.1 ≤ last)) (q :: L)
            = q :: List.filter (fun q => decide (q.2.1 = p ∧ first ≤ q.1 ∧ q.1 ≤ last)) L := by
          simp [List.filter_cons, hk, hr.1, hr.2]
        rw [if_pos ⟨by exact_mod_cast hr.1, by exact_mod_cast hr.2⟩, hfc,
          List.map_cons, List.sum_cons]
      · have hfc : List.filter (fun q => decide (q.2.1 = p ∧ first ≤ q.1 ∧ q.1 ≤ last)) (q :: L)
            = List.filter (fun q => decide (q.2.1 = p ∧ first ≤ q.1 ∧ q.1 ≤ last)) L := by
          simp [List.filter_cons, hr]
        rw [if_neg (fun hc => hr ⟨by exact_mod_cast hc.1, by exact_mod_cast hc.2⟩), hfc,
          zero_add]
    · rw [if_neg hk]
      show entrySum (pairEntries L p) (first : Int) (last : Int) = _
      have hfc : List.filter (fun q => decide (q.2.1 = p ∧ first ≤ q.1 ∧ q.1 ≤ last)) (q :: L)
          = List.filter (fun q => decide (q.2.1 = p ∧ first ≤ q.1 ∧ q.1 ≤ last)) L := by
        simp [List.filter_cons, hk]
      rw [ih, hfc]

/-- C1: for non-empty patterns, parallel scores, any text and any valid
ordinal range, `traverse` maps each string `p` to the sum, over the
enumerated `(pattern, score)` pairs with pattern `p` and ordinal inside
`[first, last]`, of the score times the number of (overlapping)
occurrences of `p` in the text; and `p` appears as a key exactly when it
occurs at least once and such an in-range pair exists. -/
theorem C1_traverse_scores (P : List String) (S : List Int) (t : String)
    (first last : Nat) (_hlen : P.length = S.length) (hne : ∀ p ∈ P, p ≠ "")
    (_h1 : first ≤ last) (_h2 : last ≤ P.length - 1) (_h3 : 1 ≤ P.length) :
    ∀ p : String,
      counterVal (traverse (build P S) t (first : Int) (last : Int)) p
        = ((((P.zip S).enum).filter
              (fun q => decide (q.2.1 = p ∧ first ≤ q.1 ∧ q.1 ≤ last))).map
            (fun q => q.2.2 * (occCount p.data t.data : Int))).sum ∧
      (counterFind (traverse (build P S) t (first : Int) (last : Int)) p ≠ none
        ↔ 1 ≤ occCount p.data t.data ∧
          ∃ q ∈ (P.zip S).enum, q.2.1 = p ∧ first ≤ q.1 ∧ q.1 ≤ last) := by
  intro p
  rcases traverse_closed_form P S hne t (first : Int) (last : Int) p with ⟨hval, hfind⟩
  constructor
  · rw [hval, ← occCount_eq_matchCount, sum_map_snd_mul, ← entrySum_pairEntries]
    show (occCount p.data t.data : Int)
        * entrySum (pairEntries ((P.zip S).enum) p) (first : Int) (last : Int)
      = entrySum (pairEntries ((P.zip S).enum) p) (first : Int) (last : Int)
        * (occCount p.data t.data : Int)
    exact mul_comm _ _
  · rw [hfind, ← occCount_eq_matchCount]
    have hbridge : entryHas (directEntries P S p) (first : Int) (last : Int) = true
        ↔ ∃ q ∈ (P.zip S).enum, q.2.1 = p ∧ first ≤ q.1 ∧ q.1 ≤ last := by
      rw [entryHas_iff]
      constructor
      · rintro ⟨e, he, hr1, hr2⟩
        rcases (mem_pairEntries p e ((P.zip S).enum)).mp he with ⟨q, hq, hk2, he'⟩
        subst he'
        exact ⟨q, hq, hk2, by exact_mod_cast hr1, by exact_mod_cast hr2⟩
      · rintro ⟨q, hq, hk2, hr1, hr2⟩
        exact ⟨(q.1, q.2.2), (mem_pairEntries p _ _).mpr ⟨q, hq, hk2, rfl⟩,
          by exact_mod_cast hr1, by exact_mod_cast hr2⟩
    rw [hbridge]

theorem C1_traverse_scores_witness :
    (["ab", "b"] : List String).length = ([2, 3] : List Int).length ∧
    (∀ p ∈ (["ab", "b"] : List String), p ≠ "") ∧
    (0 : Nat) ≤ 1 ∧ (1 : Nat) ≤ (["ab", "b"] : List String).length - 1 ∧
    1 ≤ (["ab", "b"] : List String).length ∧
    (∀ p : String,
      counterVal (traverse (build ["ab", "b"] [2, 3]) "cab" ((0 : Nat) : Int) ((1 : Nat) : Int)) p
        = (((((["ab", "b"] : List String).zip ([2, 3] : List Int)).enum).filter
              (fun q => decide (q.2.1 = p ∧ (0 : Nat) ≤ q.1 ∧ q.1 ≤ (1 : Nat)))).map
            (fun q => q.2.2 * (occCount p.data "cab".data : Int))).sum ∧
      (counterFind (traverse (build ["ab", "b"] [2, 3]) "cab"
            ((0 : Nat) : Int) ((1 : Nat) : Int)) p ≠ none
        ↔ 1 ≤ occCount p.data "cab".data ∧
          ∃ q ∈ ((["ab", "b"] : List String).zip ([2, 3] : List Int)).enum,
            q.2.1 = p ∧ (0 : Nat) ≤ q.1 ∧ q.1 ≤ (1 : Nat))) :=
  ⟨by decide, by decide, by decide, by decide, by decide,
    C1_traverse_scores ["ab", "b"] [2, 3] "cab" 0 1
      (by decide) (by decide) (by decide) (by decide) (by decide)⟩

/-- C9 counterexample: with a zero score, a matched pattern appears as a
key with value 0, refuting "no key of the returned mapping ever has the
value 0". -/
theorem C9_counterexample :
    counterFind (traverse (build ["a"] [0]) "a" 0 0) "a" = some 0 := by decide

/-- C9 amended: a pattern with no in-range matching (ordinal, occurrence)
pair is absent from the result; and when every score is positive, no key
maps to 0 (with arbitrary scores a key can carry 0, as zero or cancelling
scores reach the `res[word] += h` line unconditionally). -/
theorem C9_absent_key (P : List String) (S : List Int) (t : String)
    (first last : Int) (hne : ∀ p ∈ P, p ≠ "") :
    ∀ p : String,
      ((occCount p.data t.data = 0 ∨
          ¬ ∃ q ∈ (P.zip S).enum, q.2.1 = p ∧ first ≤ (q.1 : Int) ∧ (q.1 : Int) ≤ last) →
        counterFind (traverse (build P S) t first last) p = none) ∧
      ((∀ s ∈ S, 0 < s) →
        ∀ v, counterFind (traverse (build P S) t first last) p = some v → v ≠ 0) := by
  intro p
  rcases traverse_closed_form P S hne t first last p with ⟨hval, hfind⟩
  have hhas_iff : entryHas (directEntries P S p) first last = true
      ↔ ∃ q ∈ (P.zip S).enum, q.2.1 = p ∧ first ≤ (q.1 : Int) ∧ (q.1 : Int) ≤ last := by
    rw [entryHas_iff]
    constructor
    · rintro ⟨e, he, hr1, hr2⟩
      rcases (mem_pairEntries p e ((P.zip S).enum)).mp he with ⟨q, hq, hk2, he'⟩
      subst he'
      exact ⟨q, hq, hk2, hr1, hr2⟩
    · rintro ⟨q, hq, hk2, hr1, hr2⟩
      exact ⟨(q.1, q.2.2), (mem_pairEntries p _ _).mpr ⟨q, hq, hk2, rfl⟩, hr1, hr2⟩
  constructor
  · intro hcase
    by_contra hfindne
    rcases hfind.mp hfindne with ⟨hocc, hhas⟩
    rcases hcase with hzero | hnopair
    · rw [occCount_eq_matchCount] at hzero
      omega
    · exact hnopair (hhas_iff.mp hhas)
  · intro hpos v hv
    have hfindne : counterFind (traverse (build P S) t first last) p ≠ none := by
      rw [hv]
      exact fun hh => Option.noConfusion hh
    rcases hfind.mp hfindne with ⟨hocc, hhas⟩
    have hvval : v = counterVal (traverse (build P S) t first last) p := by
      have hsome := counterFind_eq_some_counterVal _ _ hfindne
      rw [hv] at hsome
      exact Option.some.inj hsome
    rw [hvval, hval]
    have hDpos : ∀ e ∈ directEntries P S p, 0 < e.2 := by
      intro e he
      rcases (mem_pairEntries p e ((P.zip S).enum)).mp he with ⟨q, hq, _, he'⟩
      have hmem : q.2.2 ∈ S := (List.of_mem_zip (mem_enumFrom_snd _ 0 _ hq)).2
      rw [he']
      exact hpos q.2.2 hmem
    have hsumpos : 0 < entrySum (directEntries P S p) first last :=
      entrySum_pos first last _ hDpos hhas
    have hoccpos : (0 : Int) < (matchCount p.data [] t.data : Int) := by
      exact_mod_cast hocc
    exact ne_of_gt (mul_pos hoccpos hsumpos)

theorem C9_absent_key_witness :
    (∀ p ∈ (["ab", "b"] : List String), p ≠ "") ∧
    (∀ p : String,
      ((occCount p.data "cab".data = 0 ∨
          ¬ ∃ q ∈ ((["ab", "b"] : List String).zip ([2, 3] : List Int)).enum,
            q.2.1 = p ∧ (0 : Int) ≤ (q.1 : Int) ∧ (q.1 : Int) ≤ (1 : Int)) →
        counterFind (traverse (build ["ab", "b"] [2, 3]) "cab" 0 1) p = none) ∧
      ((∀ s ∈ ([2, 3] : List Int), 0 < s) →
        ∀ v, counterFind (traverse (build ["ab", "b"] [2, 3]) "cab" 0 1) p = some v →
          v ≠ 0)) :=
  ⟨by decide, C9_absent_key ["ab", "b"] [2, 3] "cab" 0 1 (by decide)⟩

end ACAutomation
